import Mathlib

/-!
Process tree of a checkpoint/restore tool (`pstree.c`): a shallow embedding of the file and
a verification of its specification.

Representation:

* `struct pstree_item` is a node of a rose tree: its scalar fields (`ItemData`) and the
  ordered list of its children (the `children` list head, linked through `sibling`).
* A non-NULL `struct pstree_item *` that points into a tree is a `Cursor`: the pointed item
  together with, innermost first, one `Frame` per ancestor holding the ancestor's fields and
  the siblings to the left and to the right of the path in the ancestor's children list.
  `item->parent` pops one frame; `item->sibling.next` is the head of `right`.
  A NULL pointer is `none`.
* Loops over the tree are run with a fuel bound computed from the size of the tree; running
  out of fuel is the distinct result `Err.OutOfFuel`.
* `pid_t` values are integers; `++max_pid` wraps to 32 bits.
* In that representation the `parent` field is the position in the tree. The definitions
  named `Linked.` repeat `prepare_pstree_ids` on items that also carry their address and the
  value of their `parent` field, written where the code writes it (`helper->parent`,
  `child->parent`); allocation returns the next free address. Dropping addresses and
  `parent` fields (`erase`) turns a run of `Linked.prepare_pstree_ids` into the run of
  `prepare_pstree_ids`.
-/

namespace Pstree

/-- Modelled from the spec: the `state` field of `struct pstree_item` and the constant
`TASK_HELPER` are declared in a header that is not part of the source file. The code only
ever compares `state` with `TASK_HELPER`; a zero-initialised item is not a helper. -/
inductive Kind where
  | REAL
  | HELPER
  deriving DecidableEq, Repr

/-- Scalar fields of `struct pstree_item` (`pid.virt`, `pid.real`, `pgid`, `sid`, `born_sid`,
`state`) and the `virt` ids of its `threads` array (`nr_threads` is the length). -/
structure ItemData where
  pid_virt : Int
  pid_real : Int
  pgid : Int
  sid : Int
  born_sid : Int
  state : Kind
  threads : List Int
  deriving DecidableEq, Repr

/-- A `struct pstree_item` with the items linked on its `children` list, in list order. -/
inductive pstree_item where
  | mk (d : ItemData) (children : List pstree_item)
  deriving Repr

/-- Scalar fields of an item. -/
def pstree_item.d : pstree_item → ItemData
  | .mk d _ => d

/-- The `children` list of an item. -/
def pstree_item.children : pstree_item → List pstree_item
  | .mk _ cs => cs

/-- One ancestor on the way from a pointed item to the root: the ancestor's fields, the
siblings before the path (`left`) and those after it (`right`). -/
structure Frame where
  d : ItemData
  left : List pstree_item
  right : List pstree_item
  deriving Repr

/-- A non-NULL pointer to an item inside a tree. -/
structure Cursor where
  focus : pstree_item
  ctx : List Frame
  deriving Repr

/-- Results that are not a normal return of 0: the `return -1` paths, named after the error
kinds of the specification, a NULL dereference, and fuel exhaustion of the model. -/
inductive Err where
  | ImageCorruption
  | SessionLeaderNotFound
  | ConflictingBornSession
  | RootNotSessionLeader
  | NullDeref
  | OutOfFuel
  deriving DecidableEq, Repr

/-- The item `item->parent` points to, rebuilt around the pointed item. -/
def Frame.plug (f : Frame) (t : pstree_item) : pstree_item :=
  .mk f.d (f.left ++ t :: f.right)

/-- Follow `->parent` to the top: the whole tree a cursor points into. -/
def plug_all : pstree_item → List Frame → pstree_item
  | t, [] => t
  | t, f :: fs => plug_all (f.plug t) fs

/-- The root item of the tree a cursor points into. -/
def Cursor.root (c : Cursor) : pstree_item := plug_all c.focus c.ctx

/-- Pointer to a root item (`parent == NULL`). -/
def Cursor.of_root (t : pstree_item) : Cursor := ⟨t, []⟩

mutual
/-- Pre-order listing of the fields of all items of a tree. -/
def pstree_item.flat : pstree_item → List ItemData
  | .mk d cs => d :: flat_list cs
/-- Pre-order listing of a list of sibling subtrees. -/
def flat_list : List pstree_item → List ItemData
  | [] => []
  | c :: cs => c.flat ++ flat_list cs
end

/-- Number of items of a tree. -/
def pstree_item.size (t : pstree_item) : Nat := t.flat.length

/-- `__alloc_pstree_item`: a zeroed item with empty lists, `pid.virt`, `pid.real` and
`born_sid` set to -1 (allocation succeeds). -/
def __alloc_pstree_item : ItemData :=
  { pid_virt := -1, pid_real := -1, pgid := 0, sid := 0, born_sid := -1,
    state := Kind.REAL, threads := [] }

/-- The `while (item->parent)` loop of `pstree_item_next`: the next sibling of the nearest
ancestor-or-self that has one. -/
def next_up : pstree_item → List Frame → Option Cursor
  | _, [] => none
  | t, f :: fs =>
    match f.right with
    | r :: rs => some ⟨r, { d := f.d, left := f.left ++ [t], right := rs } :: fs⟩
    | [] => next_up (f.plug t) fs

/-- `pstree_item_next`: the first child if there is one, else the next sibling of the nearest
ancestor-or-self that has one, else NULL. -/
def pstree_item_next (item : Cursor) : Option Cursor :=
  match item.focus with
  | .mk d (c :: cs) => some ⟨c, { d := d, left := [], right := cs } :: item.ctx⟩
  | .mk _ [] => next_up item.focus item.ctx

/-- `for_each_pstree_item(pi) body`: `for (pi = start; pi != NULL; pi = pstree_item_next(pi))`.
The body gets the loop-carried state and the pointer and returns the new state and the same
pointer into the possibly modified tree. Returns the final state and the whole tree. -/
def for_each_pstree_item {σ : Type} (body : σ → Cursor → Except Err (σ × Cursor)) :
    Nat → σ → Cursor → Except Err (σ × pstree_item)
  | 0, _, _ => .error Err.OutOfFuel
  | fuel + 1, s, pi =>
    match body s pi with
    | .error e => .error e
    | .ok (s1, pi1) =>
      match pstree_item_next pi1 with
      | none => .ok (s1, pi1.root)
      | some pi2 => for_each_pstree_item body fuel s1 pi2

/-- `for_each_pstree_item(pi) if (cond) break;`: the first item in walk order satisfying
`cond`, or NULL. -/
def pstree_item_search (cond : ItemData → Bool) : Nat → Cursor → Except Err (Option Cursor)
  | 0, _ => .error Err.OutOfFuel
  | fuel + 1, pi =>
    if cond pi.focus.d then .ok (some pi)
    else
      match pstree_item_next pi with
      | none => .ok none
      | some pi1 => pstree_item_search cond fuel pi1

/-- A record of the process-tree image (`PstreeEntry`); the 32-bit fields are read as `pid_t`. -/
structure PstreeEntry where
  pid : Int
  ppid : Int
  pgid : Int
  sid : Int
  threads : List Int
  deriving DecidableEq, Repr

/-- The shared counters `task_entries->nr`, `->nr_tasks`, `->nr_helpers`. -/
structure TaskEntries where
  nr : Nat
  nr_tasks : Nat
  nr_helpers : Nat
  deriving DecidableEq, Repr

/-- The global variables of the file: `root_item`, `max_pid` and the counters behind
`task_entries`. -/
structure Globals where
  root_item : Option pstree_item
  max_pid : Int
  task_entries : TaskEntries
  deriving Repr

/-- State at program start: `root_item` unset, `max_pid = 0`. -/
def Globals.init : Globals :=
  { root_item := none, max_pid := 0, task_entries := { nr := 0, nr_tasks := 0, nr_helpers := 0 } }

/-- Two's-complement reading of an integer as a 32-bit `int`. -/
def wrap32 (x : Int) : Int := (x + 2147483648) % 4294967296 - 2147483648

/-- `list_add(&child->sibling, &item->children)` (also the second half of `list_move`): link
`child` at the head of the children list of the pointed item. -/
def Cursor.list_add (item : Cursor) (child : pstree_item) : Cursor :=
  { item with focus := .mk item.focus.d (child :: item.focus.children) }

/-- The item `prepare_pstree` allocates for the record `e`, with `pid.virt`, `pgid`, `sid` and
the thread ids copied from the record. -/
def item_of_entry (e : PstreeEntry) : ItemData :=
  { __alloc_pstree_item with pid_virt := e.pid, pgid := e.pgid, sid := e.sid, threads := e.threads }

/-- The record `dump_pstree` fills in for one item: `ppid` is the parent's `pid.virt`, or 0
when `item->parent` is NULL. -/
def entry_of (item : Cursor) : PstreeEntry :=
  { pid := item.focus.d.pid_virt
    ppid := match item.ctx with
      | [] => 0
      | f :: _ => f.d.pid_virt
    pgid := item.focus.d.pgid
    sid := item.focus.d.sid
    threads := item.focus.d.threads }

/-- `dump_pstree`: the records written to the image, in order (the image opens and every
write succeeds), or the error return. -/
def dump_pstree (shell_job : Bool) (root_item : pstree_item) : Except Err (List PstreeEntry) :=
  if root_item.d.pid_virt ≠ root_item.d.sid ∧ shell_job = false then
    .error Err.RootNotSessionLeader
  else
    match for_each_pstree_item (fun (out : List PstreeEntry) item => .ok (out ++ [entry_of item], item))
        root_item.size [] (Cursor.of_root root_item) with
    | .error e => .error e
    | .ok (out, _) => .ok out

/-- Loop body of `prepare_pstree_for_shell_job`. -/
def shell_job_body (old_gid old_sid current_gid current_sid : Int) (_u : Unit) (pi : Cursor) :
    Except Err (Unit × Cursor) :=
  let d := pi.focus.d
  let d1 := if d.pgid = old_gid then { d with pgid := current_gid } else d
  let d2 := if d1.sid = old_sid then { d1 with sid := current_sid } else d1
  .ok ((), { pi with focus := .mk d2 pi.focus.children })

/-- `prepare_pstree_for_shell_job(root_item)`; `current_sid` and `current_gid` are the results
of `getsid(getpid())` and `getpgid(getpid())`. -/
def prepare_pstree_for_shell_job (shell_job : Bool) (current_sid current_gid : Int)
    (g : Globals) : Except Err Globals :=
  if shell_job = false then .ok g
  else
    match g.root_item with
    | none => .error Err.NullDeref
    | some root =>
      match for_each_pstree_item (shell_job_body root.d.pgid root.d.sid current_gid current_sid)
          root.size () (Cursor.of_root root) with
      | .error e => .error e
      | .ok (_, root1) =>
        .ok { g with root_item := some root1, max_pid := max current_gid (max current_sid g.max_pid) }

/-- The fast path of `prepare_pstree`: `while (parent) { if (parent->pid.virt == e->ppid)
break; parent = parent->parent; }`, started at the pointer `⟨t, ctx⟩`. -/
def lookup_ancestors (ppid : Int) : pstree_item → List Frame → Option Cursor
  | t, [] => if t.d.pid_virt = ppid then some ⟨t, []⟩ else none
  | t, f :: fs => if t.d.pid_virt = ppid then some ⟨t, f :: fs⟩ else lookup_ancestors ppid (f.plug t) fs

/-- The parent lookup of `prepare_pstree`: the fast path from the last inserted item, then
the scan of the whole tree from `root_item`. -/
def find_parent (ppid : Int) (root_item : Option pstree_item) (parent : Option Cursor) :
    Except Err (Option Cursor) :=
  match (match parent with
    | none => none
    | some p => lookup_ancestors ppid p.focus p.ctx) with
  | some p => .ok (some p)
  | none =>
    match root_item with
    | none => .ok none
    | some root => pstree_item_search (fun d => decide (d.pid_virt = ppid)) root.size (Cursor.of_root root)

/-- One iteration of the `while (1)` loop of `prepare_pstree` for the record `e` (reads and
allocations succeed); `parent` is the local pointer carried across iterations. -/
def prepare_pstree_step (st : Globals × Option Cursor) (e : PstreeEntry) :
    Except Err (Globals × Option Cursor) :=
  let g := st.1
  let pi : pstree_item := .mk (item_of_entry e) []
  let max_pid := max e.sid (max e.pgid (max e.pid g.max_pid))
  let te : TaskEntries := { g.task_entries with
    nr := g.task_entries.nr + e.threads.length, nr_tasks := g.task_entries.nr_tasks + 1 }
  if e.ppid = 0 then
    match g.root_item with
    | some _ => .error Err.ImageCorruption
    | none => .ok ({ root_item := some pi, max_pid := max_pid, task_entries := te }, some ⟨pi, []⟩)
  else
    match find_parent e.ppid g.root_item st.2 with
    | .error err => .error err
    | .ok none => .error Err.ImageCorruption
    | .ok (some parent) =>
      let cur : Cursor := ⟨pi, { d := parent.focus.d, left := [], right := parent.focus.children } :: parent.ctx⟩
      .ok ({ root_item := some cur.root, max_pid := max_pid, task_entries := te }, some cur)

/-- The `while (1)` loop of `prepare_pstree` over the records of the image. -/
def prepare_pstree_loop : Globals × Option Cursor → List PstreeEntry → Except Err (Globals × Option Cursor)
  | st, [] => .ok st
  | st, e :: es =>
    match prepare_pstree_step st e with
    | .error err => .error err
    | .ok st1 => prepare_pstree_loop st1 es

/-- `prepare_pstree`: build the tree from the records of the image, then run
`prepare_pstree_for_shell_job`. -/
def prepare_pstree (shell_job : Bool) (current_sid current_gid : Int) (g : Globals)
    (image : List PstreeEntry) : Except Err Globals :=
  match prepare_pstree_loop (g, none) image with
  | .error err => .error err
  | .ok (g1, _) => prepare_pstree_for_shell_job shell_job current_sid current_gid g1

/-- The helper the first pass of `prepare_pstree_ids` allocates for the root's child `item`:
`sid`, `pgid` and `pid.virt` are `item->sid`, `state` is `TASK_HELPER`. -/
def session_helper (item : ItemData) : ItemData :=
  { __alloc_pstree_item with
    sid := item.sid, pgid := item.sid, pid_virt := item.sid, state := Kind.HELPER }

/-- The helper the last pass of `prepare_pstree_ids` allocates for `item`: `sid` is
`item->sid`, `pgid` and `pid.virt` are `item->pgid`, `state` is `TASK_HELPER`. -/
def group_helper (item : ItemData) : ItemData :=
  { __alloc_pstree_item with
    sid := item.sid, pgid := item.pgid, pid_virt := item.pgid, state := Kind.HELPER }

/-- The inner `list_for_each_entry_safe_continue` loop of the first pass of
`prepare_pstree_ids`, over the remaining children of the root: every child with the helper's
`sid` that is not a session leader is moved to the head of `helper->children` (`list_move`);
the others stay, in order. Returns the helper's children and the children left on the root. -/
def stack_on_helper (helper_sid : Int) :
    List pstree_item → List pstree_item → List pstree_item → List pstree_item × List pstree_item
  | [], helper_children, kept => (helper_children, kept)
  | child :: rest, helper_children, kept =>
    if child.d.sid ≠ helper_sid then stack_on_helper helper_sid rest helper_children (kept ++ [child])
    else if child.d.sid = child.d.pid_virt then
      stack_on_helper helper_sid rest helper_children (kept ++ [child])
    else stack_on_helper helper_sid rest (child :: helper_children) kept

/-- The first loop of `prepare_pstree_ids` (`list_for_each_entry(item, &root_item->children,
sibling)`). `passed` are the children of the root before `item`, the third list is `item` and
the children after it. Returns the children left on the root, the `helpers` list and
`nr_helpers`. -/
def isolate_orphans (root_sid : Int) :
    Nat → List pstree_item → List pstree_item → List pstree_item → Nat →
      Except Err (List pstree_item × List pstree_item × Nat)
  | 0, _, _, _, _ => .error Err.OutOfFuel
  | _ + 1, passed, [], helpers, nr_helpers => .ok (passed, helpers, nr_helpers)
  | fuel + 1, passed, item :: rest, helpers, nr_helpers =>
    if item.d.sid = root_sid ∨ item.d.sid = item.d.pid_virt then
      isolate_orphans root_sid fuel (passed ++ [item]) rest helpers nr_helpers
    else
      let helper : ItemData := session_helper item.d
      let moved := stack_on_helper helper.sid (item :: rest) [] []
      isolate_orphans root_sid fuel passed moved.2 (helpers ++ [.mk helper moved.1]) (nr_helpers + 1)

/-- The `while (parent && parent->pid.virt != item->sid)` loop of the second pass, over the
ancestors of `item`, nearest first: tags each ancestor below the session leader with
`born_sid = item->sid`. -/
def born_sid_walk (sid : Int) : List Frame → Except Err (List Frame)
  | [] => .error Err.SessionLeaderNotFound
  | f :: fs =>
    if f.d.pid_virt = sid then .ok (f :: fs)
    else if f.d.born_sid ≠ -1 ∧ f.d.born_sid ≠ sid then .error Err.ConflictingBornSession
    else
      match born_sid_walk sid fs with
      | .error e => .error e
      | .ok fs1 => .ok ({ f with d := { f.d with born_sid := sid } } :: fs1)

/-- The `list_for_each_entry(child, &helpers, sibling)` loop of the second pass: the first
helper of the list with the given `sid`, and the list without it. -/
def take_helper (sid : Int) : List pstree_item → Option (pstree_item × List pstree_item)
  | [] => none
  | child :: rest =>
    if child.d.state ≠ Kind.HELPER then (take_helper sid rest).map (fun r => (r.1, child :: r.2))
    else if child.d.sid ≠ sid then (take_helper sid rest).map (fun r => (r.1, child :: r.2))
    else some (child, rest)

/-- The helper `child` after `child->pgid = item->pgid; child->pid.virt = ++max_pid` of the
second loop of `prepare_pstree_ids`. -/
def renumber_helper (child : pstree_item) (pgid max_pid : Int) : pstree_item :=
  .mk { child.d with pgid := pgid, pid_virt := max_pid } child.children

/-- Body of the second loop of `prepare_pstree_ids` ("Try to connect helpers to session
leaders"); the loop-carried state is the `helpers` list and `max_pid`. -/
def connect_body (s : List pstree_item × Int) (item : Cursor) :
    Except Err ((List pstree_item × Int) × Cursor) :=
  match item.ctx with
  | [] => .ok (s, item)
  | parent :: _ =>
    if item.focus.d.state = Kind.HELPER then .ok (s, item)
    else if item.focus.d.sid ≠ item.focus.d.pid_virt then
      if parent.d.sid = item.focus.d.sid then .ok (s, item)
      else
        match born_sid_walk item.focus.d.sid item.ctx with
        | .error e => .error e
        | .ok ctx1 => .ok (s, { item with ctx := ctx1 })
    else
      match take_helper item.focus.d.sid s.1 with
      | none => .ok (s, item)
      | some (child, helpers1) =>
        let max_pid := wrap32 (s.2 + 1)
        .ok ((helpers1, max_pid), item.list_add (renumber_helper child item.focus.d.pgid max_pid))

/-- Body of the last loop of `prepare_pstree_ids` ("Add a process group leader if it is
absent"); the loop-carried state is `nr_helpers`. -/
def group_leader_body (current_pgid : Int) (nr_helpers : Nat) (item : Cursor) :
    Except Err (Nat × Cursor) :=
  if item.focus.d.pgid = 0 ∨ item.focus.d.pid_virt = item.focus.d.pgid then .ok (nr_helpers, item)
  else
    match pstree_item_search (fun d => decide (d.pid_virt = item.focus.d.pgid))
        item.root.size (Cursor.of_root item.root) with
    | .error e => .error e
    | .ok (some _) => .ok (nr_helpers, item)
    | .ok none =>
      if current_pgid = item.focus.d.pgid then .ok (nr_helpers, item)
      else
        .ok (nr_helpers + 1, item.list_add (.mk (group_helper item.focus.d) []))

/-- `prepare_pstree_ids`; `current_pgid` is the result of `getpgid(getpid())` (allocations
succeed). -/
def prepare_pstree_ids (current_pgid : Int) (g : Globals) : Except Err Globals :=
  match g.root_item with
  | none => .error Err.NullDeref
  | some root =>
    match isolate_orphans root.d.sid (root.children.length + 1) [] root.children []
        g.task_entries.nr_helpers with
    | .error e => .error e
    | .ok (children1, helpers, nr1) =>
      let root1 : pstree_item := .mk root.d children1
      match for_each_pstree_item connect_body (root1.size + (flat_list helpers).length)
          (helpers, g.max_pid) (Cursor.of_root root1) with
      | .error e => .error e
      | .ok ((helpers2, max_pid2), root2) =>
        let root3 : pstree_item := .mk root2.d (helpers2 ++ root2.children)
        match for_each_pstree_item (group_leader_body current_pgid) (2 * root3.size)
            nr1 (Cursor.of_root root3) with
        | .error e => .error e
        | .ok (nr4, root4) =>
          .ok { root_item := some root4, max_pid := max_pid2,
                task_entries := { g.task_entries with nr_helpers := nr4 } }

/-- `restore_before_setsid(child)`; a NULL `child->parent` is a NULL dereference. -/
def restore_before_setsid (child : Cursor) : Except Err Bool :=
  let csid := if child.focus.d.born_sid = -1 then child.focus.d.sid else child.focus.d.born_sid
  match child.ctx with
  | [] => .error Err.NullDeref
  | parent :: _ => .ok (decide (parent.d.born_sid = csid))

/-- Items visited before the path of a context, in walk order: for each ancestor, outermost
first, the ancestor and its subtrees left of the path. -/
def ctx_before : List Frame → List ItemData
  | [] => []
  | f :: fs => ctx_before fs ++ f.d :: flat_list f.left

/-- Items visited after the subtree a context surrounds: for each ancestor, innermost first,
its subtrees right of the path. -/
def ctx_after : List Frame → List ItemData
  | [] => []
  | f :: fs => flat_list f.right ++ ctx_after fs

/-- Items the walk visits before the pointed item. -/
def Cursor.before (c : Cursor) : List ItemData := ctx_before c.ctx

/-- Items the walk visits after the pointed item. -/
def Cursor.after (c : Cursor) : List ItemData := flat_list c.focus.children ++ ctx_after c.ctx

mutual
/-- Pre-order listing of a tree, each item with the fields of its ancestors, nearest first
(`anc` are the ancestors of the tree's root item). -/
def pstree_item.walk (anc : List ItemData) : pstree_item → List (List ItemData × ItemData)
  | .mk d cs => (anc, d) :: walk_list (d :: anc) cs
/-- Pre-order listing of a list of sibling subtrees with their ancestors. -/
def walk_list (anc : List ItemData) : List pstree_item → List (List ItemData × ItemData)
  | [] => []
  | c :: cs => c.walk anc ++ walk_list anc cs
end

/-- Fields of the ancestors of the pointed item, nearest first (the `->parent` chain). -/
def ancestors (ctx : List Frame) : List ItemData := ctx.map Frame.d

/-- `ctx_before` with ancestors. -/
def ctx_walk_before : List Frame → List (List ItemData × ItemData)
  | [] => []
  | f :: fs => ctx_walk_before fs ++ (ancestors fs, f.d) :: walk_list (f.d :: ancestors fs) f.left

/-- `ctx_after` with ancestors. -/
def ctx_walk_after : List Frame → List (List ItemData × ItemData)
  | [] => []
  | f :: fs => walk_list (f.d :: ancestors fs) f.right ++ ctx_walk_after fs

/-- Items the walk visits before the pointed item, with their ancestors. -/
def Cursor.walk_before (c : Cursor) : List (List ItemData × ItemData) := ctx_walk_before c.ctx

/-- Items the walk visits after the pointed item, with their ancestors. -/
def Cursor.walk_after (c : Cursor) : List (List ItemData × ItemData) :=
  walk_list (c.focus.d :: ancestors c.ctx) c.focus.children ++ ctx_walk_after c.ctx

/-- The pointed item with its ancestors. -/
def Cursor.here (c : Cursor) : List ItemData × ItemData := (ancestors c.ctx, c.focus.d)

/-- The record of an item listed with its ancestors: `ppid` is the `pid.virt` of the nearest
ancestor, 0 without one. -/
def entry_of_walk (x : List ItemData × ItemData) : PstreeEntry :=
  { pid := x.2.pid_virt
    ppid := match x.1 with
      | [] => 0
      | p :: _ => p.pid_virt
    pgid := x.2.pgid
    sid := x.2.sid
    threads := x.2.threads }

/-- The records of all items of a tree, in pre-order. -/
def pstree_item.entries (t : pstree_item) : List PstreeEntry := (t.walk []).map entry_of_walk

mutual
/-- The records of a tree whose root item has a parent with `pid.virt = p` (`p = 0`: no
parent), in pre-order. -/
def entries_under (p : Int) : pstree_item → List PstreeEntry
  | .mk d cs => ⟨d.pid_virt, p, d.pgid, d.sid, d.threads⟩ :: entries_under_list d.pid_virt cs
/-- The records of a list of sibling subtrees whose parent has `pid.virt = p`. -/
def entries_under_list (p : Int) : List pstree_item → List PstreeEntry
  | [] => []
  | c :: cs => entries_under p c ++ entries_under_list p cs
end

mutual
/-- The tree with every children list reversed and `f` applied to the fields of every item. -/
def pstree_item.mirror_with (f : ItemData → ItemData) : pstree_item → pstree_item
  | .mk d cs => .mk (f d) (mirror_list_with f cs)
/-- A list of sibling subtrees reversed, each subtree mirrored. -/
def mirror_list_with (f : ItemData → ItemData) : List pstree_item → List pstree_item
  | [] => []
  | c :: cs => mirror_list_with f cs ++ [c.mirror_with f]
end

/-- The tree with every children list reversed. -/
def pstree_item.mirror (t : pstree_item) : pstree_item := t.mirror_with id

/-- A freshly allocated item with `pid.virt`, `pgid`, `sid` and the thread ids of `d`. -/
def fresh_copy (d : ItemData) : ItemData :=
  item_of_entry ⟨d.pid_virt, 0, d.pgid, d.sid, d.threads⟩

/-- The `->parent` chain from the pointer `⟨t, ctx⟩` leads to the pointer `par`, and every
item passed before `par` has its `pid.virt` in `A`. -/
def Reaches (A : List Int) (par : Cursor) : pstree_item → List Frame → Prop
  | t, [] => (⟨t, []⟩ : Cursor) = par
  | t, f :: fs => (⟨t, f :: fs⟩ : Cursor) = par ∨ (t.d.pid_virt ∈ A ∧ Reaches A par (f.plug t) fs)

/-- Link the subtrees `l` in front of the children of the pointed item. -/
def Cursor.list_add_all (item : Cursor) (l : List pstree_item) : Cursor :=
  { item with focus := .mk item.focus.d (l ++ item.focus.children) }

/-- Sample item for concrete instances: a non-helper item with one thread whose id is
its pid, as `prepare_pstree` leaves it. -/
def sample_item (pid sid pgid : Int) : ItemData :=
  { pid_virt := pid, pid_real := -1, pgid := pgid, sid := sid, born_sid := -1,
    state := Kind.REAL, threads := [pid] }

/-- Sample tree node for concrete instances. -/
def sample_node (pid sid pgid : Int) (children : List pstree_item) : pstree_item :=
  .mk (sample_item pid sid pgid) children

/-- Globals holding the given tree, with the given `max_pid` and zero counters. -/
def sample_globals (t : pstree_item) (max_pid : Int) : Globals :=
  { root_item := some t, max_pid := max_pid,
    task_entries := { nr := 0, nr_tasks := 0, nr_helpers := 0 } }

/-- The test of the first pass for a child of the root: it is in the root's session or is a
session leader, so it stays a child of the root. -/
def stays (root_sid : Int) (c : pstree_item) : Bool :=
  decide (c.d.sid = root_sid ∨ c.d.sid = c.d.pid_virt)

/-- The test of the inner loop of the first pass: the child has the helper's `sid` and is not
a session leader, so it is moved under the helper. -/
def moves_to (helper_sid : Int) (c : pstree_item) : Bool :=
  decide (c.d.sid = helper_sid ∧ c.d.sid ≠ c.d.pid_virt)

/-- What one upward walk of the second pass with session id `sid` may do to the fields of an
item: nothing, or set an unset `born_sid` to `sid`. -/
def born_upd (sid : Int) (d d1 : ItemData) : Prop :=
  d1 = d ∨ (d.born_sid = -1 ∧ d1 = { d with born_sid := sid })

/-- What one upward walk of the second pass may do to a frame: the siblings stay, the
ancestor's fields change by `born_upd`. -/
def frame_upd (sid : Int) (f f1 : Frame) : Prop :=
  f1.left = f.left ∧ f1.right = f.right ∧ born_upd sid f.d f1.d

/-- Two listings of an item with its ancestors that differ only by `born_upd` on the
ancestors. -/
def walk_upd (sid : Int) (x x1 : List ItemData × ItemData) : Prop :=
  x1.2 = x.2 ∧ List.Forall₂ (born_upd sid) x.1 x1.1

/-- A non-helper item, not a session leader, whose parent is in another session and none of
whose ancestors has the item's `sid` as `pid.virt`. -/
def leaderless (x : List ItemData × ItemData) : Prop :=
  x.2.state ≠ Kind.HELPER ∧ x.2.sid ≠ x.2.pid_virt ∧
    (∃ p rest, x.1 = p :: rest ∧ p.sid ≠ x.2.sid) ∧ ∀ a ∈ x.1, a.pid_virt ≠ x.2.sid

/-- The fields of a helper the first pass creates for an orphaned child of `root` and the
third pass leaves under the root: `pid.virt`, `pgid` and `sid` are the session id of a child
of the root that is neither in the root's session nor a session leader. -/
def promoted_helper (root : pstree_item) (d : ItemData) : Prop :=
  d.pid_virt = d.sid ∧ d.pgid = d.sid ∧ d.sid ≠ root.d.sid ∧
    ∃ c ∈ root.children, c.d.sid = d.sid ∧ c.d.sid ≠ c.d.pid_virt

/-- Number of iterations of the last loop of `prepare_pstree_ids` an item can cause: one for
itself and one more for the group helper it may get. -/
def visit_weight (d : ItemData) : Nat :=
  if d.pgid = 0 ∨ d.pid_virt = d.pgid then 1 else 2

/-- The pointers the loop `for (item = start; item; item = pstree_item_next(item))` goes
through, in order, at most `fuel` of them. -/
def items_from : Nat → Cursor → List Cursor
  | 0, _ => []
  | fuel + 1, item =>
    item :: (match pstree_item_next item with
      | none => []
      | some item1 => items_from fuel item1)

mutual
/-- The tree with `f` applied to the fields of every item; items, links and the order of
every children list are kept. -/
def pstree_item.map_data (f : ItemData → ItemData) : pstree_item → pstree_item
  | .mk d cs => .mk (f d) (map_data_list f cs)
/-- A list of sibling subtrees with `f` applied to the fields of every item. -/
def map_data_list (f : ItemData → ItemData) : List pstree_item → List pstree_item
  | [] => []
  | c :: cs => c.map_data f :: map_data_list f cs
end

/-- A frame during a loop that applies `f` to every item in walk order: the ancestor and
the subtrees left of the path are done, those right of the path are not yet. -/
def frame_mapped (f : ItemData → ItemData) (fr0 fr : Frame) : Prop :=
  fr.d = f fr0.d ∧ fr.left = map_data_list f fr0.left ∧ fr.right = fr0.right

/-- The `pid.virt`, `pgid` and `sid` of an item are all at most `m`. -/
def ids_le (m : Int) (d : ItemData) : Prop := d.pid_virt ≤ m ∧ d.pgid ≤ m ∧ d.sid ≤ m

/-- A helper whose `pid.virt` was taken from `++max_pid` while `max_pid` went from `m0` to
`m`: its `pid.virt` is above `m0` and at most `m`, its `pgid` and `sid` are at most `m0`. -/
def renumbered (m0 m : Int) (d : ItemData) : Prop :=
  d.state = Kind.HELPER ∧ m0 < d.pid_virt ∧ d.pid_virt ≤ m ∧ d.pgid ≤ m0 ∧ d.sid ≤ m0

/-- The `pid.virt` values above `m0` in a listing of items, in order, with repetitions. -/
def pids_above (m0 : Int) (l : List ItemData) : List Int :=
  (l.map ItemData.pid_virt).filter (fun p => decide (m0 < p))

/-- Reference builder of the specification, parent lookup: "implementers may always use the
full-scan fallback", so only the scan of the whole tree from `root_item` for the first item
in walk order with `pid.virt == ppid`, without the search along the ancestors of the last
inserted item. -/
def find_parent_scan (ppid : Int) (root_item : Option pstree_item) : Except Err (Option Cursor) :=
  match root_item with
  | none => .ok none
  | some root =>
    pstree_item_search (fun d => decide (d.pid_virt = ppid)) root.size (Cursor.of_root root)

/-- Reference builder of the specification, one record: `prepare_pstree_step` with the parent
looked up by `find_parent_scan`. -/
def prepare_pstree_step_scan (st : Globals × Option Cursor) (e : PstreeEntry) :
    Except Err (Globals × Option Cursor) :=
  let g := st.1
  let pi : pstree_item := .mk (item_of_entry e) []
  let max_pid := max e.sid (max e.pgid (max e.pid g.max_pid))
  let te : TaskEntries := { g.task_entries with
    nr := g.task_entries.nr + e.threads.length, nr_tasks := g.task_entries.nr_tasks + 1 }
  if e.ppid = 0 then
    match g.root_item with
    | some _ => .error Err.ImageCorruption
    | none => .ok ({ root_item := some pi, max_pid := max_pid, task_entries := te }, some ⟨pi, []⟩)
  else
    match find_parent_scan e.ppid g.root_item with
    | .error err => .error err
    | .ok none => .error Err.ImageCorruption
    | .ok (some parent) =>
      let cur : Cursor := ⟨pi, { d := parent.focus.d, left := [], right := parent.focus.children } :: parent.ctx⟩
      .ok ({ root_item := some cur.root, max_pid := max_pid, task_entries := te }, some cur)

/-- Reference builder of the specification, all records. -/
def prepare_pstree_loop_scan :
    Globals × Option Cursor → List PstreeEntry → Except Err (Globals × Option Cursor)
  | st, [] => .ok st
  | st, e :: es =>
    match prepare_pstree_step_scan st e with
    | .error err => .error err
    | .ok st1 => prepare_pstree_loop_scan st1 es

/-- Reference builder of the specification: `prepare_pstree` with every parent looked up by
the full scan only. -/
def prepare_pstree_scan (shell_job : Bool) (current_sid current_gid : Int) (g : Globals)
    (image : List PstreeEntry) : Except Err Globals :=
  match prepare_pstree_loop_scan (g, none) image with
  | .error err => .error err
  | .ok (g1, _) => prepare_pstree_for_shell_job shell_job current_sid current_gid g1

/-- A `struct pstree_item` in memory, for the model that keeps the `parent` field apart from
the position in the tree: the address of the struct, the value of its `parent` field (the
address of an item, `none` for NULL) and its scalar fields. -/
structure Linked.Item where
  addr : Nat
  parent : Option Nat
  d : ItemData
  deriving DecidableEq, Repr

/-- A `struct pstree_item` at an address, with its `parent` field and the items linked on its
`children` list, in list order. -/
inductive Linked.pstree_item where
  | mk (i : Linked.Item) (children : List Linked.pstree_item)
  deriving Repr

/-- Address, `parent` field and scalar fields of an item. -/
def Linked.pstree_item.i : Linked.pstree_item → Linked.Item
  | .mk i _ => i

/-- The `children` list of an item. -/
def Linked.pstree_item.children : Linked.pstree_item → List Linked.pstree_item
  | .mk _ cs => cs

/-- One ancestor on the way from a pointed item to the root, as `Frame`. -/
structure Linked.Frame where
  i : Linked.Item
  left : List Linked.pstree_item
  right : List Linked.pstree_item
  deriving Repr

/-- A non-NULL pointer to an item inside a tree, as `Cursor`. The walk follows the links of
the `children` and `sibling` lists; the `parent` fields are carried along and written where
the code writes them. -/
structure Linked.Cursor where
  focus : Linked.pstree_item
  ctx : List Linked.Frame
  deriving Repr

/-- The ancestor rebuilt around the pointed item. -/
def Linked.Frame.plug (f : Linked.Frame) (t : Linked.pstree_item) : Linked.pstree_item :=
  .mk f.i (f.left ++ t :: f.right)

/-- The whole tree a pointer points into. -/
def Linked.plug_all : Linked.pstree_item → List Linked.Frame → Linked.pstree_item
  | t, [] => t
  | t, f :: fs => Linked.plug_all (f.plug t) fs

/-- The root item of the tree a pointer points into. -/
def Linked.Cursor.root (c : Linked.Cursor) : Linked.pstree_item := Linked.plug_all c.focus c.ctx

/-- Pointer to a root item. -/
def Linked.Cursor.of_root (t : Linked.pstree_item) : Linked.Cursor := ⟨t, []⟩

mutual
/-- Pre-order listing of the items of a tree with their addresses and `parent` fields. -/
def Linked.pstree_item.items : Linked.pstree_item → List Linked.Item
  | .mk i cs => i :: Linked.items_list cs
/-- Pre-order listing of a list of sibling subtrees. -/
def Linked.items_list : List Linked.pstree_item → List Linked.Item
  | [] => []
  | c :: cs => c.items ++ Linked.items_list cs
end

/-- Number of items of a tree. -/
def Linked.pstree_item.size (t : Linked.pstree_item) : Nat := t.items.length

mutual
/-- The tree without addresses and `parent` fields. -/
def Linked.pstree_item.erase : Linked.pstree_item → Pstree.pstree_item
  | .mk i cs => .mk i.d (Linked.erase_list cs)
/-- A list of sibling subtrees without addresses and `parent` fields. -/
def Linked.erase_list : List Linked.pstree_item → List Pstree.pstree_item
  | [] => []
  | c :: cs => c.erase :: Linked.erase_list cs
end

/-- The `while (item->parent)` loop of `pstree_item_next`, as `next_up`. -/
def Linked.next_up : Linked.pstree_item → List Linked.Frame → Option Linked.Cursor
  | _, [] => none
  | t, f :: fs =>
    match f.right with
    | r :: rs => some ⟨r, { i := f.i, left := f.left ++ [t], right := rs } :: fs⟩
    | [] => Linked.next_up (f.plug t) fs

/-- `pstree_item_next` on items with addresses. -/
def Linked.pstree_item_next (item : Linked.Cursor) : Option Linked.Cursor :=
  match item.focus with
  | .mk i (c :: cs) => some ⟨c, { i := i, left := [], right := cs } :: item.ctx⟩
  | .mk _ [] => Linked.next_up item.focus item.ctx

/-- `for_each_pstree_item(pi) body` on items with addresses. -/
def Linked.for_each_pstree_item {σ : Type}
    (body : σ → Linked.Cursor → Except Err (σ × Linked.Cursor)) :
    Nat → σ → Linked.Cursor → Except Err (σ × Linked.pstree_item)
  | 0, _, _ => .error Err.OutOfFuel
  | fuel + 1, s, pi =>
    match body s pi with
    | .error e => .error e
    | .ok (s1, pi1) =>
      match Linked.pstree_item_next pi1 with
      | none => .ok (s1, pi1.root)
      | some pi2 => Linked.for_each_pstree_item body fuel s1 pi2

/-- `list_add(&child->sibling, &item->children)` on items with addresses. -/
def Linked.Cursor.list_add (item : Linked.Cursor) (child : Linked.pstree_item) : Linked.Cursor :=
  { item with focus := .mk item.focus.i (child :: item.focus.children) }

/-- The item with `->parent = p`. -/
def Linked.pstree_item.set_parent (t : Linked.pstree_item) (p : Nat) : Linked.pstree_item :=
  .mk { t.i with parent := some p } t.children

/-- The inner loop of the first pass of `prepare_pstree_ids` with the `parent` fields: every
moved child gets `child->parent = helper` before `list_move`. -/
def Linked.stack_on_helper (helper_addr : Nat) (helper_sid : Int) :
    List Linked.pstree_item → List Linked.pstree_item → List Linked.pstree_item →
      List Linked.pstree_item × List Linked.pstree_item
  | [], helper_children, kept => (helper_children, kept)
  | child :: rest, helper_children, kept =>
    if child.i.d.sid ≠ helper_sid then
      Linked.stack_on_helper helper_addr helper_sid rest helper_children (kept ++ [child])
    else if child.i.d.sid = child.i.d.pid_virt then
      Linked.stack_on_helper helper_addr helper_sid rest helper_children (kept ++ [child])
    else
      Linked.stack_on_helper helper_addr helper_sid rest
        (child.set_parent helper_addr :: helper_children) kept

/-- The first loop of `prepare_pstree_ids` with addresses and `parent` fields: the helper is
allocated at the address `next_addr` and gets `helper->parent = root_item`. Returns the
children left on the root, the `helpers` list, `nr_helpers` and the next free address. -/
def Linked.isolate_orphans (root_addr : Nat) (root_sid : Int) :
    Nat → List Linked.pstree_item → List Linked.pstree_item → List Linked.pstree_item → Nat →
      Nat → Except Err (List Linked.pstree_item × List Linked.pstree_item × Nat × Nat)
  | 0, _, _, _, _, _ => .error Err.OutOfFuel
  | _ + 1, passed, [], helpers, nr_helpers, next_addr =>
    .ok (passed, helpers, nr_helpers, next_addr)
  | fuel + 1, passed, item :: rest, helpers, nr_helpers, next_addr =>
    if item.i.d.sid = root_sid ∨ item.i.d.sid = item.i.d.pid_virt then
      Linked.isolate_orphans root_addr root_sid fuel (passed ++ [item]) rest helpers nr_helpers
        next_addr
    else
      let helper : Linked.Item :=
        { addr := next_addr, parent := some root_addr, d := session_helper item.i.d }
      let moved := Linked.stack_on_helper helper.addr helper.d.sid (item :: rest) [] []
      Linked.isolate_orphans root_addr root_sid fuel passed moved.2
        (helpers ++ [.mk helper moved.1]) (nr_helpers + 1) (next_addr + 1)
/-- The upward walk of the second pass on items with addresses, as `born_sid_walk`. -/
def Linked.born_sid_walk (sid : Int) : List Linked.Frame → Except Err (List Linked.Frame)
  | [] => .error Err.SessionLeaderNotFound
  | f :: fs =>
    if f.i.d.pid_virt = sid then .ok (f :: fs)
    else if f.i.d.born_sid ≠ -1 ∧ f.i.d.born_sid ≠ sid then .error Err.ConflictingBornSession
    else
      match Linked.born_sid_walk sid fs with
      | .error e => .error e
      | .ok fs1 =>
        .ok ({ f with i := { f.i with d := { f.i.d with born_sid := sid } } } :: fs1)

/-- The search of the `helpers` list in the second pass, as `take_helper`. -/
def Linked.take_helper (sid : Int) :
    List Linked.pstree_item → Option (Linked.pstree_item × List Linked.pstree_item)
  | [] => none
  | child :: rest =>
    if child.i.d.state ≠ Kind.HELPER then
      (Linked.take_helper sid rest).map (fun r => (r.1, child :: r.2))
    else if child.i.d.sid ≠ sid then
      (Linked.take_helper sid rest).map (fun r => (r.1, child :: r.2))
    else some (child, rest)

/-- The helper `child` after `child->pgid = item->pgid; child->pid.virt = ++max_pid;
child->parent = item` of the second loop. -/
def Linked.renumber_helper (child : Linked.pstree_item) (item_addr : Nat) (pgid max_pid : Int) :
    Linked.pstree_item :=
  .mk { child.i with
    parent := some item_addr, d := { child.i.d with pgid := pgid, pid_virt := max_pid } }
    child.children

/-- Body of the second loop of `prepare_pstree_ids` on items with addresses. -/
def Linked.connect_body (s : List Linked.pstree_item × Int) (item : Linked.Cursor) :
    Except Err ((List Linked.pstree_item × Int) × Linked.Cursor) :=
  match item.ctx with
  | [] => .ok (s, item)
  | parent :: _ =>
    if item.focus.i.d.state = Kind.HELPER then .ok (s, item)
    else if item.focus.i.d.sid ≠ item.focus.i.d.pid_virt then
      if parent.i.d.sid = item.focus.i.d.sid then .ok (s, item)
      else
        match Linked.born_sid_walk item.focus.i.d.sid item.ctx with
        | .error e => .error e
        | .ok ctx1 => .ok (s, { item with ctx := ctx1 })
    else
      match Linked.take_helper item.focus.i.d.sid s.1 with
      | none => .ok (s, item)
      | some (child, helpers1) =>
        let max_pid := wrap32 (s.2 + 1)
        .ok ((helpers1, max_pid),
          item.list_add (Linked.renumber_helper child item.focus.i.addr item.focus.i.d.pgid max_pid))

/-- Body of the last loop of `prepare_pstree_ids` on items with addresses; the loop-carried
state is `nr_helpers` and the next free address. The group leader is searched in the tree
without regard to addresses. -/
def Linked.group_leader_body (current_pgid : Int) (s : Nat × Nat) (item : Linked.Cursor) :
    Except Err ((Nat × Nat) × Linked.Cursor) :=
  if item.focus.i.d.pgid = 0 ∨ item.focus.i.d.pid_virt = item.focus.i.d.pgid then .ok (s, item)
  else
    match pstree_item_search (fun d => decide (d.pid_virt = item.focus.i.d.pgid))
        item.root.erase.size (Pstree.Cursor.of_root item.root.erase) with
    | .error e => .error e
    | .ok (some _) => .ok (s, item)
    | .ok none =>
      if current_pgid = item.focus.i.d.pgid then .ok (s, item)
      else
        let helper : Linked.Item :=
          { addr := s.2, parent := some item.focus.i.addr, d := group_helper item.focus.i.d }
        .ok ((s.1 + 1, s.2 + 1), item.list_add (.mk helper []))

/-- The global variables of the file with the tree kept with addresses and `parent` fields,
and the address the next allocation returns. -/
structure Linked.Globals where
  root_item : Option Linked.pstree_item
  max_pid : Int
  task_entries : TaskEntries
  next_addr : Nat

/-- `prepare_pstree_ids` on items with addresses and `parent` fields. -/
def Linked.prepare_pstree_ids (current_pgid : Int) (g : Linked.Globals) :
    Except Err Linked.Globals :=
  match g.root_item with
  | none => .error Err.NullDeref
  | some root =>
    match Linked.isolate_orphans root.i.addr root.i.d.sid (root.children.length + 1) []
        root.children [] g.task_entries.nr_helpers g.next_addr with
    | .error e => .error e
    | .ok (children1, helpers, nr1, next1) =>
      let root1 : Linked.pstree_item := .mk root.i children1
      match Linked.for_each_pstree_item Linked.connect_body
          (root1.size + (Linked.items_list helpers).length)
          (helpers, g.max_pid) (Linked.Cursor.of_root root1) with
      | .error e => .error e
      | .ok ((helpers2, max_pid2), root2) =>
        let root3 : Linked.pstree_item := .mk root2.i (helpers2 ++ root2.children)
        match Linked.for_each_pstree_item (Linked.group_leader_body current_pgid)
            (2 * root3.size) (nr1, next1) (Linked.Cursor.of_root root3) with
        | .error e => .error e
        | .ok ((nr4, next4), root4) =>
          .ok { root_item := some root4, max_pid := max_pid2,
                task_entries := { g.task_entries with nr_helpers := nr4 },
                next_addr := next4 }

/-- The globals without addresses and `parent` fields. -/
def Linked.Globals.erase (g : Linked.Globals) : Pstree.Globals :=
  { root_item := g.root_item.map Linked.pstree_item.erase, max_pid := g.max_pid,
    task_entries := g.task_entries }

mutual
/-- Every item of the tree below an item with address `p` (`none`: the root of the tree) has
its `parent` field equal to the address of the item whose `children` list holds it. -/
def Linked.well_linked (p : Option Nat) : Linked.pstree_item → Prop
  | .mk i cs => i.parent = p ∧ Linked.well_linked_list (some i.addr) cs
/-- Every tree of a `children` list of the item at address `p` is well linked under it. -/
def Linked.well_linked_list (p : Option Nat) : List Linked.pstree_item → Prop
  | [] => True
  | c :: cs => Linked.well_linked p c ∧ Linked.well_linked_list p cs
end

/-- The address the `parent` field of the pointed item must hold: the address of the nearest
ancestor, or `p` for the root. -/
def Linked.ctx_parent (p : Option Nat) : List Linked.Frame → Option Nat
  | [] => p
  | f :: _ => some f.i.addr

/-- The ancestors of a pointed item and their other subtrees are well linked. -/
def Linked.well_linked_ctx (p : Option Nat) : List Linked.Frame → Prop
  | [] => True
  | f :: fs => f.i.parent = Linked.ctx_parent p fs ∧
      Linked.well_linked_list (some f.i.addr) f.left ∧
      Linked.well_linked_list (some f.i.addr) f.right ∧ Linked.well_linked_ctx p fs
/-- What the second loop may do to an ancestor of the walked item: set its `born_sid`; the
address, the `parent` field and the sibling lists stay. -/
def Linked.frame_upd (f f1 : Linked.Frame) : Prop :=
  ∃ b : Int, f1 = { f with i := { f.i with d := { f.i.d with born_sid := b } } }

/-- What identifies an item and must survive the repair: its address and its `pid.virt`,
`pgid`, `sid`, `state` and thread ids. -/
def Linked.Item.ident (x : Linked.Item) : Nat × Int × Int × Int × Kind × List Int :=
  (x.addr, x.d.pid_virt, x.d.pgid, x.d.sid, x.d.state, x.d.threads)

/-- The test of the first pass for a child of the root, as `stays`. -/
def Linked.stays (root_sid : Int) (c : Linked.pstree_item) : Bool :=
  decide (c.i.d.sid = root_sid ∨ c.i.d.sid = c.i.d.pid_virt)

/-- The test of the inner loop of the first pass, as `moves_to`. -/
def Linked.moves_to (helper_sid : Int) (c : Linked.pstree_item) : Bool :=
  decide (c.i.d.sid = helper_sid ∧ c.i.d.sid ≠ c.i.d.pid_virt)

/-- Invariant of the repair on items with addresses, relating the tree `r` and the pending
`helpers` list to the input tree: addresses are pairwise distinct and below `bound`; every
item of the input is still there with its address, ids, state and threads; every other item
is a helper without threads at an address from `next0` on; the tree is well linked, and every
pending helper has `parent` the root and well linked children. -/
def Linked.repair_inv (input : Linked.pstree_item) (next0 bound : Nat)
    (pending : List Linked.pstree_item) (r : Linked.pstree_item) : Prop :=
  (((r.items ++ Linked.items_list pending).map Linked.Item.ident).map Prod.fst).Nodup ∧
  (∀ x ∈ input.items,
    x.ident ∈ (r.items ++ Linked.items_list pending).map Linked.Item.ident) ∧
  (∀ c ∈ (r.items ++ Linked.items_list pending).map Linked.Item.ident,
    c ∈ input.items.map Linked.Item.ident ∨
      (c.2.2.2.2.1 = Kind.HELPER ∧ c.2.2.2.2.2 = [] ∧ next0 ≤ c.1)) ∧
  (∀ c ∈ (r.items ++ Linked.items_list pending).map Linked.Item.ident, c.1 < bound) ∧
  Linked.well_linked input.i.parent r ∧
  (∀ h ∈ pending, Linked.well_linked (some r.i.addr) h ∧ next0 ≤ h.i.addr) ∧
  r.i.addr = input.i.addr

/-- A frame without addresses and `parent` fields. -/
def Linked.Frame.erase (f : Linked.Frame) : Pstree.Frame :=
  { d := f.i.d, left := Linked.erase_list f.left, right := Linked.erase_list f.right }

/-- A pointer without addresses and `parent` fields. -/
def Linked.Cursor.erase (c : Linked.Cursor) : Pstree.Cursor :=
  { focus := c.focus.erase, ctx := c.ctx.map Linked.Frame.erase }

-- Theorems

theorem flat_mk (d : ItemData) (cs : List pstree_item) :
    (pstree_item.mk d cs).flat = d :: flat_list cs := by
  simp [pstree_item.flat]

theorem flat_eq (t : pstree_item) : t.flat = t.d :: flat_list t.children := by
  cases t; simp [pstree_item.flat, pstree_item.d, pstree_item.children]

theorem flat_list_nil : flat_list [] = [] := by simp [flat_list]

theorem flat_list_cons (c : pstree_item) (cs : List pstree_item) :
    flat_list (c :: cs) = c.flat ++ flat_list cs := by simp [flat_list]

theorem flat_list_append (a b : List pstree_item) :
    flat_list (a ++ b) = flat_list a ++ flat_list b := by
  induction a with
  | nil => simp [flat_list_nil]
  | cons c cs ih => simp [flat_list_cons, ih]

theorem flat_plug (f : Frame) (t : pstree_item) :
    (f.plug t).flat = f.d :: flat_list f.left ++ t.flat ++ flat_list f.right := by
  simp [Frame.plug, flat_mk, flat_list_append, flat_list_cons]

theorem flat_plug_all (t : pstree_item) (ctx : List Frame) :
    (plug_all t ctx).flat = ctx_before ctx ++ t.flat ++ ctx_after ctx := by
  induction ctx generalizing t with
  | nil => simp [plug_all, ctx_before, ctx_after]
  | cons f fs ih => simp [plug_all, ih, flat_plug, ctx_before, ctx_after]

theorem flat_root (c : Cursor) : c.root.flat = c.before ++ c.focus.d :: c.after := by
  simp [Cursor.root, flat_plug_all, Cursor.before, Cursor.after, flat_eq c.focus]

theorem next_up_some (t : pstree_item) (ctx : List Frame) (c : Cursor)
    (h : next_up t ctx = some c) :
    c.root = plug_all t ctx ∧ c.before = ctx_before ctx ++ t.flat ∧
      ctx_after ctx = c.focus.flat ++ ctx_after c.ctx := by
  induction ctx generalizing t with
  | nil => simp [next_up] at h
  | cons f fs ih =>
    rcases f with ⟨d, l, r⟩
    cases r with
    | nil =>
      simp only [next_up] at h
      obtain ⟨h1, h2, h3⟩ := ih _ h
      refine ⟨?_, ?_, ?_⟩
      · simp [h1, plug_all]
      · simp [h2, flat_plug, ctx_before, flat_list_nil]
      · simp [ctx_after, flat_list_nil, h3]
    | cons r rs =>
      simp only [next_up, Option.some.injEq] at h
      subst h
      refine ⟨?_, ?_, ?_⟩
      · simp [Cursor.root, plug_all, Frame.plug]
      · simp [Cursor.before, ctx_before, flat_list_append, flat_list_cons, flat_list_nil]
      · simp [ctx_after, flat_list_cons]

theorem next_up_none (t : pstree_item) (ctx : List Frame) (h : next_up t ctx = none) :
    ctx_after ctx = [] := by
  induction ctx generalizing t with
  | nil => simp [ctx_after]
  | cons f fs ih =>
    rcases f with ⟨d, l, r⟩
    cases r with
    | nil =>
      simp only [next_up] at h
      simp [ctx_after, flat_list_nil, ih _ h]
    | cons r rs => simp [next_up] at h

theorem pstree_item_next_some (z c : Cursor) (h : pstree_item_next z = some c) :
    c.root = z.root ∧ c.before = z.before ++ [z.focus.d] ∧ z.after = c.focus.d :: c.after := by
  rcases z with ⟨⟨d, cs⟩, ctx⟩
  cases cs with
  | nil =>
    simp only [pstree_item_next] at h
    obtain ⟨h1, h2, h3⟩ := next_up_some _ _ _ h
    refine ⟨?_, ?_, ?_⟩
    · rw [h1]; rfl
    · rw [h2]; simp [Cursor.before, flat_mk, flat_list_nil, pstree_item.d]
    · simp [Cursor.after, pstree_item.children, flat_list_nil, h3, flat_eq c.focus]
  | cons c0 cs =>
    simp only [pstree_item_next, Option.some.injEq] at h
    subst h
    refine ⟨?_, ?_, ?_⟩
    · simp [Cursor.root, plug_all, Frame.plug]
    · simp [Cursor.before, ctx_before, flat_list_nil, pstree_item.d]
    · simp [Cursor.after, pstree_item.children, flat_list_cons, ctx_after, flat_eq c0]

theorem pstree_item_next_none (z : Cursor) (h : pstree_item_next z = none) : z.after = [] := by
  rcases z with ⟨⟨d, cs⟩, ctx⟩
  cases cs with
  | nil =>
    simp only [pstree_item_next] at h
    simp [Cursor.after, pstree_item.children, flat_list_nil, next_up_none _ _ h]
  | cons c0 cs => simp [pstree_item_next] at h

theorem for_each_inv {σ : Type} (body : σ → Cursor → Except Err (σ × Cursor))
    (Inv : σ → Cursor → Prop) (Q : σ → pstree_item → Prop)
    (hstep : ∀ s z s1 z1 z2, Inv s z → body s z = .ok (s1, z1) →
      pstree_item_next z1 = some z2 → Inv s1 z2)
    (hend : ∀ s z s1 z1, Inv s z → body s z = .ok (s1, z1) →
      pstree_item_next z1 = none → Q s1 z1.root) :
    ∀ (fuel : Nat) (s : σ) (z : Cursor) (s' : σ) (t' : pstree_item), Inv s z →
      for_each_pstree_item body fuel s z = .ok (s', t') → Q s' t' := by
  intro fuel
  induction fuel with
  | zero => intro s z s' t' _ h; simp [for_each_pstree_item] at h
  | succ n ih =>
    intro s z s' t' hI h
    simp only [for_each_pstree_item] at h
    cases hb : body s z with
    | error e => simp [hb] at h
    | ok r =>
      obtain ⟨s1, z1⟩ := r
      simp only [hb] at h
      cases hn : pstree_item_next z1 with
      | none =>
        simp only [hn, Except.ok.injEq, Prod.mk.injEq] at h
        obtain ⟨rfl, rfl⟩ := h
        exact hend s z _ _ hI hb hn
      | some z2 =>
        simp only [hn] at h
        exact ih s1 z2 s' t' (hstep s z s1 z1 z2 hI hb hn) h

theorem for_each_fuel {σ : Type} (body : σ → Cursor → Except Err (σ × Cursor))
    (Inv : σ → Cursor → Prop) (μ : σ → Cursor → Nat)
    (hbody : ∀ s z, Inv s z → body s z ≠ .error Err.OutOfFuel)
    (hstep : ∀ s z s1 z1 z2, Inv s z → body s z = .ok (s1, z1) →
      pstree_item_next z1 = some z2 → Inv s1 z2 ∧ μ s1 z2 < μ s z) :
    ∀ (fuel : Nat) (s : σ) (z : Cursor), Inv s z → μ s z < fuel →
      for_each_pstree_item body fuel s z ≠ .error Err.OutOfFuel := by
  intro fuel
  induction fuel with
  | zero => intro s z _ h; omega
  | succ n ih =>
    intro s z hI hμ
    simp only [for_each_pstree_item]
    cases hb : body s z with
    | error e =>
      simp only
      intro h
      apply hbody s z hI
      rw [hb]
      injection h with h
      rw [h]
    | ok r =>
      obtain ⟨s1, z1⟩ := r
      simp only
      cases hn : pstree_item_next z1 with
      | none => simp
      | some z2 =>
        simp only
        obtain ⟨hI2, hlt⟩ := hstep s z s1 z1 z2 hI hb hn
        exact ih s1 z2 hI2 (by omega)

theorem for_each_fails {σ : Type} (body : σ → Cursor → Except Err (σ × Cursor))
    (Bad : σ → Cursor → Prop)
    (hstep : ∀ s z s1 z1, Bad s z → body s z = .ok (s1, z1) →
      ∃ z2, pstree_item_next z1 = some z2 ∧ Bad s1 z2) :
    ∀ (fuel : Nat) (s : σ) (z : Cursor) (r : σ × pstree_item), Bad s z →
      for_each_pstree_item body fuel s z ≠ .ok r := by
  intro fuel
  induction fuel with
  | zero => intro s z r _ h; simp [for_each_pstree_item] at h
  | succ n ih =>
    intro s z r hB h
    simp only [for_each_pstree_item] at h
    cases hb : body s z with
    | error e => simp [hb] at h
    | ok r1 =>
      obtain ⟨s1, z1⟩ := r1
      simp only [hb] at h
      obtain ⟨z2, hn, hB2⟩ := hstep s z s1 z1 hB hb
      simp only [hn] at h
      exact ih s1 z2 r hB2 h

theorem pstree_item_search_spec (cond : ItemData → Bool) :
    ∀ (fuel : Nat) (z : Cursor), z.after.length < fuel →
      (∃ c pre, pstree_item_search cond fuel z = .ok (some c) ∧ cond c.focus.d = true ∧
        c.root = z.root ∧ c.before = z.before ++ pre ∧ ∀ d ∈ pre, cond d = false) ∨
      (pstree_item_search cond fuel z = .ok none ∧ ∀ d ∈ z.focus.d :: z.after, cond d = false) := by
  intro fuel
  induction fuel with
  | zero => intro z h; omega
  | succ n ih =>
    intro z hf
    simp only [pstree_item_search]
    by_cases hc : cond z.focus.d = true
    · left
      exact ⟨z, [], by simp [hc], hc, rfl, by simp, by simp⟩
    · simp only [hc, Bool.false_eq_true, if_false]
      cases hn : pstree_item_next z with
      | none =>
        right
        have := pstree_item_next_none z hn
        simp [this, hc]
      | some z1 =>
        obtain ⟨h1, h2, h3⟩ := pstree_item_next_some z z1 hn
        simp only
        have hlen : z1.after.length < n := by
          rw [h3] at hf; simp at hf; omega
        rcases ih z1 hlen with ⟨c, pre, e1, e2, e3, e4, e5⟩ | ⟨e1, e2⟩
        · left
          refine ⟨c, z.focus.d :: pre, e1, e2, by rw [e3, h1], by rw [e4, h2]; simp, ?_⟩
          intro d hd
          rcases List.mem_cons.mp hd with rfl | hd
          · simpa using hc
          · exact e5 d hd
        · right
          refine ⟨e1, ?_⟩
          intro d hd
          rcases List.mem_cons.mp hd with rfl | hd
          · simpa using hc
          · rw [h3] at hd; exact e2 d hd

theorem walk_mk (anc : List ItemData) (d : ItemData) (cs : List pstree_item) :
    (pstree_item.mk d cs).walk anc = (anc, d) :: walk_list (d :: anc) cs := by
  simp [pstree_item.walk]

theorem walk_eq (anc : List ItemData) (t : pstree_item) :
    t.walk anc = (anc, t.d) :: walk_list (t.d :: anc) t.children := by
  cases t; simp [pstree_item.walk, pstree_item.d, pstree_item.children]

theorem walk_list_nil (anc : List ItemData) : walk_list anc [] = [] := by simp [walk_list]

theorem walk_list_cons (anc : List ItemData) (c : pstree_item) (cs : List pstree_item) :
    walk_list anc (c :: cs) = c.walk anc ++ walk_list anc cs := by simp [walk_list]

theorem walk_list_append (anc : List ItemData) (a b : List pstree_item) :
    walk_list anc (a ++ b) = walk_list anc a ++ walk_list anc b := by
  induction a with
  | nil => simp [walk_list_nil]
  | cons c cs ih => simp [walk_list_cons, ih]

mutual
theorem walk_map_snd (anc : List ItemData) : ∀ t : pstree_item, (t.walk anc).map Prod.snd = t.flat
  | .mk d cs => by
    simp [walk_mk, flat_mk, walk_list_map_snd (d :: anc) cs]
theorem walk_list_map_snd (anc : List ItemData) :
    ∀ cs : List pstree_item, (walk_list anc cs).map Prod.snd = flat_list cs
  | [] => by simp [walk_list_nil, flat_list_nil]
  | c :: cs => by
    simp [walk_list_cons, flat_list_cons, walk_map_snd anc c, walk_list_map_snd anc cs]
end

theorem walk_plug (f : Frame) (fs : List Frame) (t : pstree_item) :
    (f.plug t).walk (ancestors fs) =
      (ancestors fs, f.d) :: walk_list (f.d :: ancestors fs) f.left ++
        t.walk (ancestors (f :: fs)) ++ walk_list (f.d :: ancestors fs) f.right := by
  simp [Frame.plug, walk_mk, walk_list_append, walk_list_cons, ancestors]

theorem walk_plug_all (t : pstree_item) (ctx : List Frame) :
    (plug_all t ctx).walk [] = ctx_walk_before ctx ++ t.walk (ancestors ctx) ++ ctx_walk_after ctx := by
  induction ctx generalizing t with
  | nil => simp [plug_all, ctx_walk_before, ctx_walk_after, ancestors]
  | cons f fs ih => simp [plug_all, ih, walk_plug, ctx_walk_before, ctx_walk_after]

theorem walk_root (c : Cursor) : c.root.walk [] = c.walk_before ++ c.here :: c.walk_after := by
  simp [Cursor.root, walk_plug_all, Cursor.walk_before, Cursor.walk_after, Cursor.here,
    walk_eq _ c.focus]

theorem next_up_walk_some (t : pstree_item) (ctx : List Frame) (c : Cursor)
    (h : next_up t ctx = some c) :
    c.walk_before = ctx_walk_before ctx ++ t.walk (ancestors ctx) ∧
      ctx_walk_after ctx = c.focus.walk (ancestors c.ctx) ++ ctx_walk_after c.ctx := by
  induction ctx generalizing t with
  | nil => simp [next_up] at h
  | cons f fs ih =>
    rcases f with ⟨d, l, r⟩
    cases r with
    | nil =>
      simp only [next_up] at h
      obtain ⟨h2, h3⟩ := ih _ h
      refine ⟨?_, ?_⟩
      · rw [h2]; simp [walk_plug, ctx_walk_before, walk_list_nil]
      · simp [ctx_walk_after, walk_list_nil, h3]
    | cons r rs =>
      simp only [next_up, Option.some.injEq] at h
      subst h
      refine ⟨?_, ?_⟩
      · simp [Cursor.walk_before, ctx_walk_before, walk_list_append, walk_list_cons, walk_list_nil,
          ancestors]
      · simp [ctx_walk_after, walk_list_cons, ancestors]

theorem next_up_walk_none (t : pstree_item) (ctx : List Frame) (h : next_up t ctx = none) :
    ctx_walk_after ctx = [] := by
  induction ctx generalizing t with
  | nil => simp [ctx_walk_after]
  | cons f fs ih =>
    rcases f with ⟨d, l, r⟩
    cases r with
    | nil =>
      simp only [next_up] at h
      simp [ctx_walk_after, walk_list_nil, ih _ h]
    | cons r rs => simp [next_up] at h

theorem pstree_item_next_walk_some (z c : Cursor) (h : pstree_item_next z = some c) :
    c.walk_before = z.walk_before ++ [z.here] ∧ z.walk_after = c.here :: c.walk_after := by
  rcases z with ⟨⟨d, cs⟩, ctx⟩
  cases cs with
  | nil =>
    simp only [pstree_item_next] at h
    obtain ⟨h2, h3⟩ := next_up_walk_some _ _ _ h
    refine ⟨?_, ?_⟩
    · rw [h2]; simp [Cursor.walk_before, walk_mk, walk_list_nil, Cursor.here, pstree_item.d]
    · simp [Cursor.walk_after, pstree_item.children, walk_list_nil, h3, walk_eq _ c.focus,
        Cursor.here]
  | cons c0 cs =>
    simp only [pstree_item_next, Option.some.injEq] at h
    subst h
    refine ⟨?_, ?_⟩
    · simp [Cursor.walk_before, ctx_walk_before, walk_list_nil, Cursor.here, pstree_item.d,
        ancestors]
    · simp [Cursor.walk_after, pstree_item.children, walk_list_cons, ctx_walk_after,
        walk_eq _ c0, Cursor.here, ancestors, pstree_item.d]

theorem pstree_item_next_walk_none (z : Cursor) (h : pstree_item_next z = none) :
    z.walk_after = [] := by
  rcases z with ⟨⟨d, cs⟩, ctx⟩
  cases cs with
  | nil =>
    simp only [pstree_item_next] at h
    simp [Cursor.walk_after, pstree_item.children, walk_list_nil, next_up_walk_none _ _ h]
  | cons c0 cs => simp [pstree_item_next] at h

theorem entry_of_here (c : Cursor) : entry_of c = entry_of_walk c.here := by
  rcases c with ⟨t, ctx⟩
  cases ctx <;> simp [entry_of, entry_of_walk, Cursor.here, ancestors]

theorem list_add_root_walk (parent : Cursor) (child : pstree_item) :
    (parent.list_add child).root.walk [] =
      parent.walk_before ++ parent.here ::
        (child.walk (parent.focus.d :: ancestors parent.ctx) ++ parent.walk_after) := by
  rw [walk_root]
  simp [Cursor.list_add, Cursor.walk_before, Cursor.walk_after, Cursor.here, walk_list_cons,
    pstree_item.d, pstree_item.children]

theorem list_add_root_flat (parent : Cursor) (child : pstree_item) :
    (parent.list_add child).root.flat =
      parent.before ++ parent.focus.d :: (child.flat ++ parent.after) := by
  rw [flat_root]
  simp [Cursor.list_add, Cursor.before, Cursor.after, flat_list_cons,
    pstree_item.d, pstree_item.children]

theorem lookup_ancestors_some (ppid : Int) (t : pstree_item) (ctx : List Frame) (p : Cursor)
    (h : lookup_ancestors ppid t ctx = some p) :
    p.focus.d.pid_virt = ppid ∧ p.root = plug_all t ctx := by
  induction ctx generalizing t with
  | nil =>
    simp only [lookup_ancestors] at h
    split_ifs at h with hp
    simp only [Option.some.injEq] at h
    subst h
    exact ⟨hp, rfl⟩
  | cons f fs ih =>
    simp only [lookup_ancestors] at h
    split_ifs at h with hp
    · simp only [Option.some.injEq] at h
      subst h
      exact ⟨hp, rfl⟩
    · obtain ⟨h1, h2⟩ := ih _ h
      exact ⟨h1, by rw [h2]; rfl⟩

theorem find_parent_spec (ppid : Int) (cur : Cursor) :
    (∃ p, find_parent ppid (some cur.root) (some cur) = .ok (some p) ∧ p.root = cur.root ∧
        p.focus.d.pid_virt = ppid) ∨
    (find_parent ppid (some cur.root) (some cur) = .ok none ∧
        ∀ d ∈ cur.root.flat, d.pid_virt ≠ ppid) := by
  unfold find_parent
  simp only
  cases hl : lookup_ancestors ppid cur.focus cur.ctx with
  | some p =>
    left
    obtain ⟨h1, h2⟩ := lookup_ancestors_some _ _ _ _ hl
    exact ⟨p, rfl, h2, h1⟩
  | none =>
    simp only
    have hfuel : (Cursor.of_root cur.root).after.length < cur.root.size := by
      simp [Cursor.after, Cursor.of_root, ctx_after, pstree_item.size, flat_eq cur.root]
    rcases pstree_item_search_spec (fun d => decide (d.pid_virt = ppid)) _ _ hfuel with
      ⟨c, pre, e1, e2, e3, -, -⟩ | ⟨e1, e2⟩
    · left
      refine ⟨c, e1, ?_, by simpa using e2⟩
      rw [e3]; rfl
    · right
      refine ⟨e1, ?_⟩
      intro d hd
      have := e2 d (by
        rw [flat_eq] at hd
        simpa [Cursor.after, Cursor.of_root, ctx_after] using hd)
      simpa using this

theorem entries_flat_pid (t : pstree_item) :
    t.entries.map PstreeEntry.pid = t.flat.map ItemData.pid_virt := by
  rw [← walk_map_snd [] t]
  simp [pstree_item.entries, entry_of_walk, Function.comp_def]

theorem step_of_none (g : Globals) (e : PstreeEntry) (hg : g.root_item = none) :
    (e.ppid = 0 ∧ ∃ g1, prepare_pstree_step (g, none) e =
        .ok (g1, some (Cursor.of_root (.mk (item_of_entry e) []))) ∧
        g1.root_item = some (.mk (item_of_entry e) [])) ∨
    (e.ppid ≠ 0 ∧ prepare_pstree_step (g, none) e = .error Err.ImageCorruption) := by
  by_cases h0 : e.ppid = 0
  · left
    refine ⟨h0, ?_⟩
    simp [prepare_pstree_step, h0, hg, Cursor.of_root]
  · right
    refine ⟨h0, ?_⟩
    simp [prepare_pstree_step, h0, hg, find_parent]

theorem step_of_some (g : Globals) (cur : Cursor) (e : PstreeEntry)
    (hg : g.root_item = some cur.root) :
    (prepare_pstree_step (g, some cur) e = .error Err.ImageCorruption ∧
      (e.ppid = 0 ∨ ∀ d ∈ cur.root.flat, d.pid_virt ≠ e.ppid)) ∨
    (e.ppid ≠ 0 ∧ ∃ (g1 : Globals) (cur1 parent : Cursor), prepare_pstree_step (g, some cur) e = .ok (g1, some cur1) ∧
      g1.root_item = some cur1.root ∧ parent.root = cur.root ∧
      parent.focus.d.pid_virt = e.ppid ∧
      cur1.root = (parent.list_add (.mk (item_of_entry e) [])).root) := by
  by_cases h0 : e.ppid = 0
  · left
    simp [prepare_pstree_step, h0, hg]
  · rcases find_parent_spec e.ppid cur with ⟨p, e1, e2, e3⟩ | ⟨e1, e2⟩
    · right
      refine ⟨h0, ?_⟩
      simp only [prepare_pstree_step, h0, if_false, hg, e1]
      exact ⟨_, _, p, rfl, rfl, e2, e3, by simp [Cursor.root, Cursor.list_add, plug_all, Frame.plug]⟩
    · left
      simp only [prepare_pstree_step, h0, if_false, hg, e1]
      exact ⟨trivial, Or.inr e2⟩

theorem plug_all_d (t t' : pstree_item) (ctx : List Frame) (h : t.d = t'.d) :
    (plug_all t ctx).d = (plug_all t' ctx).d := by
  induction ctx generalizing t t' with
  | nil => simpa [plug_all] using h
  | cons f fs ih => exact ih _ _ (by simp [Frame.plug, pstree_item.d])

theorem list_add_root_d (c : Cursor) (child : pstree_item) :
    (c.list_add child).root.d = c.root.d := by
  apply plug_all_d
  simp [Cursor.list_add, pstree_item.d]

theorem list_add_leaf_entries (parent : Cursor) (e : PstreeEntry)
    (h : parent.focus.d.pid_virt = e.ppid) :
    (parent.list_add (.mk (item_of_entry e) [])).root.entries.Perm (parent.root.entries ++ [e]) := by
  have he : entry_of_walk (parent.focus.d :: ancestors parent.ctx, item_of_entry e) = e := by
    cases e
    simp only [entry_of_walk, item_of_entry, __alloc_pstree_item] at *
    simp [h]
  unfold pstree_item.entries
  rw [list_add_root_walk, walk_root]
  simp only [walk_mk, walk_list_nil, List.map_append, List.map_cons, List.map_nil,
    List.singleton_append, he, List.append_assoc, List.cons_append]
  apply List.Perm.append_left
  apply List.Perm.cons
  simpa using (List.perm_append_singleton e (List.map entry_of_walk parent.walk_after)).symm

theorem for_each_error {σ : Type} (body : σ → Cursor → Except Err (σ × Cursor)) (e : Err) :
    ∀ (fuel : Nat) (s : σ) (z : Cursor), for_each_pstree_item body fuel s z = .error e →
      e = Err.OutOfFuel ∨ ∃ s1 z1, body s1 z1 = .error e := by
  intro fuel
  induction fuel with
  | zero =>
    intro s z h
    simp only [for_each_pstree_item] at h
    injection h with h
    exact Or.inl h.symm
  | succ n ih =>
    intro s z h
    simp only [for_each_pstree_item] at h
    cases hb : body s z with
    | error e1 =>
      simp only [hb] at h
      injection h with h
      right
      exact ⟨s, z, by rw [hb, h]⟩
    | ok r =>
      obtain ⟨s1, z1⟩ := r
      simp only [hb] at h
      cases hn : pstree_item_next z1 with
      | none => simp [hn] at h
      | some z2 =>
        simp only [hn] at h
        exact ih _ _ h

theorem list_add_leaf_mem (parent : Cursor) (x d : ItemData) :
    d ∈ (parent.list_add (.mk x [])).root.flat ↔ d ∈ parent.root.flat ∨ d = x := by
  rw [list_add_root_flat, flat_root]
  simp only [flat_mk, flat_list_nil, List.mem_append, List.mem_cons, List.mem_singleton,
    List.not_mem_nil, or_false]
  tauto

theorem loop_of_some_ok : ∀ (image : List PstreeEntry) (g : Globals) (cur : Cursor)
    (st' : Globals × Option Cursor), g.root_item = some cur.root →
    prepare_pstree_loop (g, some cur) image = .ok st' →
    ∃ cur', st'.2 = some cur' ∧ st'.1.root_item = some cur'.root ∧
      cur'.root.entries.Perm (cur.root.entries ++ image) ∧ cur'.root.d = cur.root.d ∧
      (∀ d, d ∈ cur'.root.flat ↔ d ∈ cur.root.flat ∨ ∃ e ∈ image, d = item_of_entry e) ∧
      (∀ e ∈ image, e.ppid ≠ 0)
  | [], g, cur, st', hg, h => by
    simp only [prepare_pstree_loop, Except.ok.injEq] at h
    subst h
    exact ⟨cur, rfl, hg, by simp, rfl, by simp, by simp⟩
  | e :: es, g, cur, st', hg, h => by
    simp only [prepare_pstree_loop] at h
    rcases step_of_some g cur e hg with ⟨e1, -⟩ | ⟨h0, g1, cur1, parent, e1, e2, e3, e4, e5⟩
    · simp [e1] at h
    · simp only [e1] at h
      obtain ⟨cur', c1, c2, c3, c4, c5, c6⟩ := loop_of_some_ok es g1 cur1 st' e2 h
      refine ⟨cur', c1, c2, ?_, ?_, ?_, ?_⟩
      · refine c3.trans ?_
        rw [e5]
        have := list_add_leaf_entries parent e e4
        rw [e3] at this
        simpa using this.append_right es
      · rw [c4, e5, list_add_root_d, e3]
      · intro d
        rw [c5, e5, list_add_leaf_mem, e3]
        simp only [List.mem_cons, exists_eq_or_imp]
        tauto
      · intro e' he'
        rcases List.mem_cons.mp he' with rfl | he'
        · exact h0
        · exact c6 e' he'

theorem loop_of_some_cases : ∀ (image : List PstreeEntry) (g : Globals) (cur : Cursor),
    g.root_item = some cur.root →
    (∃ st', prepare_pstree_loop (g, some cur) image = .ok st') ∨
    (prepare_pstree_loop (g, some cur) image = .error Err.ImageCorruption ∧
      ∃ pre e post, image = pre ++ e :: post ∧
        (e.ppid = 0 ∨ ((∀ d ∈ cur.root.flat, d.pid_virt ≠ e.ppid) ∧ ∀ e' ∈ pre, e'.pid ≠ e.ppid)))
  | [], g, cur, hg => by
    left
    exact ⟨_, rfl⟩
  | e :: es, g, cur, hg => by
    simp only [prepare_pstree_loop]
    rcases step_of_some g cur e hg with ⟨e1, hc⟩ | ⟨h0, g1, cur1, parent, e1, e2, e3, e4, e5⟩
    · right
      simp only [e1, true_and]
      refine ⟨[], e, es, rfl, ?_⟩
      rcases hc with hc | hc
      · exact Or.inl hc
      · exact Or.inr ⟨hc, by simp⟩
    · simp only [e1]
      rcases loop_of_some_cases es g1 cur1 e2 with hok | ⟨herr, pre, e', post, hi, hc⟩
      · exact Or.inl hok
      · right
        refine ⟨herr, e :: pre, e', post, by simp [hi], ?_⟩
        rcases hc with hc | ⟨hc1, hc2⟩
        · exact Or.inl hc
        · right
          have hflat : ∀ d, d ∈ cur1.root.flat ↔ d ∈ cur.root.flat ∨ d = item_of_entry e := by
            intro d
            rw [e5, list_add_leaf_mem, e3]
          refine ⟨fun d hd => hc1 d ((hflat d).mpr (Or.inl hd)), ?_⟩
          intro e'' he''
          rcases List.mem_cons.mp he'' with rfl | he''
          · have := hc1 (item_of_entry e'') ((hflat _).mpr (Or.inr rfl))
            simpa [item_of_entry] using this
          · exact hc2 e'' he''

theorem loop_of_some_fail : ∀ (pre : List PstreeEntry) (e : PstreeEntry) (post : List PstreeEntry)
    (g : Globals) (cur : Cursor), g.root_item = some cur.root →
    (e.ppid = 0 ∨ ((∀ d ∈ cur.root.flat, d.pid_virt ≠ e.ppid) ∧ ∀ e' ∈ pre, e'.pid ≠ e.ppid)) →
    prepare_pstree_loop (g, some cur) (pre ++ e :: post) = .error Err.ImageCorruption
  | [], e, post, g, cur, hg, hc => by
    simp only [List.nil_append, prepare_pstree_loop]
    rcases step_of_some g cur e hg with ⟨e1, -⟩ | ⟨h0, g1, cur1, parent, e1, e2, e3, e4, e5⟩
    · simp [e1]
    · exfalso
      rcases hc with hc | ⟨hc, -⟩
      · exact h0 hc
      · apply hc parent.focus.d _ e4
        rw [← e3, flat_root]
        simp
  | e0 :: pre, e, post, g, cur, hg, hc => by
    simp only [List.cons_append, prepare_pstree_loop]
    rcases step_of_some g cur e0 hg with ⟨e1, -⟩ | ⟨h0, g1, cur1, parent, e1, e2, e3, e4, e5⟩
    · simp [e1]
    · simp only [e1]
      apply loop_of_some_fail pre e post g1 cur1 e2
      rcases hc with hc | ⟨hc1, hc2⟩
      · exact Or.inl hc
      · right
        refine ⟨?_, fun e' he' => hc2 e' (List.mem_cons_of_mem _ he')⟩
        intro d hd
        rw [e5, list_add_leaf_mem, e3] at hd
        rcases hd with hd' | rfl
        · exact hc1 d hd'
        · have := hc2 e0 (List.mem_cons_self _ _)
          simpa [item_of_entry] using this

theorem shell_job_not_corrupt (sj : Bool) (cs cg : Int) (g : Globals) :
    prepare_pstree_for_shell_job sj cs cg g ≠ .error Err.ImageCorruption := by
  unfold prepare_pstree_for_shell_job
  split_ifs
  · simp
  · cases hr : g.root_item with
    | none => simp
    | some root =>
      simp only
      cases hf : for_each_pstree_item
          (shell_job_body root.d.pgid root.d.sid cg cs) root.size () (Cursor.of_root root) with
      | ok r => simp
      | error e =>
        simp only
        intro h
        injection h with h
        subst h
        rcases for_each_error _ _ _ _ _ hf with h | ⟨s1, z1, h⟩
        · simp at h
        · simp [shell_job_body] at h

/-- C5. Started with `root_item` unset, with reads and allocations succeeding,
`prepare_pstree` returns the image-corruption error exactly when some record either has
`ppid == 0` while an earlier record also had `ppid == 0`, or has a non-zero `ppid` that is the
`pid` of no earlier record. -/
theorem prepare_pstree_fails_iff (shell_job : Bool) (current_sid current_gid : Int) (g : Globals)
    (image : List PstreeEntry) (hg : g.root_item = none) :
    prepare_pstree shell_job current_sid current_gid g image = .error Err.ImageCorruption ↔
      ∃ pre e post, image = pre ++ e :: post ∧
        ((e.ppid = 0 ∧ ∃ e' ∈ pre, e'.ppid = 0) ∨ (e.ppid ≠ 0 ∧ ∀ e' ∈ pre, e'.pid ≠ e.ppid)) := by
  have hloop : prepare_pstree shell_job current_sid current_gid g image = .error Err.ImageCorruption ↔
      prepare_pstree_loop (g, none) image = .error Err.ImageCorruption := by
    unfold prepare_pstree
    cases hl : prepare_pstree_loop (g, none) image with
    | error e => simp
    | ok st =>
      simp only [reduceCtorEq, iff_false]
      exact shell_job_not_corrupt _ _ _ _
  rw [hloop]
  cases image with
  | nil =>
    simp [prepare_pstree_loop]
  | cons e0 rest =>
    simp only [prepare_pstree_loop]
    rcases step_of_none g e0 hg with ⟨h0, g1, e1, e2⟩ | ⟨h0, e1⟩
    · simp only [e1]
      have hroot : g1.root_item = some (Cursor.of_root (.mk (item_of_entry e0) [])).root := by
        simpa [Cursor.of_root, Cursor.root, plug_all] using e2
      constructor
      · intro h
        rcases loop_of_some_cases rest g1 _ hroot with ⟨st', hok⟩ | ⟨-, pre, e, post, hi, hc⟩
        · rw [hok] at h; simp at h
        · refine ⟨e0 :: pre, e, post, by simp [hi], ?_⟩
          by_cases he : e.ppid = 0
          · exact Or.inl ⟨he, e0, List.mem_cons_self _ _, h0⟩
          · right
            rcases hc with hc | ⟨hc1, hc2⟩
            · exact absurd hc he
            · refine ⟨he, ?_⟩
              intro e' he'
              rcases List.mem_cons.mp he' with rfl | he'
              · have := hc1 (item_of_entry e') (by
                  simp [Cursor.of_root, Cursor.root, plug_all, flat_mk, flat_list_nil])
                simpa [item_of_entry] using this
              · exact hc2 e' he'
      · rintro ⟨pre, e, post, hi, hc⟩
        cases pre with
        | nil =>
          simp only [List.nil_append, List.cons.injEq] at hi
          obtain ⟨rfl, rfl⟩ := hi
          rcases hc with ⟨-, e', he', -⟩ | ⟨hc, -⟩
          · simp at he'
          · exact absurd h0 hc
        | cons p pre =>
          simp only [List.cons_append, List.cons.injEq] at hi
          obtain ⟨rfl, rfl⟩ := hi
          apply loop_of_some_fail pre e post g1 _ hroot
          rcases hc with ⟨hc, -⟩ | ⟨hc1, hc2⟩
          · exact Or.inl hc
          · right
            refine ⟨?_, fun e' he' => hc2 e' (List.mem_cons_of_mem _ he')⟩
            intro d hd
            simp only [Cursor.of_root, Cursor.root, plug_all, flat_mk, flat_list_nil,
              List.mem_singleton] at hd
            subst hd
            have := hc2 e0 (List.mem_cons_self _ _)
            simpa [item_of_entry] using this
    · simp only [e1, true_iff]
      exact ⟨[], e0, rest, rfl, Or.inr ⟨h0, by simp⟩⟩

theorem prepare_pstree_loop_append : ∀ (a b : List PstreeEntry) (st : Globals × Option Cursor),
    prepare_pstree_loop st (a ++ b) =
      match prepare_pstree_loop st a with
      | .error err => .error err
      | .ok st1 => prepare_pstree_loop st1 b
  | [], b, st => by simp [prepare_pstree_loop]
  | e :: a, b, st => by
    simp only [List.cons_append, prepare_pstree_loop]
    cases prepare_pstree_step st e with
    | error err => simp
    | ok st1 => simp [prepare_pstree_loop_append a b st1]

theorem prepare_pstree_no_shell_job (cs cg : Int) (g : Globals) (image : List PstreeEntry)
    (g' : Globals) :
    prepare_pstree false cs cg g image = .ok g' ↔
      ∃ c, prepare_pstree_loop (g, none) image = .ok (g', c) := by
  unfold prepare_pstree
  cases prepare_pstree_loop (g, none) image with
  | error err => simp
  | ok st =>
    obtain ⟨g1, c⟩ := st
    simp [prepare_pstree_for_shell_job]

/-- C6 (amended). With `shell_job` off and `root_item` initially unset, whenever
`prepare_pstree` succeeds on a non-empty record sequence (in any order): the first record has
`ppid == 0` and its item is the root; the records of the resulting tree (pid, parent's pid or
0, pgid, sid, thread ids) are a rearrangement of the records read, every item being a freshly
allocated non-helper item filled in from its record; and each later record was added as a
child of an item with `pid.virt == ppid` of the tree built from the records before it. -/
theorem prepare_pstree_post (current_sid current_gid : Int) (g g' : Globals)
    (image : List PstreeEntry) (hg : g.root_item = none)
    (h : prepare_pstree false current_sid current_gid g image = .ok g') :
    (image = [] ∧ g'.root_item = none) ∨
    ∃ e0 rest root, image = e0 :: rest ∧ g'.root_item = some root ∧ e0.ppid = 0 ∧
      root.d = item_of_entry e0 ∧ root.entries.Perm image ∧
      (∀ d, d ∈ root.flat ↔ ∃ e ∈ image, d = item_of_entry e) ∧
      (∀ d ∈ root.flat, d.state = Kind.REAL) ∧
      ∀ pre e post, rest = pre ++ e :: post →
        e.ppid ≠ 0 ∧ ∃ (gp gq : Globals) (parent : Cursor),
          prepare_pstree false current_sid current_gid g (e0 :: pre) = .ok gp ∧
          gp.root_item = some parent.root ∧ parent.focus.d.pid_virt = e.ppid ∧
          prepare_pstree false current_sid current_gid g (e0 :: pre ++ [e]) = .ok gq ∧
          gq.root_item = some (parent.list_add (.mk (item_of_entry e) [])).root := by
  rw [prepare_pstree_no_shell_job] at h
  obtain ⟨c, h⟩ := h
  cases image with
  | nil =>
    left
    simp only [prepare_pstree_loop, Except.ok.injEq, Prod.mk.injEq] at h
    exact ⟨rfl, by rw [← h.1]; exact hg⟩
  | cons e0 rest =>
    right
    simp only [prepare_pstree_loop] at h
    rcases step_of_none g e0 hg with ⟨h0, g1, e1, e2⟩ | ⟨h0, e1⟩
    swap
    · simp [e1] at h
    simp only [e1] at h
    have hroot : g1.root_item = some (Cursor.of_root (.mk (item_of_entry e0) [])).root := by
      simpa [Cursor.of_root, Cursor.root, plug_all] using e2
    obtain ⟨cur', c1, c2, c3, c4, c5, c6⟩ := loop_of_some_ok rest g1 _ _ hroot h
    have hflat0 : (Cursor.of_root (.mk (item_of_entry e0) [])).root.flat = [item_of_entry e0] := by
      simp [Cursor.of_root, Cursor.root, plug_all, flat_mk, flat_list_nil]
    have hmem : ∀ d, d ∈ cur'.root.flat ↔ ∃ e ∈ e0 :: rest, d = item_of_entry e := by
      intro d
      rw [c5, hflat0]
      simp
    refine ⟨e0, rest, cur'.root, rfl, c2, h0, ?_, ?_, hmem, ?_, ?_⟩
    · rw [c4]; simp [Cursor.of_root, Cursor.root, plug_all, pstree_item.d]
    · refine c3.trans ?_
      have : (Cursor.of_root (.mk (item_of_entry e0) [])).root.entries = [e0] := by
        cases e0
        simp only at h0
        simp [pstree_item.entries, Cursor.of_root, Cursor.root, plug_all, walk_mk, walk_list_nil,
          entry_of_walk, item_of_entry, __alloc_pstree_item, h0]
      rw [this]
      simp
    · intro d hd
      obtain ⟨e, -, rfl⟩ := (hmem d).mp hd
      simp [item_of_entry, __alloc_pstree_item]
    · intro pre e post hi
      subst hi
      refine ⟨c6 e (by simp), ?_⟩
      rw [prepare_pstree_loop_append] at h
      cases hp : prepare_pstree_loop (g1, some (Cursor.of_root (.mk (item_of_entry e0) []))) pre with
      | error err => simp [hp] at h
      | ok st1 =>
        simp only [hp, prepare_pstree_loop] at h
        obtain ⟨cur1, d1, d2, -⟩ := loop_of_some_ok pre g1 _ _ hroot hp
        obtain ⟨gp, cp⟩ := st1
        simp only at d1 d2
        subst d1
        rcases step_of_some gp cur1 e d2 with ⟨f1, -⟩ | ⟨-, g2, cur2, parent, f1, f2, f3, f4, f5⟩
        · simp [f1] at h
        · refine ⟨gp, g2, parent, ?_, by rw [d2, f3], f4, ?_, by rw [f2, f5]⟩
          · rw [prepare_pstree_no_shell_job]
            exact ⟨some cur1, by simp only [prepare_pstree_loop, e1]; exact hp⟩
          · rw [prepare_pstree_no_shell_job]
            refine ⟨some cur2, ?_⟩
            simp only [List.cons_append, prepare_pstree_loop, e1]
            show prepare_pstree_loop _ (pre ++ [e]) = _
            rw [prepare_pstree_loop_append, hp]
            simp [prepare_pstree_loop, f1]

/-- C6, counterexample. With `shell_job` set and the restorer in session 10 and group 11,
`prepare_pstree` succeeds on the single record (pid 1, ppid 0, pgid 1, sid 1, thread 1) and the
root of the resulting tree has `sid` 10 and `pgid` 11, not the values of the record. -/
theorem prepare_pstree_post_counterexample :
    ∃ g' root, prepare_pstree true 10 11 Globals.init [⟨1, 0, 1, 1, [1]⟩] = .ok g' ∧
      g'.root_item = some root ∧ root.entries = [⟨1, 0, 11, 10, [1]⟩] ∧
      ¬ root.entries.Perm [⟨1, 0, 1, 1, [1]⟩] := by
  refine ⟨_, _, rfl, rfl, by decide, by decide⟩

/-- C6, instance of the postcondition on the records (1, ppid 0), (2, ppid 1), (3, ppid 1). -/
theorem prepare_pstree_post_witness :
    Globals.init.root_item = none ∧
    ∃ g', prepare_pstree false 0 0 Globals.init
        [⟨1, 0, 1, 1, [1]⟩, ⟨2, 1, 1, 1, [2]⟩, ⟨3, 1, 1, 1, [3]⟩] = .ok g' ∧
      ∃ root, g'.root_item = some root ∧
        root.entries.Perm [⟨1, 0, 1, 1, [1]⟩, ⟨2, 1, 1, 1, [2]⟩, ⟨3, 1, 1, 1, [3]⟩] := by
  refine ⟨rfl, _, rfl, ?_⟩
  rcases prepare_pstree_post 0 0 Globals.init _
    [⟨1, 0, 1, 1, [1]⟩, ⟨2, 1, 1, 1, [2]⟩, ⟨3, 1, 1, 1, [3]⟩] rfl rfl with ⟨h, -⟩ | ⟨e0, rest, root, -, h2, -, -, h5, -⟩
  · simp at h
  · exact ⟨root, h2, h5⟩

/-- C5, instance: from the initial state the records (1, ppid 0), (2, ppid 7) are rejected. -/
theorem prepare_pstree_fails_iff_witness :
    Globals.init.root_item = none ∧
    prepare_pstree false 0 0 Globals.init [⟨1, 0, 1, 1, [1]⟩, ⟨2, 7, 1, 1, [2]⟩] =
      .error Err.ImageCorruption := by
  refine ⟨rfl, ?_⟩
  rw [prepare_pstree_fails_iff false 0 0 Globals.init _ rfl]
  exact ⟨[⟨1, 0, 1, 1, [1]⟩], ⟨2, 7, 1, 1, [2]⟩, [], rfl, Or.inr ⟨by decide, by decide⟩⟩

theorem for_each_static_fuel {σ : Type} (body : σ → Cursor → Except Err (σ × Cursor))
    (hbody : ∀ s z, body s z ≠ .error Err.OutOfFuel)
    (hafter : ∀ s z s1 z1, body s z = .ok (s1, z1) → z1.after.length = z.after.length)
    (fuel : Nat) (s : σ) (z : Cursor) (hf : z.after.length < fuel) :
    for_each_pstree_item body fuel s z ≠ .error Err.OutOfFuel := by
  refine for_each_fuel body (fun _ _ => True) (fun _ z => z.after.length)
    (fun s z _ => hbody s z) ?_ fuel s z trivial hf
  intro s z s1 z1 z2 _ hb hn
  refine ⟨trivial, ?_⟩
  have h3 := (pstree_item_next_some z1 z2 hn).2.2
  have := hafter s z s1 z1 hb
  rw [h3] at this
  simp only [List.length_cons] at this
  show z2.after.length < z.after.length
  omega

theorem of_root_after_length (t : pstree_item) : (Cursor.of_root t).after.length < t.size := by
  simp [Cursor.after, Cursor.of_root, ctx_after, pstree_item.size, flat_eq t]

theorem dump_pstree_ok (shell_job : Bool) (t : pstree_item)
    (h : t.d.pid_virt = t.d.sid ∨ shell_job = true) :
    dump_pstree shell_job t = .ok t.entries := by
  unfold dump_pstree
  have hcond : ¬ (t.d.pid_virt ≠ t.d.sid ∧ shell_job = false) := by
    rcases h with h | h
    · simp [h]
    · simp [h]
  rw [if_neg hcond]
  cases hf : for_each_pstree_item
      (fun (out : List PstreeEntry) item => Except.ok (out ++ [entry_of item], item))
      t.size [] (Cursor.of_root t) with
  | error e =>
    exfalso
    rcases for_each_error _ _ _ _ _ hf with h1 | ⟨s1, z1, h1⟩
    · subst h1
      exact for_each_static_fuel _ (by simp) (by
        intro s z s1 z1 hb
        simp only [Except.ok.injEq, Prod.mk.injEq] at hb
        rw [← hb.2]) _ _ _ (of_root_after_length t) hf
    · simp at h1
  | ok r =>
    obtain ⟨out, t'⟩ := r
    simp only
    have := for_each_inv
      (fun (out : List PstreeEntry) item => Except.ok (out ++ [entry_of item], item))
      (fun out z => out = z.walk_before.map entry_of_walk ∧ z.root = t)
      (fun out _ => out = t.entries) ?_ ?_ t.size [] (Cursor.of_root t) out t' ?_ hf
    · rw [this]
    · intro s z s1 z1 z2 hI hb hn
      simp only [Except.ok.injEq, Prod.mk.injEq] at hb
      obtain ⟨rfl, rfl⟩ := hb
      obtain ⟨h1, h2⟩ := pstree_item_next_walk_some _ _ hn
      refine ⟨?_, ?_⟩
      · rw [h1, hI.1, entry_of_here]; simp
      · rw [(pstree_item_next_some _ _ hn).1, hI.2]
    · intro s z s1 z1 hI hb hn
      simp only [Except.ok.injEq, Prod.mk.injEq] at hb
      obtain ⟨rfl, rfl⟩ := hb
      have h1 := pstree_item_next_walk_none _ hn
      show s ++ [entry_of z] = t.entries
      rw [← hI.2, pstree_item.entries, walk_root, h1, hI.1, entry_of_here]
      simp
    · simp [Cursor.walk_before, Cursor.of_root, ctx_walk_before, Cursor.root, plug_all]

theorem dump_pstree_accepts (shell_job : Bool) (t : pstree_item) (recs : List PstreeEntry)
    (h : dump_pstree shell_job t = .ok recs) : recs = t.entries := by
  by_cases hc : t.d.pid_virt = t.d.sid ∨ shell_job = true
  · rw [dump_pstree_ok shell_job t hc] at h
    injection h with h
    exact h.symm
  · exfalso
    unfold dump_pstree at h
    rw [if_pos (by
      rcases Bool.eq_false_or_eq_true shell_job with hs | hs
      · exact absurd (Or.inr hs) hc
      · exact ⟨fun hp => hc (Or.inl hp), hs⟩)] at h
    simp at h

theorem entries_under_mk (p : Int) (d : ItemData) (cs : List pstree_item) :
    entries_under p (.mk d cs) =
      ⟨d.pid_virt, p, d.pgid, d.sid, d.threads⟩ :: entries_under_list d.pid_virt cs := by
  simp [entries_under]

theorem entries_under_list_nil (p : Int) : entries_under_list p [] = [] := by
  simp [entries_under_list]

theorem entries_under_list_cons (p : Int) (c : pstree_item) (cs : List pstree_item) :
    entries_under_list p (c :: cs) = entries_under p c ++ entries_under_list p cs := by
  simp [entries_under_list]

/-- The `ppid` recorded for an item with the given ancestors. -/
theorem entry_of_walk_eq (anc : List ItemData) (d : ItemData) :
    entry_of_walk (anc, d) =
      ⟨d.pid_virt, (match anc with | [] => 0 | p :: _ => p.pid_virt), d.pgid, d.sid, d.threads⟩ := by
  simp [entry_of_walk]

mutual
theorem walk_entries_under (anc : List ItemData) (p : Int)
    (hp : (match anc with | [] => 0 | a :: _ => a.pid_virt) = p) :
    ∀ t : pstree_item, (t.walk anc).map entry_of_walk = entries_under p t
  | .mk d cs => by
    rw [walk_mk, entries_under_mk, List.map_cons, entry_of_walk_eq, hp,
      walk_list_entries_under (d :: anc) d.pid_virt rfl cs]
theorem walk_list_entries_under (anc : List ItemData) (p : Int)
    (hp : (match anc with | [] => 0 | a :: _ => a.pid_virt) = p) :
    ∀ cs : List pstree_item, (walk_list anc cs).map entry_of_walk = entries_under_list p cs
  | [] => by simp [walk_list_nil, entries_under_list_nil]
  | c :: cs => by
    rw [walk_list_cons, entries_under_list_cons, List.map_append,
      walk_entries_under anc p hp c, walk_list_entries_under anc p hp cs]
end

theorem entries_eq_under (t : pstree_item) : t.entries = entries_under 0 t :=
  walk_entries_under [] 0 rfl t

theorem mirror_with_mk (f : ItemData → ItemData) (d : ItemData) (cs : List pstree_item) :
    (pstree_item.mk d cs).mirror_with f = .mk (f d) (mirror_list_with f cs) := by
  simp [pstree_item.mirror_with]

theorem mirror_list_with_nil (f : ItemData → ItemData) : mirror_list_with f [] = [] := by
  simp [mirror_list_with]

theorem mirror_list_with_cons (f : ItemData → ItemData) (c : pstree_item)
    (cs : List pstree_item) :
    mirror_list_with f (c :: cs) = mirror_list_with f cs ++ [c.mirror_with f] := by
  simp [mirror_list_with]

theorem reaches_self (A : List Int) (c : Cursor) : Reaches A c c.focus c.ctx := by
  rcases c with ⟨t, ctx⟩
  cases ctx <;> simp [Reaches]

theorem lookup_self (p : Int) (par : Cursor) (h : par.focus.d.pid_virt = p) :
    lookup_ancestors p par.focus par.ctx = some par := by
  rcases par with ⟨t, ctx⟩
  cases ctx <;> simp_all [lookup_ancestors]

theorem reaches_lookup (A : List Int) (par : Cursor) (p : Int) (hp : p ∉ A) :
    ∀ (ctx : List Frame) (t : pstree_item), Reaches A par t ctx →
      lookup_ancestors p t ctx = lookup_ancestors p par.focus par.ctx
  | [], t, h => by
    simp only [Reaches] at h
    subst h
    rfl
  | f :: fs, t, h => by
    simp only [Reaches] at h
    rcases h with h | ⟨h1, h2⟩
    · subst h; rfl
    · have : t.d.pid_virt ≠ p := fun e => hp (e ▸ h1)
      simp only [lookup_ancestors, this, if_false]
      exact reaches_lookup A par p hp fs _ h2

theorem reaches_mono (A B : List Int) (par : Cursor) (hAB : ∀ x ∈ A, x ∈ B) :
    ∀ (ctx : List Frame) (t : pstree_item), Reaches A par t ctx → Reaches B par t ctx
  | [], t, h => by simpa [Reaches] using h
  | f :: fs, t, h => by
    simp only [Reaches] at h ⊢
    rcases h with h | ⟨h1, h2⟩
    · exact Or.inl h
    · exact Or.inr ⟨hAB _ h1, reaches_mono A B par hAB fs _ h2⟩

theorem reaches_trans (A : List Int) (par mid : Cursor)
    (hm : Reaches A par mid.focus mid.ctx) :
    ∀ (ctx : List Frame) (t : pstree_item), Reaches A mid t ctx → Reaches A par t ctx
  | [], t, h => by
    simp only [Reaches] at h
    subst h
    exact hm
  | f :: fs, t, h => by
    simp only [Reaches] at h
    rcases h with h | ⟨h1, h2⟩
    · subst h; exact hm
    · simp only [Reaches]
      exact Or.inr ⟨h1, reaches_trans A par mid hm fs _ h2⟩

theorem step_fast (g : Globals) (cur par : Cursor) (e : PstreeEntry) (h0 : e.ppid ≠ 0)
    (hl : lookup_ancestors e.ppid cur.focus cur.ctx = some par) :
    ∃ g1, prepare_pstree_step (g, some cur) e =
        .ok (g1, some ⟨.mk (item_of_entry e) [],
          { d := par.focus.d, left := [], right := par.focus.children } :: par.ctx⟩) ∧
      g1.root_item = some (par.list_add (.mk (item_of_entry e) [])).root := by
  cases hr : g.root_item with
  | none =>
    simp [prepare_pstree_step, h0, hr, find_parent, hl, Cursor.root, Cursor.list_add, plug_all,
      Frame.plug]
  | some r =>
    simp [prepare_pstree_step, h0, hr, find_parent, hl, Cursor.root, Cursor.list_add, plug_all,
      Frame.plug]

theorem list_add_all_nil (c : Cursor) : c.list_add_all [] = c := by
  rcases c with ⟨⟨d, cs⟩, ctx⟩
  simp [Cursor.list_add_all, pstree_item.d, pstree_item.children]

theorem list_add_all_snoc (c : Cursor) (l : List pstree_item) (x : pstree_item) :
    (c.list_add x).list_add_all l = c.list_add_all (l ++ [x]) := by
  simp [Cursor.list_add_all, Cursor.list_add, pstree_item.d, pstree_item.children]

mutual
theorem feed_tree : ∀ (S : pstree_item) (p : Int) (A : List Int) (g : Globals) (par cur : Cursor),
    Reaches A par cur.focus cur.ctx → par.focus.d.pid_virt = p → p ∉ A → p ≠ 0 →
    p ∉ S.flat.map ItemData.pid_virt → (S.flat.map ItemData.pid_virt).Nodup →
    (0 : Int) ∉ S.flat.map ItemData.pid_virt →
    ∃ g' cur', prepare_pstree_loop (g, some cur) (entries_under p S) = .ok (g', some cur') ∧
      g'.root_item = some cur'.root ∧
      (par.list_add (S.mirror_with fresh_copy)).root = cur'.root ∧
      Reaches (S.flat.map ItemData.pid_virt) (par.list_add (S.mirror_with fresh_copy))
        cur'.focus cur'.ctx
  | .mk d cs, p, A, g, par, cur, hre, hpar, hpA, hp0, hpS, hnd, h0S => by
    simp only [flat_mk, List.map_cons, List.mem_cons, not_or, List.nodup_cons] at hpS hnd h0S
    have hl : lookup_ancestors p cur.focus cur.ctx = some par := by
      rw [reaches_lookup A par p hpA _ _ hre, lookup_self p par hpar]
    obtain ⟨g1, hs, hg1⟩ := step_fast g cur par ⟨d.pid_virt, p, d.pgid, d.sid, d.threads⟩ hp0 hl
    let cur1 : Cursor := ⟨.mk (fresh_copy d) [],
      { d := par.focus.d, left := [], right := par.focus.children } :: par.ctx⟩
    have hroot1 : cur1.root = (par.list_add (.mk (fresh_copy d) [])).root := by
      simp [cur1, Cursor.root, Cursor.list_add, plug_all, Frame.plug]
    obtain ⟨g', cur', h1, h2, h3, h4⟩ := feed_list cs d.pid_virt [] g1 cur1 cur1
      (reaches_self _ _) (by simp [cur1, fresh_copy, item_of_entry, pstree_item.d]) (by simp)
      (fun h => h0S.1 h.symm) hnd.1 hnd.2 h0S.2
    have hcur1 : cur1.list_add_all (mirror_list_with fresh_copy cs) =
        ⟨(pstree_item.mk d cs).mirror_with fresh_copy,
          { d := par.focus.d, left := [], right := par.focus.children } :: par.ctx⟩ := by
      simp [cur1, Cursor.list_add_all, mirror_with_mk, pstree_item.d, pstree_item.children]
    have hfc : item_of_entry ⟨d.pid_virt, p, d.pgid, d.sid, d.threads⟩ = fresh_copy d := by
      simp [fresh_copy, item_of_entry]
    rw [hfc] at hs hg1
    refine ⟨g', cur', ?_, h2 (by rw [hg1, hroot1]), ?_, ?_⟩
    · rw [entries_under_mk]
      simp only [prepare_pstree_loop]
      rw [hs]
      exact h1
    · rw [← h3 rfl, hcur1]
      simp [Cursor.root, Cursor.list_add, plug_all, Frame.plug]
    · rw [hcur1] at h4
      have h4' := reaches_mono _ (d.pid_virt :: List.map ItemData.pid_virt (flat_list cs)) _
        (by intro x hx; simpa using Or.inr hx) _ _ h4
      simp only [List.nil_append] at h4'
      refine reaches_trans _ _ _ ?_ _ _ (by simpa [flat_mk] using h4')
      simp only [Reaches]
      right
      refine ⟨by simp [mirror_with_mk, pstree_item.d, fresh_copy, item_of_entry, flat_mk], ?_⟩
      have : (par.list_add ((pstree_item.mk d cs).mirror_with fresh_copy)) =
          ⟨Frame.plug { d := par.focus.d, left := [], right := par.focus.children }
            ((pstree_item.mk d cs).mirror_with fresh_copy), par.ctx⟩ := by
        simp [Cursor.list_add, Frame.plug]
      rw [this]
      exact reaches_self _ _
theorem feed_list : ∀ (cs : List pstree_item) (q : Int) (A : List Int) (g : Globals)
    (par cur : Cursor),
    Reaches A par cur.focus cur.ctx → par.focus.d.pid_virt = q → q ∉ A → q ≠ 0 →
    q ∉ (flat_list cs).map ItemData.pid_virt → ((flat_list cs).map ItemData.pid_virt).Nodup →
    (0 : Int) ∉ (flat_list cs).map ItemData.pid_virt →
    ∃ g' cur', prepare_pstree_loop (g, some cur) (entries_under_list q cs) = .ok (g', some cur') ∧
      (g.root_item = some cur.root → g'.root_item = some cur'.root) ∧
      (par.root = cur.root → (par.list_add_all (mirror_list_with fresh_copy cs)).root = cur'.root) ∧
      Reaches (A ++ (flat_list cs).map ItemData.pid_virt)
        (par.list_add_all (mirror_list_with fresh_copy cs)) cur'.focus cur'.ctx
  | [], q, A, g, par, cur, hre, hpar, hqA, hq0, hqS, hnd, h0S => by
    refine ⟨g, cur, by simp [entries_under_list_nil, prepare_pstree_loop], id, ?_, ?_⟩
    · intro h; rw [mirror_list_with_nil, list_add_all_nil, h]
    · rw [mirror_list_with_nil, list_add_all_nil]
      simpa [flat_list_nil] using hre
  | c :: cs, q, A, g, par, cur, hre, hpar, hqA, hq0, hqS, hnd, h0S => by
    simp only [flat_list_cons, List.map_append, List.mem_append, not_or,
      List.nodup_append] at hqS hnd h0S
    obtain ⟨g1, cur1, a1, a2, a3, a4⟩ := feed_tree c q A g par cur hre hpar hqA hq0 hqS.1
      hnd.1 h0S.1
    obtain ⟨g2, cur2, b1, b2, b3, b4⟩ := feed_list cs q (c.flat.map ItemData.pid_virt) g1
      (par.list_add (c.mirror_with fresh_copy)) cur1 a4
      (by simpa [Cursor.list_add, pstree_item.d] using hpar) hqS.1 hq0 hqS.2 hnd.2.1 h0S.2
    refine ⟨g2, cur2, ?_, fun _ => b2 a2, ?_, ?_⟩
    · rw [entries_under_list_cons, prepare_pstree_loop_append, a1]
      exact b1
    · intro _
      rw [mirror_list_with_cons, ← list_add_all_snoc]
      exact b3 a3
    · rw [mirror_list_with_cons, ← list_add_all_snoc]
      refine reaches_mono _ _ _ ?_ _ _ b4
      intro x hx
      simp only [flat_list_cons, List.map_append, List.mem_append] at hx ⊢
      tauto
end

theorem rebuild_from_entries (current_sid current_gid : Int) (g : Globals) (t : pstree_item)
    (hg : g.root_item = none) (hnd : (t.flat.map ItemData.pid_virt).Nodup)
    (h0 : (0 : Int) ∉ t.flat.map ItemData.pid_virt) :
    ∃ g', prepare_pstree false current_sid current_gid g t.entries = .ok g' ∧
      g'.root_item = some (t.mirror_with fresh_copy) := by
  rcases t with ⟨d, cs⟩
  simp only [flat_mk, List.map_cons, List.mem_cons, not_or, List.nodup_cons] at hnd h0
  rcases step_of_none g ⟨d.pid_virt, 0, d.pgid, d.sid, d.threads⟩ hg with
    ⟨-, g1, e1, e2⟩ | ⟨hne, -⟩
  swap
  · exact absurd rfl hne
  have hfc : item_of_entry ⟨d.pid_virt, 0, d.pgid, d.sid, d.threads⟩ = fresh_copy d := rfl
  rw [hfc] at e1 e2
  obtain ⟨g', cur', h1, h2, h3, -⟩ := feed_list cs d.pid_virt [] g1
    (Cursor.of_root (.mk (fresh_copy d) [])) (Cursor.of_root (.mk (fresh_copy d) []))
    (reaches_self _ _) (by simp [Cursor.of_root, fresh_copy, item_of_entry, pstree_item.d])
    (by simp) (fun h => h0.1 h.symm) hnd.1 hnd.2 h0.2
  have hroot : ((Cursor.of_root (.mk (fresh_copy d) [])).list_add_all
      (mirror_list_with fresh_copy cs)).root = (pstree_item.mk d cs).mirror_with fresh_copy := by
    simp [Cursor.of_root, Cursor.list_add_all, Cursor.root, plug_all, mirror_with_mk,
      pstree_item.d, pstree_item.children]
  refine ⟨g', ?_, ?_⟩
  · rw [prepare_pstree_no_shell_job]
    refine ⟨some cur', ?_⟩
    rw [entries_eq_under, entries_under_mk]
    simp only [prepare_pstree_loop, e1]
    exact h1
  · rw [h2 (by rw [e2]; simp [Cursor.of_root, Cursor.root, plug_all]), ← h3 rfl, hroot]

theorem entries_under_list_append (p : Int) (a b : List pstree_item) :
    entries_under_list p (a ++ b) = entries_under_list p a ++ entries_under_list p b := by
  induction a with
  | nil => simp [entries_under_list_nil]
  | cons c cs ih => simp [entries_under_list_cons, ih]

mutual
theorem entries_under_mirror (p : Int) :
    ∀ t : pstree_item, (entries_under p (t.mirror_with fresh_copy)).Perm (entries_under p t)
  | .mk d cs => by
    rw [mirror_with_mk, entries_under_mk, entries_under_mk]
    have : (fresh_copy d).pid_virt = d.pid_virt ∧ (fresh_copy d).pgid = d.pgid ∧
        (fresh_copy d).sid = d.sid ∧ (fresh_copy d).threads = d.threads := by
      simp [fresh_copy, item_of_entry]
    rw [this.1, this.2.1, this.2.2.1, this.2.2.2]
    exact List.Perm.cons _ (entries_under_list_mirror d.pid_virt cs)
theorem entries_under_list_mirror (p : Int) :
    ∀ cs : List pstree_item,
      (entries_under_list p (mirror_list_with fresh_copy cs)).Perm (entries_under_list p cs)
  | [] => by simp [mirror_list_with_nil]
  | c :: cs => by
    rw [mirror_list_with_cons, entries_under_list_append, entries_under_list_cons,
      entries_under_list_cons, entries_under_list_nil, List.append_nil]
    exact List.perm_append_comm.trans
      ((entries_under_mirror p c).append (entries_under_list_mirror p cs))
end

mutual
theorem flat_mirror_with (f : ItemData → ItemData) :
    ∀ t : pstree_item, (t.mirror_with f).flat = t.mirror.flat.map f
  | .mk d cs => by
    simp only [pstree_item.mirror, mirror_with_mk, flat_mk, List.map_cons, id]
    rw [flat_list_mirror_with f cs]
theorem flat_list_mirror_with (f : ItemData → ItemData) :
    ∀ cs : List pstree_item,
      flat_list (mirror_list_with f cs) = (flat_list (mirror_list_with id cs)).map f
  | [] => by simp [mirror_list_with_nil, flat_list_nil]
  | c :: cs => by
    simp only [mirror_list_with_cons, flat_list_append, flat_list_cons, flat_list_nil,
      List.append_nil, List.map_append]
    rw [flat_list_mirror_with f cs, flat_mirror_with f c]
    rfl
end

/-- C3 (amended). For every tree accepted by `dump_pstree` whose `pid.virt` values are
pairwise distinct and non-zero, `prepare_pstree` with `shell_job` off, run on the records
`dump_pstree` wrote, succeeds and yields a tree whose pre-order traversal lists the `pid.virt`
values in the order of the pre-order traversal of the original tree with every children list
reversed. -/
theorem roundtrip_order (shell_job : Bool) (current_sid current_gid : Int) (g : Globals)
    (t : pstree_item) (recs : List PstreeEntry) (hg : g.root_item = none)
    (hd : dump_pstree shell_job t = .ok recs)
    (hnd : (t.flat.map ItemData.pid_virt).Nodup)
    (h0 : ∀ d ∈ t.flat, d.pid_virt ≠ 0) :
    ∃ g' root', prepare_pstree false current_sid current_gid g recs = .ok g' ∧
      g'.root_item = some root' ∧
      root'.flat.map ItemData.pid_virt = t.mirror.flat.map ItemData.pid_virt := by
  rw [dump_pstree_accepts shell_job t recs hd]
  obtain ⟨g', h1, h2⟩ := rebuild_from_entries current_sid current_gid g t hg hnd
    (by intro h; obtain ⟨d, hd, hz⟩ := List.mem_map.mp h; exact h0 d hd hz)
  refine ⟨g', _, h1, h2, ?_⟩
  rw [flat_mirror_with, List.map_map]
  rfl

/-- C4. For every tree accepted by `dump_pstree` whose `pid.virt` values are pairwise distinct
and non-zero, `prepare_pstree` with `shell_job` off, run on the records `dump_pstree` wrote,
succeeds, and the records of the rebuilt tree (for each item its `pid.virt`, its parent's
`pid.virt` or 0 for the root, `pgid`, `sid` and the thread ids in order) are exactly the
records of the original tree, up to their order. -/
theorem roundtrip_data (shell_job : Bool) (current_sid current_gid : Int) (g : Globals)
    (t : pstree_item) (recs : List PstreeEntry) (hg : g.root_item = none)
    (hd : dump_pstree shell_job t = .ok recs)
    (hnd : (t.flat.map ItemData.pid_virt).Nodup)
    (h0 : ∀ d ∈ t.flat, d.pid_virt ≠ 0) :
    ∃ g' root', prepare_pstree false current_sid current_gid g recs = .ok g' ∧
      g'.root_item = some root' ∧ root'.entries.Perm t.entries ∧
      root'.flat.length = t.flat.length := by
  rw [dump_pstree_accepts shell_job t recs hd]
  obtain ⟨g', h1, h2⟩ := rebuild_from_entries current_sid current_gid g t hg hnd
    (by intro h; obtain ⟨d, hd, hz⟩ := List.mem_map.mp h; exact h0 d hd hz)
  have hp : (t.mirror_with fresh_copy).entries.Perm t.entries := by
    rw [entries_eq_under, entries_eq_under]
    exact entries_under_mirror 0 t
  refine ⟨g', _, h1, h2, hp, ?_⟩
  have := hp.length_eq
  simpa [pstree_item.entries, ← walk_map_snd [] ] using this

/-- C3, counterexample. The tree with root 1 (a session leader) and children 2, 3 is accepted
by `dump_pstree`; rebuilding from the written records yields the pre-order 1, 3, 2 while the
original pre-order is 1, 2, 3. -/
theorem roundtrip_order_counterexample :
    ∃ recs g' root',
      dump_pstree false (sample_node 1 1 1 [sample_node 2 1 1 [], sample_node 3 1 1 []]) = .ok recs ∧
      prepare_pstree false 0 0 Globals.init recs = .ok g' ∧ g'.root_item = some root' ∧
      root'.flat.map ItemData.pid_virt = [1, 3, 2] ∧
      (sample_node 1 1 1 [sample_node 2 1 1 [], sample_node 3 1 1 []]).flat.map ItemData.pid_virt
        = [1, 2, 3] :=
  ⟨_, _, _, rfl, rfl, rfl, by decide, by decide⟩

/-- C3, instance of the amended round trip on the tree 1 -> (2 -> 4), 3. -/
theorem roundtrip_order_witness :
    Globals.init.root_item = none ∧
    (∃ g' root', prepare_pstree false 0 0 Globals.init
        (sample_node 1 1 1 [sample_node 2 1 1 [sample_node 4 1 1 []], sample_node 3 1 1 []]).entries
          = .ok g' ∧ g'.root_item = some root' ∧
      root'.flat.map ItemData.pid_virt = [1, 3, 2, 4]) := by
  refine ⟨rfl, ?_⟩
  obtain ⟨g', root', h1, h2, h3⟩ := roundtrip_order false 0 0 Globals.init
    (sample_node 1 1 1 [sample_node 2 1 1 [sample_node 4 1 1 []], sample_node 3 1 1 []])
    _ rfl rfl (by decide) (by decide)
  exact ⟨g', root', h1, h2, h3.trans (by decide)⟩

/-- C4, instance of the round trip on the tree 1 -> (2 -> 4), 3. -/
theorem roundtrip_data_witness :
    Globals.init.root_item = none ∧
    (∃ g' root', prepare_pstree false 0 0 Globals.init
        (sample_node 1 1 1 [sample_node 2 1 1 [sample_node 4 1 1 []], sample_node 3 1 1 []]).entries
          = .ok g' ∧ g'.root_item = some root' ∧
      root'.entries.Perm
        (sample_node 1 1 1 [sample_node 2 1 1 [sample_node 4 1 1 []], sample_node 3 1 1 []]).entries) := by
  refine ⟨rfl, ?_⟩
  obtain ⟨g', root', h1, h2, h3, -⟩ := roundtrip_data false 0 0 Globals.init
    (sample_node 1 1 1 [sample_node 2 1 1 [sample_node 4 1 1 []], sample_node 3 1 1 []])
    _ rfl rfl (by decide) (by decide)
  exact ⟨g', root', h1, h2, h3⟩

theorem root_search_spec (cond : ItemData → Bool) (t : pstree_item) :
    (∃ c, pstree_item_search cond t.size (Cursor.of_root t) = .ok (some c) ∧
        cond c.focus.d = true ∧ c.root = t) ∨
    (pstree_item_search cond t.size (Cursor.of_root t) = .ok none ∧
        ∀ d ∈ t.flat, cond d = false) := by
  rcases pstree_item_search_spec cond _ _ (of_root_after_length t) with
    ⟨c, pre, e1, e2, e3, -, -⟩ | ⟨e1, e2⟩
  · exact Or.inl ⟨c, e1, e2, e3⟩
  · right
    refine ⟨e1, ?_⟩
    intro d hd
    apply e2
    rw [flat_eq] at hd
    simpa [Cursor.after, Cursor.of_root, ctx_after] using hd

theorem focus_mem_root (c : Cursor) : c.focus.d ∈ c.root.flat := by
  rw [flat_root]; simp

theorem group_leader_body_cases (current_pgid : Int) (nr : Nat) (z : Cursor) :
    (group_leader_body current_pgid nr z = .ok (nr, z) ∧
      (z.focus.d.pgid = 0 ∨ z.focus.d.pid_virt = z.focus.d.pgid ∨
        (∃ d ∈ z.root.flat, d.pid_virt = z.focus.d.pgid) ∨ current_pgid = z.focus.d.pgid)) ∨
    (group_leader_body current_pgid nr z =
        .ok (nr + 1, z.list_add (.mk (group_helper z.focus.d) [])) ∧
      z.focus.d.pgid ≠ 0 ∧ z.focus.d.pid_virt ≠ z.focus.d.pgid ∧
      (∀ d ∈ z.root.flat, d.pid_virt ≠ z.focus.d.pgid) ∧ current_pgid ≠ z.focus.d.pgid) := by
  unfold group_leader_body
  by_cases h1 : z.focus.d.pgid = 0 ∨ z.focus.d.pid_virt = z.focus.d.pgid
  · left
    rw [if_pos h1]
    refine ⟨rfl, ?_⟩
    tauto
  · rw [if_neg h1]
    push_neg at h1
    rcases root_search_spec (fun d => decide (d.pid_virt = z.focus.d.pgid)) z.root with
      ⟨c, e1, e2, e3⟩ | ⟨e1, e2⟩
    · left
      rw [e1]
      refine ⟨rfl, Or.inr (Or.inr (Or.inl ⟨c.focus.d, ?_, by simpa using e2⟩))⟩
      rw [← e3]
      exact focus_mem_root c
    · rw [e1]
      simp only
      by_cases h2 : current_pgid = z.focus.d.pgid
      · left
        rw [if_pos h2]
        exact ⟨rfl, Or.inr (Or.inr (Or.inr h2))⟩
      · right
        rw [if_neg h2]
        refine ⟨rfl, h1.1, h1.2, ?_, h2⟩
        intro d hd
        simpa using e2 d hd

theorem list_add_before (z : Cursor) (x : pstree_item) : (z.list_add x).before = z.before := rfl

theorem list_add_focus_d (z : Cursor) (x : pstree_item) : (z.list_add x).focus.d = z.focus.d := rfl

theorem group_leader_body_step (current_pgid : Int) (nr : Nat) (z : Cursor) :
    ∃ nr1 z1, group_leader_body current_pgid nr z = .ok (nr1, z1) ∧ z1.before = z.before ∧
      z1.focus.d = z.focus.d ∧ (∀ d ∈ z.root.flat, d ∈ z1.root.flat) ∧
      (z.focus.d.pgid = 0 ∨ z.focus.d.pid_virt = z.focus.d.pgid ∨
        (∃ d ∈ z1.root.flat, d.pid_virt = z.focus.d.pgid) ∨ current_pgid = z.focus.d.pgid) := by
  rcases group_leader_body_cases current_pgid nr z with ⟨e, h⟩ | ⟨e, -⟩
  · exact ⟨nr, z, e, rfl, rfl, fun d hd => hd, h⟩
  · refine ⟨_, _, e, rfl, rfl, ?_, ?_⟩
    · intro d hd
      rw [list_add_leaf_mem]
      exact Or.inl hd
    · refine Or.inr (Or.inr (Or.inl ⟨group_helper z.focus.d, ?_, rfl⟩))
      rw [list_add_leaf_mem]
      exact Or.inr rfl

/-- After the last loop of `prepare_pstree_ids`, started at the root of any tree, every item
with a non-zero `pgid` different from its `pid.virt` has an item with that `pid.virt` in the
tree, or its `pgid` is `current_pgid`. -/
theorem group_leader_loop_post (current_pgid : Int) (fuel : Nat) (nr nr' : Nat)
    (t t' : pstree_item)
    (h : for_each_pstree_item (group_leader_body current_pgid) fuel nr (Cursor.of_root t) =
      .ok (nr', t')) :
    ∀ d ∈ t'.flat, d.pgid = 0 ∨ d.pid_virt = d.pgid ∨
      (∃ d' ∈ t'.flat, d'.pid_virt = d.pgid) ∨ current_pgid = d.pgid := by
  refine for_each_inv (group_leader_body current_pgid)
    (fun _ z => ∀ d ∈ z.before, d.pgid = 0 ∨ d.pid_virt = d.pgid ∨
      (∃ d' ∈ z.root.flat, d'.pid_virt = d.pgid) ∨ current_pgid = d.pgid)
    (fun _ t' => ∀ d ∈ t'.flat, d.pgid = 0 ∨ d.pid_virt = d.pgid ∨
      (∃ d' ∈ t'.flat, d'.pid_virt = d.pgid) ∨ current_pgid = d.pgid)
    ?_ ?_ fuel nr (Cursor.of_root t) nr' t' ?_ h
  · intro s z s1 z1 z2 hI hb hn
    obtain ⟨nr1, z1', e, b1, b2, b3, b4⟩ := group_leader_body_step current_pgid s z
    rw [e] at hb
    simp only [Except.ok.injEq, Prod.mk.injEq] at hb
    obtain ⟨rfl, rfl⟩ := hb
    obtain ⟨n1, n2, -⟩ := pstree_item_next_some _ _ hn
    intro d hd
    rw [n2, b1, List.mem_append, List.mem_singleton] at hd
    rw [n1]
    rcases hd with hd | rfl
    · rcases hI d hd with h | h | ⟨d', h1, h2⟩ | h
      · exact Or.inl h
      · exact Or.inr (Or.inl h)
      · exact Or.inr (Or.inr (Or.inl ⟨d', b3 d' h1, h2⟩))
      · exact Or.inr (Or.inr (Or.inr h))
    · rw [b2]; exact b4
  · intro s z s1 z1 hI hb hn
    obtain ⟨nr1, z1', e, b1, b2, b3, b4⟩ := group_leader_body_step current_pgid s z
    rw [e] at hb
    simp only [Except.ok.injEq, Prod.mk.injEq] at hb
    obtain ⟨rfl, rfl⟩ := hb
    have ha := pstree_item_next_none _ hn
    intro d hd
    rw [flat_root, ha, b1] at hd
    simp only [List.mem_append, List.mem_singleton] at hd
    rcases hd with hd | rfl
    · rcases hI d hd with h | h | ⟨d', h1, h2⟩ | h
      · exact Or.inl h
      · exact Or.inr (Or.inl h)
      · exact Or.inr (Or.inr (Or.inl ⟨d', b3 d' h1, h2⟩))
      · exact Or.inr (Or.inr (Or.inr h))
    · rw [b2]; exact b4
  · intro d hd
    simp [Cursor.before, Cursor.of_root, ctx_before] at hd

theorem prepare_pstree_ids_ok (current_pgid : Int) (g g' : Globals)
    (h : prepare_pstree_ids current_pgid g = .ok g') :
    ∃ (root : pstree_item) (children1 helpers : List pstree_item) (nr1 : Nat)
      (helpers2 : List pstree_item) (max_pid2 : Int) (root2 : pstree_item) (nr4 : Nat)
      (root4 : pstree_item),
      g.root_item = some root ∧
      isolate_orphans root.d.sid (root.children.length + 1) [] root.children []
        g.task_entries.nr_helpers = .ok (children1, helpers, nr1) ∧
      for_each_pstree_item connect_body
        ((pstree_item.mk root.d children1).size + (flat_list helpers).length)
        (helpers, g.max_pid) (Cursor.of_root (.mk root.d children1)) =
          .ok ((helpers2, max_pid2), root2) ∧
      for_each_pstree_item (group_leader_body current_pgid)
        (2 * (pstree_item.mk root2.d (helpers2 ++ root2.children)).size) nr1
        (Cursor.of_root (.mk root2.d (helpers2 ++ root2.children))) = .ok (nr4, root4) ∧
      g' = { root_item := some root4, max_pid := max_pid2,
             task_entries := { g.task_entries with nr_helpers := nr4 } } := by
  unfold prepare_pstree_ids at h
  cases hr : g.root_item with
  | none => simp [hr] at h
  | some root =>
    simp only [hr] at h
    cases ha : isolate_orphans root.d.sid (root.children.length + 1) [] root.children []
        g.task_entries.nr_helpers with
    | error e => simp [ha] at h
    | ok ra =>
      obtain ⟨children1, helpers, nr1⟩ := ra
      simp only [ha] at h
      cases hb : for_each_pstree_item connect_body
          ((pstree_item.mk root.d children1).size + (flat_list helpers).length)
          (helpers, g.max_pid) (Cursor.of_root (.mk root.d children1)) with
      | error e => simp [hb] at h
      | ok rb =>
        obtain ⟨⟨helpers2, max_pid2⟩, root2⟩ := rb
        simp only [hb] at h
        cases hd : for_each_pstree_item (group_leader_body current_pgid)
            (2 * (pstree_item.mk root2.d (helpers2 ++ root2.children)).size) nr1
            (Cursor.of_root (.mk root2.d (helpers2 ++ root2.children))) with
        | error e => simp [hd] at h
        | ok rd =>
          obtain ⟨nr4, root4⟩ := rd
          simp only [hd, Except.ok.injEq] at h
          exact ⟨root, children1, helpers, nr1, helpers2, max_pid2, root2, nr4, root4, rfl, ha,
            hb, hd, h.symm⟩

/-- C2. Whenever `prepare_pstree_ids` returns success, every item of the resulting tree
(helpers of every pass included) whose `pgid` is non-zero and differs from its own `pid.virt`
has an item of the resulting tree with `pid.virt` equal to that `pgid`, or its `pgid` equals
`current_pgid`. -/
theorem group_leader_exists (current_pgid : Int) (g g' : Globals) (root' : pstree_item)
    (h : prepare_pstree_ids current_pgid g = .ok g') (hr : g'.root_item = some root') :
    ∀ d ∈ root'.flat, d.pgid ≠ 0 → d.pgid ≠ d.pid_virt →
      (∃ d' ∈ root'.flat, d'.pid_virt = d.pgid) ∨ d.pgid = current_pgid := by
  obtain ⟨root, children1, helpers, nr1, helpers2, max_pid2, root2, nr4, root4, -, -, -, hd,
    rfl⟩ := prepare_pstree_ids_ok current_pgid g g' h
  simp only [Option.some.injEq] at hr
  subst hr
  intro d hmem h0 hne
  rcases group_leader_loop_post current_pgid _ _ _ _ _ hd d hmem with h1 | h1 | h1 | h1
  · exact absurd h1 h0
  · exact absurd h1.symm hne
  · exact Or.inl h1
  · exact Or.inr h1.symm

/-- C2, instance: root 1 with a child 2 in process group 7 and a child 3 in the inherited
group 9; the last pass adds a helper 7 under 2 while walking and leaves 3 alone. -/
theorem group_leader_exists_witness :
    ∃ g' root', prepare_pstree_ids 9
        (sample_globals (sample_node 1 1 1 [sample_node 2 1 7 [], sample_node 3 1 9 []]) 9)
          = .ok g' ∧
      g'.root_item = some root' ∧ root'.flat.map ItemData.pid_virt = [1, 2, 7, 3] ∧
      ∀ d ∈ root'.flat, d.pgid ≠ 0 → d.pgid ≠ d.pid_virt →
        (∃ d' ∈ root'.flat, d'.pid_virt = d.pgid) ∨ d.pgid = 9 := by
  refine ⟨_, _, rfl, rfl, ?_, ?_⟩
  · decide
  · exact group_leader_exists 9
      (sample_globals (sample_node 1 1 1 [sample_node 2 1 7 [], sample_node 3 1 9 []]) 9) _ _ rfl rfl

theorem stack_on_helper_eq (s : Int) : ∀ (l hc kept : List pstree_item),
    stack_on_helper s l hc kept =
      ((l.filter (moves_to s)).reverse ++ hc, kept ++ l.filter (fun c => !moves_to s c))
  | [], hc, kept => by simp [stack_on_helper]
  | c :: l, hc, kept => by
    unfold stack_on_helper
    by_cases h1 : c.d.sid = s
    · by_cases h2 : c.d.sid = c.d.pid_virt
      · have hm : moves_to s c = false := by simp [moves_to, h2]
        simp [h1, stack_on_helper_eq s l, hm, List.filter_cons]
        exact h1.symm.trans h2
      · have hm : moves_to s c = true := by
          simp only [moves_to, decide_eq_true_eq]; exact ⟨h1, h2⟩
        have h3 : ¬ s = c.d.pid_virt := fun h => h2 (h1.trans h)
        simp [h1, h3, stack_on_helper_eq s l, hm, List.filter_cons]
    · have hm : moves_to s c = false := by simp [moves_to, h1]
      simp [h1, stack_on_helper_eq s l, hm, List.filter_cons]

theorem session_helper_sid (d : ItemData) : (session_helper d).sid = d.sid := rfl

theorem moves_to_of_not_stays (root_sid : Int) (c : pstree_item) (h : stays root_sid c = false) :
    moves_to c.d.sid c = true := by
  simp only [stays, decide_eq_false_iff_not, not_or] at h
  simp only [moves_to, decide_eq_true_eq, true_and]
  exact h.2

theorem not_moves_to_of_stays (root_sid s : Int) (c : pstree_item) (h : stays root_sid c = true)
    (hs : s ≠ root_sid) : moves_to s c = false := by
  simp only [stays, decide_eq_true_eq] at h
  simp only [moves_to, decide_eq_false_iff_not, not_and, not_not]
  intro h1
  rcases h with h | h
  · exact absurd (h1.symm.trans h) hs
  · exact h

theorem sid_ne_root_of_not_stays (root_sid : Int) (c : pstree_item)
    (h : stays root_sid c = false) : c.d.sid ≠ root_sid := by
  simp only [stays, decide_eq_false_iff_not, not_or] at h
  exact h.1

theorem isolate_orphans_post (root_sid : Int) : ∀ (fuel : Nat)
    (passed rest helpers : List pstree_item) (nr : Nat), rest.length < fuel →
    ∃ new : List pstree_item,
      isolate_orphans root_sid fuel passed rest helpers nr =
        .ok (passed ++ rest.filter (stays root_sid), helpers ++ new, nr + new.length) ∧
      (∀ h ∈ new, ∃ c ∈ rest, stays root_sid c = false ∧
        h = .mk (session_helper c.d) ((rest.filter (moves_to c.d.sid)).reverse)) ∧
      (∀ c ∈ rest, stays root_sid c = false → ∃ h ∈ new, h.d.sid = c.d.sid) ∧
      (new.map (fun h => h.d.sid)).Nodup := by
  intro fuel
  induction fuel with
  | zero => intro passed rest helpers nr h; omega
  | succ n ih =>
    intro passed rest helpers nr hlen
    cases rest with
    | nil => exact ⟨[], by simp [isolate_orphans], by simp, by simp, by simp⟩
    | cons item rest =>
      simp only [List.length_cons] at hlen
      by_cases hst : stays root_sid item = true
      · obtain ⟨new, e1, e2, e3, e4⟩ := ih (passed ++ [item]) rest helpers nr (by omega)
        have hcond : item.d.sid = root_sid ∨ item.d.sid = item.d.pid_virt := by
          simpa [stays] using hst
        refine ⟨new, ?_, ?_, ?_, e4⟩
        · simp only [isolate_orphans, if_pos hcond, e1, List.filter_cons, hst, if_true]
          simp
        · intro h hh
          obtain ⟨c, hc, hcs, rfl⟩ := e2 h hh
          refine ⟨c, List.mem_cons_of_mem _ hc, hcs, ?_⟩
          have : moves_to c.d.sid item = false :=
            not_moves_to_of_stays root_sid _ item hst (sid_ne_root_of_not_stays _ _ hcs)
          simp [List.filter_cons, this]
        · intro c hc hcs
          rcases List.mem_cons.mp hc with rfl | hc
          · rw [hst] at hcs; exact absurd hcs (by simp)
          · exact e3 c hc hcs
      · have hst' : stays root_sid item = false := by simpa using hst
        have hcond : ¬ (item.d.sid = root_sid ∨ item.d.sid = item.d.pid_virt) := by
          simpa [stays] using hst'
        have hmv : moves_to item.d.sid item = true := moves_to_of_not_stays _ _ hst'
        have hrem : (List.filter (fun c => !moves_to item.d.sid c) rest).length < n :=
          lt_of_le_of_lt (List.length_filter_le _ _) (by omega)
        obtain ⟨new, e1, e2, e3, e4⟩ := ih passed
          (List.filter (fun c => !moves_to item.d.sid c) rest)
          (helpers ++ [.mk (session_helper item.d)
            ((List.filter (moves_to item.d.sid) (item :: rest)).reverse)]) (nr + 1) hrem
        have hkeep : ∀ c ∈ rest, stays root_sid c = true →
            (!moves_to item.d.sid c) = true := by
          intro c _ hc
          rw [not_moves_to_of_stays root_sid _ c hc (sid_ne_root_of_not_stays _ _ hst')]
          rfl
        have hne : ∀ c, c ∈ List.filter (fun c => !moves_to item.d.sid c) rest →
            stays root_sid c = false → c.d.sid ≠ item.d.sid := by
          intro c hc hcs heq
          have h1 := (List.mem_filter.mp hc).2
          have h2 := moves_to_of_not_stays _ _ hcs
          rw [heq] at h2
          simp [h2] at h1
        refine ⟨.mk (session_helper item.d)
          ((List.filter (moves_to item.d.sid) (item :: rest)).reverse) :: new, ?_, ?_, ?_, ?_⟩
        · have hf1 : List.filter (stays root_sid)
              (List.filter (fun c => !moves_to item.d.sid c) rest) =
              List.filter (stays root_sid) rest := by
            rw [List.filter_filter]
            apply List.filter_congr
            intro c hc
            by_cases hcs : stays root_sid c = true
            · simp [hcs, hkeep c hc hcs]
            · simp [hcs]
          have hf2 : List.filter (fun c => !moves_to item.d.sid c) (item :: rest) =
              List.filter (fun c => !moves_to item.d.sid c) rest := by
            simp [List.filter_cons, hmv]
          have hf3 : List.filter (stays root_sid) (item :: rest) =
              List.filter (stays root_sid) rest := by
            simp [List.filter_cons, hst']
          simp only [isolate_orphans, if_neg hcond, stack_on_helper_eq, session_helper_sid,
            List.append_nil, List.nil_append]
          rw [hf2, e1, hf1, hf3]
          simp only [List.length_cons, List.append_assoc, List.singleton_append]
          congr 3
          omega
        · intro h hh
          rcases List.mem_cons.mp hh with rfl | hh
          · exact ⟨item, List.mem_cons_self _ _, hst', rfl⟩
          · obtain ⟨c, hc, hcs, rfl⟩ := e2 h hh
            refine ⟨c, List.mem_cons_of_mem _ (List.mem_filter.mp hc).1, hcs, ?_⟩
            have hcne := hne c hc hcs
            have h1 : moves_to c.d.sid item = false := by
              simp only [moves_to, decide_eq_false_iff_not, not_and, not_not]
              intro h; exact absurd h.symm hcne
            simp only [List.filter_cons, h1, Bool.false_eq_true, if_false, List.filter_filter]
            congr 2
            symm
            apply List.filter_congr
            intro x _
            by_cases hx : moves_to c.d.sid x = true
            · have : moves_to item.d.sid x = false := by
                simp only [moves_to, decide_eq_true_eq] at hx
                simp only [moves_to, decide_eq_false_iff_not, not_and, not_not]
                intro h; exact absurd (hx.1.symm.trans h) hcne
              simp [hx, this]
            · simp [hx]
        · intro c hc hcs
          by_cases heq : c.d.sid = item.d.sid
          · exact ⟨_, List.mem_cons_self _ _, heq.symm⟩
          · rcases List.mem_cons.mp hc with rfl | hc
            · exact absurd rfl heq
            · have hm : c ∈ List.filter (fun c => !moves_to item.d.sid c) rest := by
                refine List.mem_filter.mpr ⟨hc, ?_⟩
                simp only [moves_to, Bool.not_eq_true', decide_eq_false_iff_not, not_and, not_not]
                intro h; exact absurd h heq
              obtain ⟨h, hh, hs⟩ := e3 c hm hcs
              exact ⟨h, List.mem_cons_of_mem _ hh, hs⟩
        · simp only [List.map_cons, List.nodup_cons]
          refine ⟨?_, e4⟩
          intro hmem
          obtain ⟨h, hh, hs⟩ := List.mem_map.mp hmem
          obtain ⟨c, hc, hcs, rfl⟩ := e2 h hh
          exact hne c hc hcs (by simpa [pstree_item.d, session_helper] using hs)

theorem born_sid_walk_ok (sid : Int) : ∀ (ctx ctx1 : List Frame),
    born_sid_walk sid ctx = .ok ctx1 → List.Forall₂ (frame_upd sid) ctx ctx1
  | [], ctx1, h => by simp [born_sid_walk] at h
  | f :: fs, ctx1, h => by
    simp only [born_sid_walk] at h
    split_ifs at h with h1 h2
    · simp only [Except.ok.injEq] at h
      subst h
      exact List.forall₂_same.mpr (fun x _ => ⟨rfl, rfl, Or.inl rfl⟩)
    · cases hw : born_sid_walk sid fs with
      | error e => simp [hw] at h
      | ok fs1 =>
        simp only [hw, Except.ok.injEq] at h
        subst h
        refine List.Forall₂.cons ⟨rfl, rfl, ?_⟩ (born_sid_walk_ok sid fs fs1 hw)
        simp only [not_and_or, not_not] at h2
        rcases h2 with h2 | h2
        · exact Or.inr ⟨h2, rfl⟩
        · left
          simp only
          rw [← h2]

theorem born_sid_walk_error (sid : Int) : ∀ (ctx : List Frame) (e : Err),
    born_sid_walk sid ctx = .error e →
      e = Err.SessionLeaderNotFound ∨ e = Err.ConflictingBornSession
  | [], e, h => by
    simp only [born_sid_walk] at h
    injection h with h
    exact Or.inl h.symm
  | f :: fs, e, h => by
    simp only [born_sid_walk] at h
    split_ifs at h with h1 h2
    · injection h with h
      exact Or.inr h.symm
    · cases hw : born_sid_walk sid fs with
      | error e1 =>
        simp only [hw] at h
        injection h with h
        subst h
        exact born_sid_walk_error sid fs _ hw
      | ok fs1 => simp [hw] at h

theorem born_sid_walk_no_leader (sid : Int) : ∀ (ctx : List Frame),
    (∀ f ∈ ctx, f.d.pid_virt ≠ sid) → ∃ e, born_sid_walk sid ctx = .error e
  | [], _ => ⟨_, rfl⟩
  | f :: fs, h => by
    simp only [born_sid_walk]
    rw [if_neg (h f (List.mem_cons_self _ _))]
    split_ifs with h2
    · exact ⟨_, rfl⟩
    · obtain ⟨e, he⟩ := born_sid_walk_no_leader sid fs
        (fun f' hf' => h f' (List.mem_cons_of_mem _ hf'))
      exact ⟨e, by rw [he]⟩

theorem born_sid_walk_conflict (sid : Int) : ∀ (pre : List Frame) (f : Frame)
    (post : List Frame), (∀ a ∈ pre, a.d.pid_virt ≠ sid) → f.d.pid_virt ≠ sid →
    f.d.born_sid ≠ -1 → f.d.born_sid ≠ sid →
    born_sid_walk sid (pre ++ f :: post) = .error Err.ConflictingBornSession
  | [], f, post, _, h1, h2, h3 => by
    simp only [List.nil_append, born_sid_walk]
    rw [if_neg h1, if_pos ⟨h2, h3⟩]
  | a :: pre, f, post, h0, h1, h2, h3 => by
    simp only [List.cons_append, born_sid_walk]
    rw [if_neg (h0 a (List.mem_cons_self _ _))]
    split_ifs with h4
    · rfl
    · have := born_sid_walk_conflict sid pre f post
        (fun a' ha' => h0 a' (List.mem_cons_of_mem _ ha')) h1 h2 h3
      show (match born_sid_walk sid (pre ++ f :: post) with
        | Except.error e => Except.error e
        | Except.ok fs1 => _) = _
      rw [this]

theorem connect_body_cases (s : List pstree_item × Int) (item : Cursor) :
    (connect_body s item = .ok (s, item) ∧
      (item.ctx = [] ∨ item.focus.d.state = Kind.HELPER ∨
        (item.focus.d.sid ≠ item.focus.d.pid_virt ∧
          ∃ parent rest, item.ctx = parent :: rest ∧ parent.d.sid = item.focus.d.sid) ∨
        (item.focus.d.sid = item.focus.d.pid_virt ∧ take_helper item.focus.d.sid s.1 = none))) ∨
    (∃ parent rest, item.ctx = parent :: rest ∧ item.focus.d.state ≠ Kind.HELPER ∧
      item.focus.d.sid ≠ item.focus.d.pid_virt ∧ parent.d.sid ≠ item.focus.d.sid ∧
      ((∃ ctx1, born_sid_walk item.focus.d.sid item.ctx = .ok ctx1 ∧
          connect_body s item = .ok (s, { item with ctx := ctx1 })) ∨
       (∃ e, born_sid_walk item.focus.d.sid item.ctx = .error e ∧
          connect_body s item = .error e))) ∨
    (∃ child helpers1, item.ctx ≠ [] ∧ item.focus.d.state ≠ Kind.HELPER ∧
      item.focus.d.sid = item.focus.d.pid_virt ∧
      take_helper item.focus.d.sid s.1 = some (child, helpers1) ∧
      connect_body s item = .ok ((helpers1, wrap32 (s.2 + 1)),
        item.list_add (renumber_helper child item.focus.d.pgid (wrap32 (s.2 + 1))))) := by
  unfold connect_body
  cases hctx : item.ctx with
  | nil => left; exact ⟨rfl, Or.inl rfl⟩
  | cons parent rest =>
    simp only
    by_cases hh : item.focus.d.state = Kind.HELPER
    · left
      rw [if_pos hh]
      exact ⟨rfl, Or.inr (Or.inl hh)⟩
    · rw [if_neg hh]
      by_cases hl : item.focus.d.sid ≠ item.focus.d.pid_virt
      · rw [if_pos hl]
        by_cases hp : parent.d.sid = item.focus.d.sid
        · left
          rw [if_pos hp]
          exact ⟨rfl, Or.inr (Or.inr (Or.inl ⟨hl, parent, rest, rfl, hp⟩))⟩
        · right; left
          rw [if_neg hp]
          refine ⟨parent, rest, rfl, hh, hl, hp, ?_⟩
          cases hw : born_sid_walk item.focus.d.sid (parent :: rest) with
          | error e => exact Or.inr ⟨e, rfl, rfl⟩
          | ok ctx1 => exact Or.inl ⟨ctx1, rfl, rfl⟩
      · rw [if_neg hl]
        simp only [not_not] at hl
        cases ht : take_helper item.focus.d.sid s.1 with
        | none =>
          left
          exact ⟨rfl, Or.inr (Or.inr (Or.inr ⟨hl, rfl⟩))⟩
        | some r =>
          obtain ⟨child, helpers1⟩ := r
          right; right
          exact ⟨child, helpers1, by simp, hh, hl, rfl, rfl⟩

theorem mem_walk_list_of_mem (anc : List ItemData) (c : pstree_item) :
    ∀ (cs : List pstree_item), c ∈ cs → ∀ x ∈ c.walk anc, x ∈ walk_list anc cs
  | [], h, _, _ => by simp at h
  | c' :: cs, h, x, hx => by
    rw [walk_list_cons, List.mem_append]
    rcases List.mem_cons.mp h with rfl | h
    · exact Or.inl hx
    · exact Or.inr (mem_walk_list_of_mem anc c cs h x hx)

theorem child_mem_walk (t : pstree_item) (c : pstree_item) (hc : c ∈ t.children) :
    ∀ x ∈ c.walk [t.d], x ∈ t.walk [] := by
  intro x hx
  rw [walk_eq]
  exact List.mem_cons_of_mem _ (mem_walk_list_of_mem _ c _ hc x hx)

theorem of_root_walk (t : pstree_item) :
    (Cursor.of_root t).here :: (Cursor.of_root t).walk_after = t.walk [] := by
  have := walk_root (Cursor.of_root t)
  simpa [Cursor.walk_before, Cursor.of_root, ctx_walk_before, Cursor.root, plug_all] using this.symm

theorem take_helper_some (sid : Int) : ∀ (l : List pstree_item) (child : pstree_item)
    (l1 : List pstree_item), take_helper sid l = some (child, l1) →
    ∃ pre post, l = pre ++ child :: post ∧ l1 = pre ++ post ∧
      child.d.state = Kind.HELPER ∧ child.d.sid = sid
  | [], child, l1, h => by simp [take_helper] at h
  | c :: rest, child, l1, h => by
    simp only [take_helper] at h
    split_ifs at h with h1 h2
    · obtain ⟨r, hr, he⟩ := Option.map_eq_some'.mp h
      obtain ⟨rc, rl⟩ := r
      simp only [Prod.mk.injEq] at he
      obtain ⟨rfl, rfl⟩ := he
      obtain ⟨pre, post, e1, e2, e3, e4⟩ := take_helper_some sid rest rc rl hr
      exact ⟨c :: pre, post, by simp [e1], by simp [e2], e3, e4⟩
    · obtain ⟨r, hr, he⟩ := Option.map_eq_some'.mp h
      obtain ⟨rc, rl⟩ := r
      simp only [Prod.mk.injEq] at he
      obtain ⟨rfl, rfl⟩ := he
      obtain ⟨pre, post, e1, e2, e3, e4⟩ := take_helper_some sid rest rc rl hr
      exact ⟨c :: pre, post, by simp [e1], by simp [e2], e3, e4⟩
    · simp only [Option.some.injEq, Prod.mk.injEq] at h
      obtain ⟨rfl, rfl⟩ := h
      simp only [not_not] at h1 h2
      exact ⟨[], rest, rfl, rfl, h1, h2⟩

theorem take_helper_none (sid : Int) : ∀ (l : List pstree_item), take_helper sid l = none →
    ∀ x ∈ l, ¬ (x.d.state = Kind.HELPER ∧ x.d.sid = sid)
  | [], _, x, hx => by simp at hx
  | c :: rest, h, x, hx => by
    simp only [take_helper] at h
    split_ifs at h with h1 h2
    · rcases List.mem_cons.mp hx with rfl | hx
      · exact fun hc => h1 hc.1
      · exact take_helper_none sid rest (by simpa using h) x hx
    · rcases List.mem_cons.mp hx with rfl | hx
      · exact fun hc => h2 hc.2
      · exact take_helper_none sid rest (by simpa using h) x hx

theorem ctx_after_frame_upd (sid : Int) (ctx ctx1 : List Frame)
    (h : List.Forall₂ (frame_upd sid) ctx ctx1) : ctx_after ctx1 = ctx_after ctx := by
  induction h with
  | nil => rfl
  | cons hf _ ih => simp [ctx_after, ih, hf.2.1]

theorem born_upd_refl (sid : Int) (l : List ItemData) : List.Forall₂ (born_upd sid) l l :=
  List.forall₂_same.mpr (fun _ _ => Or.inl rfl)

theorem ctx_before_frame_upd (sid : Int) (ctx ctx1 : List Frame)
    (h : List.Forall₂ (frame_upd sid) ctx ctx1) :
    List.Forall₂ (born_upd sid) (ctx_before ctx) (ctx_before ctx1) := by
  induction h with
  | nil => exact List.Forall₂.nil
  | cons hf _ ih =>
    simp only [ctx_before, hf.1]
    exact List.rel_append ih (List.Forall₂.cons hf.2.2 (born_upd_refl _ _))

theorem root_flat_frame_upd (sid : Int) (z : Cursor) (ctx1 : List Frame)
    (h : List.Forall₂ (frame_upd sid) z.ctx ctx1) :
    List.Forall₂ (born_upd sid) z.root.flat ({ z with ctx := ctx1 } : Cursor).root.flat := by
  rw [flat_root, flat_root]
  simp only [Cursor.before, Cursor.after, ctx_after_frame_upd sid _ _ h]
  exact List.rel_append (ctx_before_frame_upd sid _ _ h) (born_upd_refl _ _)

theorem born_upd_mem (sid : Int) (l l1 : List ItemData) (h : List.Forall₂ (born_upd sid) l l1)
    (d : ItemData) (hd : d ∈ l) (hb : d.born_sid ≠ -1) : d ∈ l1 := by
  induction h with
  | nil => simp at hd
  | cons hx _ ih =>
    rcases List.mem_cons.mp hd with rfl | hd
    · rcases hx with hx | ⟨hx, -⟩
      · rw [hx]; exact List.mem_cons_self _ _
      · exact absurd hx hb
    · exact List.mem_cons_of_mem _ (ih hd)

theorem born_upd_map {α : Type} (f : ItemData → α)
    (hf : ∀ d s, f { d with born_sid := s } = f d) (sid : Int) (l l1 : List ItemData)
    (h : List.Forall₂ (born_upd sid) l l1) : l1.map f = l.map f := by
  induction h with
  | nil => rfl
  | cons hx _ ih =>
    simp only [List.map_cons, ih]
    rcases hx with hx | ⟨-, hx⟩
    · rw [hx]
    · rw [hx, hf]

/-- Invariant rule for the second loop of `prepare_pstree_ids`: a property of the pending
helpers, `max_pid` and the whole tree that is kept by an upward walk and by the attachment of
a helper holds at the end of the loop. -/
theorem connect_loop_inv (I : List pstree_item × Int → pstree_item → Prop)
    (hwalk : ∀ s (z : Cursor) ctx1, I s z.root →
      List.Forall₂ (frame_upd z.focus.d.sid) z.ctx ctx1 →
      I s ({ z with ctx := ctx1 } : Cursor).root)
    (hattach : ∀ (s : List pstree_item × Int) (z : Cursor) child helpers1, I s z.root →
      z.ctx ≠ [] → z.focus.d.state ≠ Kind.HELPER → z.focus.d.sid = z.focus.d.pid_virt →
      take_helper z.focus.d.sid s.1 = some (child, helpers1) →
      I (helpers1, wrap32 (s.2 + 1))
        (z.list_add (renumber_helper child z.focus.d.pgid (wrap32 (s.2 + 1)))).root)
    (fuel : Nat) (s s' : List pstree_item × Int) (t t' : pstree_item) (h0 : I s t)
    (h : for_each_pstree_item connect_body fuel s (Cursor.of_root t) = .ok (s', t')) :
    I s' t' := by
  have hbody : ∀ s z s1 z1, I s z.root → connect_body s z = .ok (s1, z1) → I s1 z1.root := by
    intro s z s1 z1 hI hb
    rcases connect_body_cases s z with ⟨e, -⟩ | ⟨parent, rest, -, -, -, -, hw⟩ |
      ⟨child, helpers1, c1, c2, c3, c4, e⟩
    · rw [e] at hb
      simp only [Except.ok.injEq, Prod.mk.injEq] at hb
      obtain ⟨rfl, rfl⟩ := hb
      exact hI
    · rcases hw with ⟨ctx1, w1, e⟩ | ⟨e', -, e⟩
      · rw [e] at hb
        simp only [Except.ok.injEq, Prod.mk.injEq] at hb
        obtain ⟨rfl, rfl⟩ := hb
        exact hwalk s z ctx1 hI (born_sid_walk_ok _ _ _ w1)
      · rw [e] at hb; simp at hb
    · rw [e] at hb
      simp only [Except.ok.injEq, Prod.mk.injEq] at hb
      obtain ⟨rfl, rfl⟩ := hb
      exact hattach s z child helpers1 hI c1 c2 c3 c4
  refine for_each_inv connect_body (fun s z => I s z.root) I ?_ ?_ fuel s
    (Cursor.of_root t) s' t' h0 h
  · intro s z s1 z1 z2 hI hb hn
    rw [(pstree_item_next_some _ _ hn).1]
    exact hbody s z s1 z1 hI hb
  · intro s z s1 z1 hI hb _
    exact hbody s z s1 z1 hI hb

/-- Invariant rule for the last loop of `prepare_pstree_ids`: a property of `nr_helpers` and
the whole tree that is kept when a group helper is linked under the walked item holds at the
end of the loop. -/
theorem group_loop_inv (current_pgid : Int) (I : Nat → pstree_item → Prop)
    (hadd : ∀ nr (z : Cursor), I nr z.root → z.focus.d.pgid ≠ 0 →
      z.focus.d.pid_virt ≠ z.focus.d.pgid → (∀ d ∈ z.root.flat, d.pid_virt ≠ z.focus.d.pgid) →
      current_pgid ≠ z.focus.d.pgid →
      I (nr + 1) (z.list_add (.mk (group_helper z.focus.d) [])).root)
    (fuel : Nat) (nr nr' : Nat) (t t' : pstree_item) (h0 : I nr t)
    (h : for_each_pstree_item (group_leader_body current_pgid) fuel nr (Cursor.of_root t) =
      .ok (nr', t')) : I nr' t' := by
  have hbody : ∀ s z s1 z1, I s z.root → group_leader_body current_pgid s z = .ok (s1, z1) →
      I s1 z1.root := by
    intro s z s1 z1 hI hb
    rcases group_leader_body_cases current_pgid s z with ⟨e, -⟩ | ⟨e, c1, c2, c3, c4⟩
    · rw [e] at hb
      simp only [Except.ok.injEq, Prod.mk.injEq] at hb
      obtain ⟨rfl, rfl⟩ := hb
      exact hI
    · rw [e] at hb
      simp only [Except.ok.injEq, Prod.mk.injEq] at hb
      obtain ⟨rfl, rfl⟩ := hb
      exact hadd s z hI c1 c2 c3 c4
  refine for_each_inv (group_leader_body current_pgid) (fun s z => I s z.root) I ?_ ?_ fuel nr
    (Cursor.of_root t) nr' t' h0 h
  · intro s z s1 z1 z2 hI hb hn
    rw [(pstree_item_next_some _ _ hn).1]
    exact hbody s z s1 z1 hI hb
  · intro s z s1 z1 hI hb _
    exact hbody s z s1 z1 hI hb

theorem group_loop_mem (current_pgid : Int) (fuel : Nat) (nr nr' : Nat) (t t' : pstree_item)
    (h : for_each_pstree_item (group_leader_body current_pgid) fuel nr (Cursor.of_root t) =
      .ok (nr', t')) : ∀ d ∈ t.flat, d ∈ t'.flat := by
  intro d hd
  refine group_loop_inv current_pgid (fun _ r => d ∈ r.flat) ?_ fuel nr nr' t t' hd h
  intro nr z hI _ _ _ _
  rw [list_add_leaf_mem]
  exact Or.inl hI

theorem mem_flat_list (d : ItemData) : ∀ (cs : List pstree_item),
    d ∈ flat_list cs ↔ ∃ c ∈ cs, d ∈ c.flat
  | [] => by simp [flat_list_nil]
  | c :: cs => by
    rw [flat_list_cons, List.mem_append, mem_flat_list d cs]
    simp

/-- The first loop of `prepare_pstree_ids` on the children of `root`: the children that stay,
in order; one new helper per orphaned session, a helper item with `pid.virt`, `pgid` and `sid`
equal to that session id, whose children are the moved children. -/
theorem isolate_orphans_spec (root : pstree_item) (nr : Nat) :
    ∃ new : List pstree_item,
      isolate_orphans root.d.sid (root.children.length + 1) [] root.children [] nr =
        .ok (root.children.filter (stays root.d.sid), new, nr + new.length) ∧
      (∀ h ∈ new, h.d = session_helper h.d ∧ h.d.sid ≠ root.d.sid ∧
        (∃ c ∈ root.children, stays root.d.sid c = false ∧ c.d.sid = h.d.sid) ∧
        ∀ c ∈ h.children, c ∈ root.children ∧ stays root.d.sid c = false ∧ c.d.sid = h.d.sid) ∧
      (∀ c ∈ root.children, stays root.d.sid c = false →
        ∃ h ∈ new, h.d.sid = c.d.sid ∧ c ∈ h.children) ∧
      (new.map (fun h => h.d.sid)).Nodup := by
  obtain ⟨new, a1, a2, a3, a4⟩ := isolate_orphans_post root.d.sid (root.children.length + 1) []
    root.children [] nr (by omega)
  refine ⟨new, by simpa using a1, ?_, ?_, a4⟩
  · intro h hh
    obtain ⟨c, hc, hcs, rfl⟩ := a2 h hh
    refine ⟨rfl, sid_ne_root_of_not_stays _ c hcs, ⟨c, hc, hcs, rfl⟩, ?_⟩
    intro x hx
    simp only [pstree_item.children, List.mem_reverse, List.mem_filter] at hx
    have hm := hx.2
    simp only [moves_to, decide_eq_true_eq] at hm
    refine ⟨hx.1, ?_, hm.1⟩
    simp only [stays, decide_eq_false_iff_not, not_or]
    refine ⟨?_, hm.2⟩
    rw [hm.1]
    exact sid_ne_root_of_not_stays _ c hcs
  · intro c hc hcs
    obtain ⟨h, hh, hs⟩ := a3 c hc hcs
    refine ⟨h, hh, hs, ?_⟩
    obtain ⟨c', -, -, rfl⟩ := a2 h hh
    simp only [pstree_item.children, List.mem_reverse, List.mem_filter]
    refine ⟨hc, ?_⟩
    have := moves_to_of_not_stays _ _ hcs
    simpa [pstree_item.d, session_helper] using hs ▸ this

theorem list_add_mem (z : Cursor) (x : pstree_item) (d : ItemData) :
    d ∈ (z.list_add x).root.flat ↔ d ∈ z.root.flat ∨ d ∈ x.flat := by
  rw [list_add_root_flat, flat_root]
  simp only [List.mem_append, List.mem_cons]
  tauto

theorem splice_mem (t : pstree_item) (helpers : List pstree_item) (d : ItemData) :
    d ∈ (pstree_item.mk t.d (helpers ++ t.children)).flat ↔ d ∈ t.flat ∨ d ∈ flat_list helpers := by
  rw [flat_mk, flat_eq t, flat_list_append]
  simp only [List.mem_append, List.mem_cons]
  tauto

theorem born_sid_kept (current_pgid : Int) (g g' : Globals) (root root' : pstree_item)
    (h : prepare_pstree_ids current_pgid g = .ok g') (hr : g.root_item = some root)
    (hr' : g'.root_item = some root') :
    ∀ d ∈ root.flat, d.born_sid ≠ -1 → d ∈ root'.flat := by
  intro d hd hb
  obtain ⟨root0, children1, helpers, nr1, helpers2, max_pid2, root2, nr4, root4, e0, ea, eb, ed,
    rfl⟩ := prepare_pstree_ids_ok current_pgid g g' h
  rw [hr] at e0
  simp only [Option.some.injEq] at e0 hr'
  subst e0 hr'
  obtain ⟨new, a1, a2, a3, -⟩ := isolate_orphans_spec root g.task_entries.nr_helpers
  rw [a1] at ea
  simp only [Except.ok.injEq, Prod.mk.injEq] at ea
  obtain ⟨rfl, rfl, rfl⟩ := ea
  have hB := connect_loop_inv
    (fun s t => (d ∈ t.flat ∨ d ∈ flat_list s.1) ∧ ∀ h ∈ s.1, h.d.born_sid = -1)
    ?_ ?_ _ _ _ _ _ ?_ eb
  · apply group_loop_mem current_pgid _ _ _ _ _ ed
    rw [splice_mem]
    exact hB.1
  · intro s z ctx1 hI hu
    refine ⟨?_, hI.2⟩
    rcases hI.1 with h1 | h1
    · exact Or.inl (born_upd_mem _ _ _ (root_flat_frame_upd _ z ctx1 hu) d h1 hb)
    · exact Or.inr h1
  · intro s z child helpers1 hI _ _ _ ht
    obtain ⟨pre, post, e1, e2, -, -⟩ := take_helper_some _ _ _ _ ht
    simp only at e2 ⊢
    subst e2
    refine ⟨?_, ?_⟩
    · rw [list_add_mem]
      rcases hI.1 with h1 | h1
      · exact Or.inl (Or.inl h1)
      · rw [e1, flat_list_append, flat_list_cons, List.mem_append, List.mem_append,
          flat_eq child, List.mem_cons] at h1
        rw [flat_list_append, List.mem_append, renumber_helper, flat_mk, List.mem_cons]
        rcases h1 with h1 | (h1 | h1) | h1
        · exact Or.inr (Or.inl h1)
        · exfalso
          have := hI.2 child (by rw [e1]; simp)
          rw [← h1] at this
          exact hb this
        · simp only [pstree_item.children] at h1 ⊢
          exact Or.inl (Or.inr (Or.inr h1))
        · exact Or.inr (Or.inr h1)
    · intro h hh
      apply hI.2
      rw [e1]
      rcases List.mem_append.mp hh with hh | hh
      · exact List.mem_append_left _ hh
      · exact List.mem_append_right _ (List.mem_cons_of_mem _ hh)
  · refine ⟨?_, ?_⟩
    · rw [flat_eq root, List.mem_cons] at hd
      rcases hd with hd | hd
      · left; rw [flat_mk]; exact List.mem_cons.mpr (Or.inl hd)
      · obtain ⟨c, hc, hdc⟩ := (mem_flat_list d _).mp hd
        by_cases hs : stays root.d.sid c = true
        · left
          rw [flat_mk]
          refine List.mem_cons_of_mem _ ((mem_flat_list d _).mpr ⟨c, ?_, hdc⟩)
          exact List.mem_filter.mpr ⟨hc, hs⟩
        · right
          obtain ⟨h, hh, -, hch⟩ := a3 c hc (by simpa using hs)
          refine (mem_flat_list d _).mpr ⟨h, hh, ?_⟩
          rw [flat_eq h]
          exact List.mem_cons_of_mem _ ((mem_flat_list d _).mpr ⟨c, hch, hdc⟩)
    · intro h hh
      rw [(a2 h hh).1]
      rfl

theorem connect_body_conflict (s : List pstree_item × Int) (item : Cursor)
    (pre : List Frame) (f : Frame) (post : List Frame)
    (hreal : item.focus.d.state ≠ Kind.HELPER)
    (hnl : item.focus.d.sid ≠ item.focus.d.pid_virt)
    (hctx : item.ctx = pre ++ f :: post)
    (hpar : ∀ p rest, item.ctx = p :: rest → p.d.sid ≠ item.focus.d.sid)
    (hpre : ∀ a ∈ pre, a.d.pid_virt ≠ item.focus.d.sid)
    (hf : f.d.pid_virt ≠ item.focus.d.sid)
    (hb1 : f.d.born_sid ≠ -1) (hb2 : f.d.born_sid ≠ item.focus.d.sid) :
    connect_body s item = .error Err.ConflictingBornSession := by
  have hw := born_sid_walk_conflict item.focus.d.sid pre f post hpre hf hb1 hb2
  rw [← hctx] at hw
  rcases connect_body_cases s item with ⟨-, c⟩ | ⟨parent, rest, -, -, -, -, hw'⟩ |
    ⟨child, helpers1, -, -, c3, -, -⟩
  · exfalso
    rcases c with c | c | ⟨-, parent, rest, c1, c2⟩ | ⟨c, -⟩
    · rw [c] at hctx; simp at hctx
    · exact hreal c
    · exact hpar parent rest c1 c2
    · exact hnl c
  · rcases hw' with ⟨ctx1, w1, -⟩ | ⟨e, w1, e1⟩
    · rw [hw] at w1; simp at w1
    · rw [hw] at w1
      injection w1 with w1
      rw [e1, w1]
  · exact absurd c3 hnl

/-- C9. (1) In the second pass, when the walked item is a non-helper, non-root item that is
not a session leader and whose parent is in another session, and its ancestor chain contains,
before any item whose `pid.virt` is the item's `sid`, an ancestor whose `born_sid` is set and
differs from that `sid`, the loop returns the conflicting-born-session error at that
iteration. (2) An iteration that succeeds changes the fields of an ancestor in no other way
than setting an unset `born_sid` to the item's `sid`, leaves the siblings of the path
untouched, and leaves the walked item as it is or links one item at the head of its children.
(3) Whenever `prepare_pstree_ids` succeeds, every item of the input tree whose `born_sid` was
set is found unchanged in the resulting tree. (4) The tree 1 -> 2 -> 3 -> (4 in session 1,
5 in session 2), every item but 4 and 5 a session leader, is rejected with that error, in
both orders of the two children. -/
theorem born_sid_write_once :
    (∀ (s : List pstree_item × Int) (item : Cursor) (pre : List Frame) (f : Frame)
        (post : List Frame) (fuel : Nat),
      item.focus.d.state ≠ Kind.HELPER → item.focus.d.sid ≠ item.focus.d.pid_virt →
      item.ctx = pre ++ f :: post →
      (∀ p rest, item.ctx = p :: rest → p.d.sid ≠ item.focus.d.sid) →
      (∀ a ∈ pre, a.d.pid_virt ≠ item.focus.d.sid) → f.d.pid_virt ≠ item.focus.d.sid →
      f.d.born_sid ≠ -1 → f.d.born_sid ≠ item.focus.d.sid →
      for_each_pstree_item connect_body (fuel + 1) s item =
        .error Err.ConflictingBornSession) ∧
    (∀ (s s1 : List pstree_item × Int) (item item1 : Cursor),
      connect_body s item = .ok (s1, item1) →
      List.Forall₂ (frame_upd item.focus.d.sid) item.ctx item1.ctx ∧
      (item1.focus = item.focus ∨
        ∃ helper, item1.focus = .mk item.focus.d (helper :: item.focus.children))) ∧
    (∀ (current_pgid : Int) (g g' : Globals) (root root' : pstree_item),
      prepare_pstree_ids current_pgid g = .ok g' → g.root_item = some root →
      g'.root_item = some root' → ∀ d ∈ root.flat, d.born_sid ≠ -1 → d ∈ root'.flat) ∧
    (∀ (current_pgid max_pid : Int),
      prepare_pstree_ids current_pgid (sample_globals (sample_node 1 1 1 [sample_node 2 2 2
        [sample_node 3 3 3 [sample_node 4 1 1 [], sample_node 5 2 2 []]]]) max_pid) =
          .error Err.ConflictingBornSession ∧
      prepare_pstree_ids current_pgid (sample_globals (sample_node 1 1 1 [sample_node 2 2 2
        [sample_node 3 3 3 [sample_node 5 2 2 [], sample_node 4 1 1 []]]]) max_pid) =
          .error Err.ConflictingBornSession) := by
  refine ⟨?_, ?_, ?_, ?_⟩
  · intro s item pre f post fuel h1 h2 h3 h4 h5 h6 h7 h8
    simp only [for_each_pstree_item,
      connect_body_conflict s item pre f post h1 h2 h3 h4 h5 h6 h7 h8]
  · intro s s1 item item1 hb
    have hrefl : List.Forall₂ (frame_upd item.focus.d.sid) item.ctx item.ctx :=
      List.forall₂_same.mpr (fun _ _ => ⟨rfl, rfl, Or.inl rfl⟩)
    rcases connect_body_cases s item with ⟨e, -⟩ | ⟨parent, rest, -, -, -, -, hw⟩ |
      ⟨child, helpers1, -, -, -, -, e⟩
    · rw [e] at hb
      simp only [Except.ok.injEq, Prod.mk.injEq] at hb
      obtain ⟨rfl, rfl⟩ := hb
      exact ⟨hrefl, Or.inl rfl⟩
    · rcases hw with ⟨ctx1, w1, e⟩ | ⟨e', -, e⟩
      · rw [e] at hb
        simp only [Except.ok.injEq, Prod.mk.injEq] at hb
        obtain ⟨rfl, rfl⟩ := hb
        exact ⟨born_sid_walk_ok _ _ _ w1, Or.inl rfl⟩
      · rw [e] at hb; simp at hb
    · rw [e] at hb
      simp only [Except.ok.injEq, Prod.mk.injEq] at hb
      obtain ⟨rfl, rfl⟩ := hb
      exact ⟨hrefl, Or.inr ⟨_, rfl⟩⟩
  · intro current_pgid g g' root root' h hr hr'
    exact born_sid_kept current_pgid g g' root root' h hr hr'
  · intro current_pgid max_pid
    exact ⟨rfl, rfl⟩

/-- C9, instance: the rejected tree, and a run that succeeds on a tree in which item 2 already
carries `born_sid = 1`, which it keeps. -/
theorem born_sid_write_once_witness :
    prepare_pstree_ids 0 (sample_globals (sample_node 1 1 1 [sample_node 2 2 2
      [sample_node 3 3 3 [sample_node 4 1 1 [], sample_node 5 2 2 []]]]) 5) =
        .error Err.ConflictingBornSession ∧
    ∃ g' root', prepare_pstree_ids 0 (sample_globals (.mk (sample_item 1 1 1)
        [.mk { sample_item 2 2 2 with born_sid := 1 } [sample_node 3 1 1 []]]) 3) = .ok g' ∧
      g'.root_item = some root' ∧
      ({ sample_item 2 2 2 with born_sid := 1 } : ItemData) ∈ root'.flat := by
  refine ⟨(born_sid_write_once.2.2.2 0 5).1, _, _, rfl, rfl, ?_⟩
  exact born_sid_write_once.2.2.1 0 (sample_globals (.mk (sample_item 1 1 1)
    [.mk { sample_item 2 2 2 with born_sid := 1 } [sample_node 3 1 1 []]]) 3) _ _ _ rfl rfl rfl
    _ (by decide) (by decide)

mutual
theorem walk_born_upd (sid : Int) (anc anc1 : List ItemData)
    (h : List.Forall₂ (born_upd sid) anc anc1) :
    ∀ t : pstree_item, List.Forall₂ (walk_upd sid) (t.walk anc) (t.walk anc1)
  | .mk d cs => by
    rw [walk_mk, walk_mk]
    exact List.Forall₂.cons ⟨rfl, h⟩
      (walk_list_born_upd sid (d :: anc) (d :: anc1) (List.Forall₂.cons (Or.inl rfl) h) cs)
theorem walk_list_born_upd (sid : Int) (anc anc1 : List ItemData)
    (h : List.Forall₂ (born_upd sid) anc anc1) :
    ∀ cs : List pstree_item, List.Forall₂ (walk_upd sid) (walk_list anc cs) (walk_list anc1 cs)
  | [] => by simp [walk_list_nil]
  | c :: cs => by
    rw [walk_list_cons, walk_list_cons]
    exact List.rel_append (walk_born_upd sid anc anc1 h c) (walk_list_born_upd sid anc anc1 h cs)
end

theorem ancestors_frame_upd (sid : Int) (ctx ctx1 : List Frame)
    (h : List.Forall₂ (frame_upd sid) ctx ctx1) :
    List.Forall₂ (born_upd sid) (ancestors ctx) (ancestors ctx1) := by
  induction h with
  | nil => exact List.Forall₂.nil
  | cons hf _ ih => exact List.Forall₂.cons hf.2.2 ih

theorem ctx_walk_after_frame_upd (sid : Int) (ctx ctx1 : List Frame)
    (h : List.Forall₂ (frame_upd sid) ctx ctx1) :
    List.Forall₂ (walk_upd sid) (ctx_walk_after ctx) (ctx_walk_after ctx1) := by
  induction h with
  | nil => exact List.Forall₂.nil
  | @cons f f1 fs fs1 hf hfs ih =>
    simp only [ctx_walk_after, hf.2.1]
    exact List.rel_append
      (walk_list_born_upd sid _ _
        (List.Forall₂.cons hf.2.2 (ancestors_frame_upd sid _ _ hfs)) _) ih

theorem walk_after_frame_upd (sid : Int) (z : Cursor) (ctx1 : List Frame)
    (h : List.Forall₂ (frame_upd sid) z.ctx ctx1) :
    List.Forall₂ (walk_upd sid) z.walk_after ({ z with ctx := ctx1 } : Cursor).walk_after := by
  simp only [Cursor.walk_after]
  exact List.rel_append
    (walk_list_born_upd sid _ _
      (List.Forall₂.cons (Or.inl rfl) (ancestors_frame_upd sid _ _ h)) _)
    (ctx_walk_after_frame_upd sid _ _ h)

theorem forall₂_mem_left {α β : Type} (R : α → β → Prop) (l : List α) (l1 : List β)
    (h : List.Forall₂ R l l1) (x : α) (hx : x ∈ l) : ∃ x1 ∈ l1, R x x1 := by
  induction h with
  | nil => simp at hx
  | cons hr _ ih =>
    rcases List.mem_cons.mp hx with rfl | hx
    · exact ⟨_, List.mem_cons_self _ _, hr⟩
    · obtain ⟨x1, h1, h2⟩ := ih hx
      exact ⟨x1, List.mem_cons_of_mem _ h1, h2⟩

theorem forall₂_mem_right {α β : Type} (R : α → β → Prop) (l : List α) (l1 : List β)
    (h : List.Forall₂ R l l1) (x1 : β) (hx : x1 ∈ l1) : ∃ x ∈ l, R x x1 := by
  induction h with
  | nil => simp at hx
  | cons hr _ ih =>
    rcases List.mem_cons.mp hx with rfl | hx
    · exact ⟨_, List.mem_cons_self _ _, hr⟩
    · obtain ⟨x, h1, h2⟩ := ih hx
      exact ⟨x, List.mem_cons_of_mem _ h1, h2⟩

theorem born_upd_pid (sid : Int) (d d1 : ItemData) (h : born_upd sid d d1) :
    d1.pid_virt = d.pid_virt ∧ d1.sid = d.sid := by
  rcases h with h | ⟨-, h⟩ <;> rw [h] <;> simp

theorem leaderless_walk_upd (sid : Int) (x x1 : List ItemData × ItemData)
    (h : walk_upd sid x x1) (hx : leaderless x) : leaderless x1 := by
  obtain ⟨anc, d⟩ := x
  obtain ⟨anc1, d1⟩ := x1
  simp only [walk_upd] at h
  obtain ⟨rfl, h1⟩ := h
  obtain ⟨a, b, ⟨p, rest, c1, c2⟩, hd⟩ := hx
  simp only at c1 c2 hd a b
  subst c1
  rw [List.forall₂_cons_left_iff] at h1
  obtain ⟨p1, rest1, hp, hrest, rfl⟩ := h1
  refine ⟨a, b, ⟨p1, rest1, rfl, ?_⟩, ?_⟩
  · rw [(born_upd_pid sid p p1 hp).2]; exact c2
  · intro a1 ha1
    have hall : List.Forall₂ (born_upd sid) (p :: rest) (p1 :: rest1) :=
      List.Forall₂.cons hp hrest
    obtain ⟨a0, h0, hr⟩ := forall₂_mem_right (born_upd sid) _ _ hall a1 ha1
    rw [(born_upd_pid sid a0 a1 hr).1]
    exact hd a0 h0

theorem connect_body_error (s : List pstree_item × Int) (item : Cursor) (e : Err)
    (h : connect_body s item = .error e) :
    e = Err.SessionLeaderNotFound ∨ e = Err.ConflictingBornSession := by
  rcases connect_body_cases s item with ⟨e1, -⟩ | ⟨parent, rest, -, -, -, -, hw⟩ |
    ⟨child, helpers1, -, -, -, -, e1⟩
  · rw [e1] at h; simp at h
  · rcases hw with ⟨ctx1, -, e1⟩ | ⟨e', w1, e1⟩
    · rw [e1] at h; simp at h
    · rw [e1] at h
      injection h with h
      subst h
      exact born_sid_walk_error _ _ _ w1
  · rw [e1] at h; simp at h

theorem length_flat_list_append (a b : List pstree_item) :
    (flat_list (a ++ b)).length = (flat_list a).length + (flat_list b).length := by
  rw [flat_list_append, List.length_append]

theorem connect_loop_fuel (s : List pstree_item × Int) (t : pstree_item) :
    for_each_pstree_item connect_body (t.size + (flat_list s.1).length) s (Cursor.of_root t) ≠
      .error Err.OutOfFuel := by
  refine for_each_fuel connect_body (fun _ _ => True)
    (fun s z => z.after.length + (flat_list s.1).length) ?_ ?_ _ s (Cursor.of_root t) trivial ?_
  · intro s z _ h
    rcases connect_body_error s z _ h with h | h <;> simp at h
  · intro s z s1 z1 z2 _ hb hn
    refine ⟨trivial, ?_⟩
    have h3 := (pstree_item_next_some z1 z2 hn).2.2
    show z2.after.length + (flat_list s1.1).length < z.after.length + (flat_list s.1).length
    rcases connect_body_cases s z with ⟨e, -⟩ | ⟨parent, rest, -, -, -, -, hw⟩ |
      ⟨child, helpers1, -, -, -, c4, e⟩
    · rw [e] at hb
      simp only [Except.ok.injEq, Prod.mk.injEq] at hb
      obtain ⟨rfl, rfl⟩ := hb
      rw [h3]; simp
    · rcases hw with ⟨ctx1, w1, e⟩ | ⟨e', -, e⟩
      · rw [e] at hb
        simp only [Except.ok.injEq, Prod.mk.injEq] at hb
        obtain ⟨rfl, rfl⟩ := hb
        have : z.after = ({ z with ctx := ctx1 } : Cursor).after := by
          simp only [Cursor.after, ctx_after_frame_upd _ _ _ (born_sid_walk_ok _ _ _ w1)]
        rw [this, h3]; simp
      · rw [e] at hb; simp at hb
    · rw [e] at hb
      simp only [Except.ok.injEq, Prod.mk.injEq] at hb
      obtain ⟨rfl, rfl⟩ := hb
      obtain ⟨pre, post, e1, e2, -, -⟩ := take_helper_some _ _ _ _ c4
      have ha : (z.list_add (renumber_helper child z.focus.d.pgid
          (wrap32 (s.2 + 1)))).after.length = child.flat.length + z.after.length := by
        simp [Cursor.after, Cursor.list_add, pstree_item.children, flat_list_cons, flat_mk,
          flat_eq child, renumber_helper]
        omega
      rw [h3] at ha
      simp only [List.length_cons] at ha
      simp only [e2, e1, length_flat_list_append, flat_list_cons, List.length_append]
      omega
  · have := of_root_after_length t
    show (Cursor.of_root t).after.length + (flat_list s.1).length < _
    omega

theorem connect_loop_fails (s : List pstree_item × Int) (z : Cursor) (fuel : Nat)
    (r : (List pstree_item × Int) × pstree_item)
    (hbad : ∃ x ∈ z.here :: z.walk_after, leaderless x) :
    for_each_pstree_item connect_body fuel s z ≠ .ok r := by
  refine for_each_fails connect_body (fun _ z => ∃ x ∈ z.here :: z.walk_after, leaderless x)
    ?_ fuel s z r hbad
  intro s z s1 z1 hB hb
  obtain ⟨x, hx, hl⟩ := hB
  have hnext : ∀ x1 ∈ z1.walk_after, leaderless x1 →
      ∃ z2, pstree_item_next z1 = some z2 ∧ ∃ x ∈ z2.here :: z2.walk_after, leaderless x := by
    intro x1 hx1 hl1
    cases hn : pstree_item_next z1 with
    | none =>
      rw [pstree_item_next_walk_none z1 hn] at hx1
      simp at hx1
    | some z2 =>
      refine ⟨z2, rfl, x1, ?_, hl1⟩
      rw [← (pstree_item_next_walk_some z1 z2 hn).2]
      exact hx1
  rcases connect_body_cases s z with ⟨e, c⟩ | ⟨parent, rest, c0, -, -, -, hw⟩ |
    ⟨child, helpers1, -, -, c3, -, e⟩
  · rw [e] at hb
    simp only [Except.ok.injEq, Prod.mk.injEq] at hb
    obtain ⟨rfl, rfl⟩ := hb
    rcases List.mem_cons.mp hx with rfl | hx
    · exfalso
      obtain ⟨l1, l2, ⟨p, rest, l3, l4⟩, -⟩ := hl
      simp only [Cursor.here] at l1 l2 l3 l4
      rcases c with c | c | ⟨-, parent, rest', c1, c2⟩ | ⟨c, -⟩
      · rw [c] at l3; simp [ancestors] at l3
      · exact l1 c
      · rw [c1] at l3
        simp only [ancestors, List.map_cons, List.cons.injEq] at l3
        rw [← l3.1] at l4
        exact l4 c2
      · exact l2 c
    · exact hnext x hx hl
  · rcases hw with ⟨ctx1, w1, e⟩ | ⟨e', -, e⟩
    · rw [e] at hb
      simp only [Except.ok.injEq, Prod.mk.injEq] at hb
      obtain ⟨rfl, rfl⟩ := hb
      rcases List.mem_cons.mp hx with rfl | hx
      · exfalso
        obtain ⟨-, -, -, l5⟩ := hl
        obtain ⟨e2, he2⟩ := born_sid_walk_no_leader z.focus.d.sid z.ctx (by
          intro f hf
          exact l5 f.d (List.mem_map_of_mem _ hf))
        rw [he2] at w1; simp at w1
      · obtain ⟨x1, h1, h2⟩ := forall₂_mem_left _ _ _
          (walk_after_frame_upd _ z ctx1 (born_sid_walk_ok _ _ _ w1)) x hx
        exact hnext x1 h1 (leaderless_walk_upd _ _ _ h2 hl)
    · rw [e] at hb; simp at hb
  · rw [e] at hb
    simp only [Except.ok.injEq, Prod.mk.injEq] at hb
    obtain ⟨rfl, rfl⟩ := hb
    rcases List.mem_cons.mp hx with rfl | hx
    · exact absurd c3 hl.2.1
    · apply hnext x _ hl
      simp only [Cursor.walk_after, Cursor.list_add, pstree_item.children, walk_list_cons,
        pstree_item.d, List.append_assoc, List.mem_append]
      simp only [Cursor.walk_after, List.mem_append] at hx
      tauto

/-- C8 (amended). If the tree contains a non-helper item that is not a session leader, whose
parent is in another session, none of whose ancestors has the item's session id as
`pid.virt`, and which lies in the subtree of a child of the root that is in the root's session
or is a session leader (so that the first pass leaves that subtree in place), then
`prepare_pstree_ids` fails: it returns the session-leader-not-found error, or the
conflicting-born-session error met before. -/
theorem session_leader_not_found (current_pgid : Int) (g : Globals) (root c : pstree_item)
    (x : List ItemData × ItemData) (hr : g.root_item = some root) (hc : c ∈ root.children)
    (hcs : c.d.sid = root.d.sid ∨ c.d.sid = c.d.pid_virt) (hx : x ∈ c.walk [root.d])
    (hl : leaderless x) :
    prepare_pstree_ids current_pgid g = .error Err.SessionLeaderNotFound ∨
      prepare_pstree_ids current_pgid g = .error Err.ConflictingBornSession := by
  obtain ⟨new, a1, -, -, -⟩ := isolate_orphans_spec root g.task_entries.nr_helpers
  have hmem : x ∈ (pstree_item.mk root.d (root.children.filter (stays root.d.sid))).walk [] := by
    exact child_mem_walk (pstree_item.mk root.d (root.children.filter (stays root.d.sid))) c
      (List.mem_filter.mpr ⟨hc, by simpa [stays] using hcs⟩) x hx
  unfold prepare_pstree_ids
  simp only [hr, a1]
  cases hb : for_each_pstree_item connect_body
      ((pstree_item.mk root.d (root.children.filter (stays root.d.sid))).size +
        (flat_list new).length) (new, g.max_pid)
      (Cursor.of_root (.mk root.d (root.children.filter (stays root.d.sid)))) with
  | ok r =>
    exfalso
    refine connect_loop_fails _ _ _ r ?_ hb
    rw [of_root_walk]
    exact ⟨x, hmem, hl⟩
  | error e =>
    simp only
    rcases for_each_error _ _ _ _ _ hb with h | ⟨s1, z1, h⟩
    · subst h
      exact absurd hb (connect_loop_fuel (new, g.max_pid) _)
    · rcases connect_body_error _ _ _ h with h | h
      · exact Or.inl (by rw [h])
      · exact Or.inr (by rw [h])

/-- C8, counterexamples. Root 1 (session 1) with a child 2 in session 5: the child is a
non-helper, non-root item that is not a session leader and no ancestor has `pid.virt` 5, yet
`prepare_pstree_ids` succeeds (the first pass gives it a helper 5). Root 1 in session 7 with a
child 2 in session 7: the same, and `prepare_pstree_ids` succeeds (the child is in its
parent's session, the ancestor chain is not walked). -/
theorem session_leader_not_found_counterexample :
    (∃ x ∈ (sample_node 1 1 1 [sample_node 2 5 1 []]).walk [],
      x.2.state = Kind.REAL ∧ x.1 ≠ [] ∧ x.2.sid ≠ x.2.pid_virt ∧
      (∀ a ∈ x.1, a.pid_virt ≠ x.2.sid) ∧
      ∃ g', prepare_pstree_ids 0 (sample_globals (sample_node 1 1 1 [sample_node 2 5 1 []]) 5)
        = .ok g') ∧
    (∃ x ∈ (sample_node 1 7 1 [sample_node 2 7 1 []]).walk [],
      x.2.state = Kind.REAL ∧ x.1 ≠ [] ∧ x.2.sid ≠ x.2.pid_virt ∧
      (∀ a ∈ x.1, a.pid_virt ≠ x.2.sid) ∧
      ∃ g', prepare_pstree_ids 0 (sample_globals (sample_node 1 7 1 [sample_node 2 7 1 []]) 7)
        = .ok g') := by
  refine ⟨⟨([sample_item 1 1 1], sample_item 2 5 1), by decide, by decide, by decide, by decide,
    by decide, _, rfl⟩,
    ⟨([sample_item 1 7 1], sample_item 2 7 1), by decide, by decide, by decide, by decide,
    by decide, _, rfl⟩⟩

/-- C8, instance of the amended statement: root 1 with a child 2 (leader of session 2) whose
child 3 is in session 9; no item has `pid.virt` 9. -/
theorem session_leader_not_found_witness :
    leaderless ([sample_item 2 2 2, sample_item 1 1 1], sample_item 3 9 9) ∧
    (prepare_pstree_ids 0 (sample_globals
      (sample_node 1 1 1 [sample_node 2 2 2 [sample_node 3 9 9 []]]) 9) =
        .error Err.SessionLeaderNotFound ∨
     prepare_pstree_ids 0 (sample_globals
      (sample_node 1 1 1 [sample_node 2 2 2 [sample_node 3 9 9 []]]) 9) =
        .error Err.ConflictingBornSession) := by
  have hl : leaderless ([sample_item 2 2 2, sample_item 1 1 1], sample_item 3 9 9) :=
    ⟨by decide, by decide, ⟨_, _, rfl, by decide⟩, by decide⟩
  exact ⟨hl, session_leader_not_found 0 (sample_globals
    (sample_node 1 1 1 [sample_node 2 2 2 [sample_node 3 9 9 []]]) 9) _
    (sample_node 2 2 2 [sample_node 3 9 9 []]) _ rfl (List.mem_singleton.mpr rfl)
    (by decide) (by decide) hl⟩

theorem isolate_orphans_perm (root_sid : Int) : ∀ (fuel : Nat)
    (passed rest helpers : List pstree_item) (nr : Nat)
    (children1 helpers1 : List pstree_item) (nr1 : Nat),
    isolate_orphans root_sid fuel passed rest helpers nr = .ok (children1, helpers1, nr1) →
    (children1 ++ helpers1.flatMap pstree_item.children).Perm
      (passed ++ rest ++ helpers.flatMap pstree_item.children) := by
  intro fuel
  induction fuel with
  | zero => intro passed rest helpers nr c1 h1 n1 h; simp [isolate_orphans] at h
  | succ n ih =>
    intro passed rest helpers nr c1 h1 n1 h
    cases rest with
    | nil =>
      simp only [isolate_orphans, Except.ok.injEq, Prod.mk.injEq] at h
      obtain ⟨rfl, rfl, rfl⟩ := h
      simp
    | cons item rest =>
      simp only [isolate_orphans] at h
      split_ifs at h with hc
      · have := ih _ _ _ _ _ _ _ h
        simpa using this
      · have := ih _ _ _ _ _ _ _ h
        refine this.trans ?_
        simp only [stack_on_helper_eq, List.append_nil, List.nil_append, List.flatMap_append,
          List.flatMap_cons, List.flatMap_nil, pstree_item.children, List.append_assoc]
        apply List.Perm.append_left
        have hp := List.filter_append_perm (moves_to (session_helper item.d).sid) (item :: rest)
        refine List.Perm.trans ?_ (hp.append_right _)
        rw [List.append_assoc]
        refine List.Perm.trans ?_ List.perm_append_comm
        rw [List.append_assoc]
        apply List.Perm.append_left
        exact (List.reverse_perm _).append_left _

theorem flat_list_perm (l l' : List pstree_item) (h : l.Perm l') :
    (flat_list l).Perm (flat_list l') := by
  induction h with
  | nil => exact List.Perm.refl _
  | cons x _ ih => simp only [flat_list_cons]; exact ih.append_left _
  | swap x y l =>
    simp only [flat_list_cons, ← List.append_assoc]
    exact List.perm_append_comm.append_right _
  | trans _ _ ih1 ih2 => exact ih1.trans ih2

theorem flat_list_helpers_perm : ∀ (l : List pstree_item),
    (flat_list l).Perm (l.map pstree_item.d ++ flat_list (l.flatMap pstree_item.children))
  | [] => by simp [flat_list_nil]
  | h :: l => by
    simp only [flat_list_cons, List.map_cons, List.flatMap_cons, flat_list_append,
      flat_eq h, List.cons_append]
    apply List.Perm.cons
    refine ((flat_list_helpers_perm l).append_left _).trans ?_
    simp only [← List.append_assoc]
    exact List.perm_append_comm.append_right _

theorem list_add_leaf_perm (z : Cursor) (x : ItemData) :
    (z.list_add (.mk x [])).root.flat.Perm (x :: z.root.flat) := by
  rw [list_add_root_flat, flat_root, flat_mk, flat_list_nil]
  simp only [List.singleton_append]
  refine List.Perm.trans ?_ List.perm_middle
  apply List.Perm.append_left
  exact List.Perm.swap _ _ _

theorem wrap32_eq (x : Int) (h1 : -2147483648 ≤ x) (h2 : x < 2147483648) : wrap32 x = x := by
  unfold wrap32
  omega

theorem born_upd_state (sid : Int) (d d1 : ItemData) (h : born_upd sid d d1) :
    d1.state = d.state := by
  rcases h with h | ⟨-, h⟩ <;> rw [h]

/-- C7 (amended). For an input tree of non-helper items with `0 <= max_pid`, every `pid.virt`
at most `max_pid` and `max_pid` plus the number of children of the root below 2^31, whenever
`prepare_pstree_ids` succeeds, a helper of the resulting tree has the same `pid.virt` as a
non-helper item of the resulting tree only if it is a session helper of the first pass left
with `pid.virt = sid`, the session id of an orphaned child of the root. Helpers renumbered in
the second pass and helpers created in the last pass never collide with a non-helper item. -/
theorem helper_pid_collision (current_pgid : Int) (g g' : Globals) (root root' : pstree_item)
    (h : prepare_pstree_ids current_pgid g = .ok g') (hr : g.root_item = some root)
    (hr' : g'.root_item = some root')
    (hreal : ∀ d ∈ root.flat, d.state = Kind.REAL)
    (hmax : ∀ d ∈ root.flat, d.pid_virt ≤ g.max_pid)
    (hlow : 0 ≤ g.max_pid)
    (hovf : g.max_pid + root.children.length < 2147483648) :
    ∀ hd ∈ root'.flat, hd.state = Kind.HELPER → ∀ r ∈ root'.flat, r.state = Kind.REAL →
      r.pid_virt = hd.pid_virt → promoted_helper root hd := by
  obtain ⟨root0, children1, helpers, nr1, helpers2, max_pid2, root2, nr4, root4, e0, ea, eb, ed,
    rfl⟩ := prepare_pstree_ids_ok current_pgid g g' h
  rw [hr] at e0
  simp only [Option.some.injEq] at e0 hr'
  subst e0 hr'
  obtain ⟨new, a1, a2, a3, a4⟩ := isolate_orphans_spec root g.task_entries.nr_helpers
  rw [a1] at ea
  simp only [Except.ok.injEq, Prod.mk.injEq] at ea
  obtain ⟨rfl, rfl, rfl⟩ := ea
  have hsub : ∀ d ∈ (pstree_item.mk root.d (root.children.filter (stays root.d.sid))).flat,
      d ∈ root.flat := by
    intro d hd
    rw [flat_mk, List.mem_cons] at hd
    rw [flat_eq root, List.mem_cons]
    rcases hd with hd | hd
    · exact Or.inl hd
    · obtain ⟨c, hc, hdc⟩ := (mem_flat_list d _).mp hd
      exact Or.inr ((mem_flat_list d _).mpr ⟨c, (List.mem_filter.mp hc).1, hdc⟩)
  have hlen : new.length ≤ root.children.length := by
    have hs : new.map (fun h => h.d.sid) ⊆ root.children.map (fun c => c.d.sid) := by
      intro p hp
      obtain ⟨h, hh, rfl⟩ := List.mem_map.mp hp
      obtain ⟨-, -, ⟨c, hc, -, hsid⟩, -⟩ := a2 h hh
      exact List.mem_map.mpr ⟨c, hc, hsid⟩
    have := (List.subperm_of_subset a4 hs).length_le
    simpa using this
  have hB := connect_loop_inv
    (fun st t =>
      (∀ d ∈ t.flat, (d.state = Kind.REAL ∧ d.pid_virt ≤ g.max_pid) ∨
        (d.state = Kind.HELPER ∧ g.max_pid < d.pid_virt)) ∧
      (∀ h ∈ st.1, h.d.state = Kind.HELPER ∧ promoted_helper root h.d ∧
        ∀ d ∈ flat_list h.children, d.state = Kind.REAL ∧ d.pid_virt ≤ g.max_pid) ∧
      (g.max_pid ≤ st.2 ∧ st.2 + st.1.length < 2147483648))
    ?_ ?_ _ _ _ _ _ ?_ eb
  · obtain ⟨b1, b2, -⟩ := hB
    simp only at b1 b2
    -- the last loop
    have hD := group_loop_inv current_pgid
      (fun _ t =>
        (∀ d ∈ t.flat, (d.state = Kind.REAL ∧ d.pid_virt ≤ g.max_pid ∧
            d ∈ (pstree_item.mk root2.d (helpers2 ++ root2.children)).flat) ∨
          (d.state = Kind.HELPER ∧ (g.max_pid < d.pid_virt ∨ promoted_helper root d ∨
            ∀ r ∈ (pstree_item.mk root2.d (helpers2 ++ root2.children)).flat,
              r.state = Kind.REAL → r.pid_virt ≠ d.pid_virt))) ∧
        (∀ d ∈ (pstree_item.mk root2.d (helpers2 ++ root2.children)).flat, d ∈ t.flat))
      ?_ _ _ _ _ _ ?_ ed
    · intro hd hhd hst r hrm hrs hp
      rcases hD.1 hd hhd with ⟨c1, -⟩ | ⟨-, c2⟩
      · rw [c1] at hst; exact absurd hst (by decide)
      · rcases hD.1 r hrm with ⟨-, d1, d2⟩ | ⟨d1, -⟩
        · rcases c2 with c2 | c2 | c2
          · omega
          · exact c2
          · exact absurd hp (c2 r d2 hrs)
        · rw [d1] at hrs; exact absurd hrs (by decide)
    · intro nr z hI _ _ h3 _
      refine ⟨?_, ?_⟩
      · intro d hd
        rw [list_add_leaf_mem] at hd
        rcases hd with hd | rfl
        · exact hI.1 d hd
        · right
          refine ⟨rfl, Or.inr (Or.inr ?_)⟩
          intro r hr _
          exact h3 r (hI.2 r hr)
      · intro d hd
        rw [list_add_leaf_mem]
        exact Or.inl (hI.2 d hd)
    · refine ⟨?_, fun d hd => hd⟩
      intro d hd
      have hd' := hd
      rw [splice_mem] at hd
      rcases hd with hd | hd
      · rcases b1 d hd with ⟨c1, c2⟩ | ⟨c1, c2⟩
        · exact Or.inl ⟨c1, c2, hd'⟩
        · exact Or.inr ⟨c1, Or.inl c2⟩
      · obtain ⟨h, hh, hdh⟩ := (mem_flat_list d _).mp hd
        obtain ⟨c1, c2, c3⟩ := b2 h hh
        rw [flat_eq h, List.mem_cons] at hdh
        rcases hdh with rfl | hdh
        · exact Or.inr ⟨c1, Or.inr (Or.inl c2)⟩
        · exact Or.inl ⟨(c3 d hdh).1, (c3 d hdh).2, hd'⟩
  · intro st z ctx1 hI hu
    refine ⟨?_, hI.2⟩
    intro d1 hd1
    obtain ⟨d, hd, hup⟩ := forall₂_mem_right _ _ _ (root_flat_frame_upd _ z ctx1 hu) d1 hd1
    rw [born_upd_state _ _ _ hup, (born_upd_pid _ _ _ hup).1]
    exact hI.1 d hd
  · intro st z child helpers1 hI _ _ _ ht
    obtain ⟨pre, post, e1, e2, e3, -⟩ := take_helper_some _ _ _ _ ht
    obtain ⟨i1, i2, i3, i4⟩ := hI
    have hlen1 : st.1.length = helpers1.length + 1 := by
      rw [e1, e2]; simp; omega
    have hw : wrap32 (st.2 + 1) = st.2 + 1 := wrap32_eq _ (by omega) (by omega)
    refine ⟨?_, ?_, ?_⟩
    · intro d hd
      rw [list_add_mem, renumber_helper, flat_mk, List.mem_cons] at hd
      rcases hd with hd | rfl | hd
      · exact i1 d hd
      · right
        refine ⟨e3, ?_⟩
        simp only [hw]
        omega
      · left
        exact (i2 child (by rw [e1]; simp)).2.2 d hd
    · intro h hh
      apply i2
      rw [e1]
      rw [e2] at hh
      rcases List.mem_append.mp hh with hh | hh
      · exact List.mem_append_left _ hh
      · exact List.mem_append_right _ (List.mem_cons_of_mem _ hh)
    · simp only [hw]
      omega
  · refine ⟨?_, ?_, ?_⟩
    · intro d hd
      exact Or.inl ⟨hreal d (hsub d hd), hmax d (hsub d hd)⟩
    · intro h hh
      obtain ⟨c1, c2, ⟨c, hc, hcs, hsid⟩, c4⟩ := a2 h hh
      refine ⟨by rw [c1]; rfl, ⟨by rw [c1]; rfl, by rw [c1]; rfl, c2, c, hc, hsid, ?_⟩, ?_⟩
      · simp only [stays, decide_eq_false_iff_not, not_or] at hcs
        exact hcs.2
      · intro d hd
        obtain ⟨x, hx, hdx⟩ := (mem_flat_list d _).mp hd
        have hdr : d ∈ root.flat := by
          rw [flat_eq root]
          exact List.mem_cons_of_mem _ ((mem_flat_list d _).mpr ⟨x, (c4 x hx).1, hdx⟩)
        exact ⟨hreal d hdr, hmax d hdr⟩
    · exact ⟨le_refl _, by simp only; omega⟩

/-- C7, counterexample. Root 1 with children 2 (in session 5) and 5 (in session 1): the
non-helper items have the distinct pids 1, 2, 5; the repair succeeds and the helper created
for session 5 has `pid.virt` 5, the pid of the non-helper item 5. -/
theorem helper_pid_collision_counterexample :
    ∃ g' root', prepare_pstree_ids 0 (sample_globals
        (sample_node 1 1 1 [sample_node 2 5 1 [], sample_node 5 1 1 []]) 5) = .ok g' ∧
      g'.root_item = some root' ∧
      ((sample_node 1 1 1 [sample_node 2 5 1 [], sample_node 5 1 1 []]).flat.map
        ItemData.pid_virt).Nodup ∧
      (∀ d ∈ (sample_node 1 1 1 [sample_node 2 5 1 [], sample_node 5 1 1 []]).flat,
        d.state = Kind.REAL) ∧
      root'.flat.map (fun d => (d.pid_virt, d.state)) =
        [(1, Kind.REAL), (5, Kind.HELPER), (2, Kind.REAL), (5, Kind.REAL)] ∧
      ∃ hd ∈ root'.flat, ∃ r ∈ root'.flat,
        hd.state = Kind.HELPER ∧ r.state = Kind.REAL ∧ hd.pid_virt = r.pid_virt := by
  refine ⟨_, _, rfl, rfl, by decide, by decide, by decide, by decide⟩

/-- C7, instance of the amended statement: root 1 with children 2 (leader of session 2 and of
group 2) and 3 (in session 2, group 7), `max_pid = 7`: the helper of session 2 is renumbered 8
under 2 and a group helper 7 is created under 3. -/
theorem helper_pid_collision_witness :
    ∃ g' root', prepare_pstree_ids 0 (sample_globals
        (sample_node 1 1 1 [sample_node 2 2 2 [], sample_node 3 2 7 []]) 7) = .ok g' ∧
      g'.root_item = some root' ∧
      root'.flat.map (fun d => (d.pid_virt, d.state)) =
        [(1, Kind.REAL), (2, Kind.REAL), (8, Kind.HELPER), (3, Kind.REAL), (7, Kind.HELPER)] ∧
      ∀ hd ∈ root'.flat, hd.state = Kind.HELPER → ∀ r ∈ root'.flat, r.state = Kind.REAL →
        r.pid_virt = hd.pid_virt →
        promoted_helper (sample_node 1 1 1 [sample_node 2 2 2 [], sample_node 3 2 7 []]) hd := by
  refine ⟨_, _, rfl, rfl, by decide, ?_⟩
  exact helper_pid_collision 0 (sample_globals
    (sample_node 1 1 1 [sample_node 2 2 2 [], sample_node 3 2 7 []]) 7) _
    (sample_node 1 1 1 [sample_node 2 2 2 [], sample_node 3 2 7 []]) _ rfl rfl rfl
    (by decide) (by decide) (by decide) (by decide)

theorem visit_weight_pos (d : ItemData) : 1 ≤ visit_weight d := by
  unfold visit_weight; split_ifs <;> omega

theorem visit_weight_le (l : List ItemData) : (l.map visit_weight).sum ≤ 2 * l.length := by
  induction l with
  | nil => simp
  | cons d l ih =>
    simp only [List.map_cons, List.sum_cons, List.length_cons]
    have : visit_weight d ≤ 2 := by unfold visit_weight; split_ifs <;> omega
    omega

theorem group_loop_fuel (current_pgid : Int) (nr : Nat) (t : pstree_item) :
    for_each_pstree_item (group_leader_body current_pgid) (2 * t.size) nr (Cursor.of_root t) ≠
      .error Err.OutOfFuel := by
  refine for_each_fuel (group_leader_body current_pgid) (fun _ _ => True)
    (fun _ z => (z.after.map visit_weight).sum + visit_weight z.focus.d - 1) ?_ ?_ _ nr
    (Cursor.of_root t) trivial ?_
  · intro s z _ h
    rcases group_leader_body_cases current_pgid s z with ⟨e, -⟩ | ⟨e, -⟩ <;>
      · rw [e] at h; simp at h
  · intro s z s1 z1 z2 _ hb hn
    refine ⟨trivial, ?_⟩
    have h3 := (pstree_item_next_some z1 z2 hn).2.2
    show (z2.after.map visit_weight).sum + visit_weight z2.focus.d - 1 <
      (z.after.map visit_weight).sum + visit_weight z.focus.d - 1
    have hw2 := visit_weight_pos z2.focus.d
    rcases group_leader_body_cases current_pgid s z with ⟨e, -⟩ | ⟨e, c1, c2, -, -⟩
    · rw [e] at hb
      simp only [Except.ok.injEq, Prod.mk.injEq] at hb
      obtain ⟨rfl, rfl⟩ := hb
      have hw := visit_weight_pos z.focus.d
      rw [h3]
      simp only [List.map_cons, List.sum_cons]
      omega
    · rw [e] at hb
      simp only [Except.ok.injEq, Prod.mk.injEq] at hb
      obtain ⟨rfl, rfl⟩ := hb
      have ha : (z.list_add (.mk (group_helper z.focus.d) [])).after =
          group_helper z.focus.d :: z.after := by
        simp [Cursor.after, Cursor.list_add, pstree_item.children, flat_list_cons, flat_mk,
          flat_list_nil]
      rw [ha] at h3
      simp only [List.cons.injEq] at h3
      have hwz : visit_weight z.focus.d = 2 := by
        unfold visit_weight
        rw [if_neg (by tauto)]
      have hwh : visit_weight z2.focus.d = 1 := by
        rw [← h3.1]
        have hp : (group_helper z.focus.d).pgid = 0 ∨
            (group_helper z.focus.d).pid_virt = (group_helper z.focus.d).pgid := Or.inr rfl
        unfold visit_weight
        rw [if_pos hp]
      rw [h3.2, hwz, hwh]
      omega
  · show ((Cursor.of_root t).after.map visit_weight).sum + visit_weight (Cursor.of_root t).focus.d
      - 1 < 2 * t.size
    have h1 := visit_weight_le t.flat
    rw [flat_eq t] at h1
    simp only [List.map_cons, List.sum_cons] at h1
    have h2 : (Cursor.of_root t).after = flat_list t.children := by
      simp [Cursor.after, Cursor.of_root, ctx_after]
    have h3 := visit_weight_pos t.d
    rw [h2]
    simp only [Cursor.of_root, pstree_item.size, flat_eq t, List.length_cons] at h1 ⊢
    omega

/-- The fuel bounds of `prepare_pstree_ids` are sufficient: the model never reports fuel
exhaustion for it. -/
theorem prepare_pstree_ids_fuel (current_pgid : Int) (g : Globals) :
    prepare_pstree_ids current_pgid g ≠ .error Err.OutOfFuel := by
  unfold prepare_pstree_ids
  cases hr : g.root_item with
  | none => simp
  | some root =>
    simp only
    obtain ⟨new, a1, -⟩ := isolate_orphans_spec root g.task_entries.nr_helpers
    rw [a1]
    simp only
    cases hb : for_each_pstree_item connect_body
        ((pstree_item.mk root.d (root.children.filter (stays root.d.sid))).size +
          (flat_list new).length) (new, g.max_pid)
        (Cursor.of_root (.mk root.d (root.children.filter (stays root.d.sid)))) with
    | error e =>
      simp only
      intro h
      injection h with h
      subst h
      exact connect_loop_fuel (new, g.max_pid) _ hb
    | ok rb =>
      obtain ⟨⟨helpers2, max_pid2⟩, root2⟩ := rb
      simp only
      cases hd : for_each_pstree_item (group_leader_body current_pgid)
          (2 * (pstree_item.mk root2.d (helpers2 ++ root2.children)).size)
          (g.task_entries.nr_helpers + new.length)
          (Cursor.of_root (.mk root2.d (helpers2 ++ root2.children))) with
      | error e =>
        simp only
        intro h
        injection h with h
        subst h
        exact group_loop_fuel current_pgid _ _ hd
      | ok rd => simp

/-- The fuel bounds of `prepare_pstree` are sufficient: started with `root_item` unset, the
model never reports fuel exhaustion for it. -/
theorem prepare_pstree_fuel (shell_job : Bool) (current_sid current_gid : Int) (g : Globals)
    (image : List PstreeEntry) (hg : g.root_item = none) :
    prepare_pstree shell_job current_sid current_gid g image ≠ .error Err.OutOfFuel := by
  have hsj : ∀ g1, prepare_pstree_for_shell_job shell_job current_sid current_gid g1 ≠
      .error Err.OutOfFuel := by
    intro g1
    unfold prepare_pstree_for_shell_job
    split_ifs
    · simp
    · cases hr : g1.root_item with
      | none => simp
      | some root =>
        simp only
        cases hf : for_each_pstree_item
            (shell_job_body root.d.pgid root.d.sid current_gid current_sid) root.size ()
            (Cursor.of_root root) with
        | ok r => simp
        | error e =>
          simp only
          intro h
          injection h with h
          subst h
          refine for_each_static_fuel _ (by simp [shell_job_body]) ?_ _ _ _
            (of_root_after_length root) hf
          intro s z s1 z1 hb
          simp only [shell_job_body, Except.ok.injEq, Prod.mk.injEq] at hb
          rw [← hb.2]
          simp [Cursor.after, pstree_item.children]
  unfold prepare_pstree
  cases hl : prepare_pstree_loop (g, none) image with
  | ok st => exact hsj _
  | error e =>
    simp only
    intro h
    injection h with h
    subst h
    cases image with
    | nil => simp [prepare_pstree_loop] at hl
    | cons e0 rest =>
      simp only [prepare_pstree_loop] at hl
      rcases step_of_none g e0 hg with ⟨-, g1, e1, e2⟩ | ⟨-, e1⟩
      · simp only [e1] at hl
        have hroot : g1.root_item = some (Cursor.of_root (.mk (item_of_entry e0) [])).root := by
          simpa [Cursor.of_root, Cursor.root, plug_all] using e2
        rcases loop_of_some_cases rest g1 _ hroot with ⟨st', hok⟩ | ⟨herr, -⟩
        · rw [hok] at hl; simp at hl
        · rw [herr] at hl; simp at hl
      · simp [e1] at hl

theorem items_from_spec : ∀ (fuel : Nat) (z : Cursor), z.after.length < fuel →
    (items_from fuel z).head? = some z ∧
    List.Chain' (fun a b => pstree_item_next a = some b) (items_from fuel z) ∧
    (∃ last, (items_from fuel z).getLast? = some last ∧ pstree_item_next last = none) ∧
    (items_from fuel z).map (fun c => c.focus.d) = z.focus.d :: z.after ∧
    (items_from fuel z).map Cursor.here = z.here :: z.walk_after ∧
    (∀ c ∈ items_from fuel z, c.root = z.root) ∧
    (items_from fuel z).map (fun c => c.before.length) =
      List.range' z.before.length (z.after.length + 1)
  | 0, z, h => by omega
  | fuel + 1, z, h => by
    cases hn : pstree_item_next z with
    | none =>
      have h1 := pstree_item_next_none z hn
      have h2 := pstree_item_next_walk_none z hn
      simp only [items_from, hn]
      refine ⟨rfl, by simp, ⟨z, rfl, hn⟩, ?_, ?_, ?_, ?_⟩
      · simp [h1]
      · simp [h2]
      · simp
      · simp [h1]
    | some z1 =>
      obtain ⟨a1, a2, a3⟩ := pstree_item_next_some z z1 hn
      obtain ⟨b1, b2⟩ := pstree_item_next_walk_some z z1 hn
      have hlen : z1.after.length < fuel := by
        have : z.after.length = z1.after.length + 1 := by rw [a3]; simp
        omega
      obtain ⟨c1, c2, ⟨last, c3, c3'⟩, c4, c5, c6, c7⟩ := items_from_spec fuel z1 hlen
      simp only [items_from, hn]
      refine ⟨rfl, ?_, ⟨last, ?_, c3'⟩, ?_, ?_, ?_, ?_⟩
      · cases hl : items_from fuel z1 with
        | nil => simp
        | cons x xs =>
          rw [hl] at c1 c2
          simp only [List.head?_cons, Option.some.injEq] at c1
          subst c1
          exact List.Chain'.cons hn c2
      · cases hl : items_from fuel z1 with
        | nil => rw [hl] at c3; simp at c3
        | cons x xs =>
          rw [hl] at c3
          rw [List.getLast?_cons_cons]
          exact c3
      · simp only [List.map_cons, c4, a3]
      · simp only [List.map_cons, c5, b2]
      · intro c hc
        rcases List.mem_cons.mp hc with rfl | hc
        · rfl
        · rw [c6 c hc, a1]
      · simp only [List.map_cons, c7, a2, a3, List.length_append, List.length_cons,
          List.length_nil, List.range'_succ, Nat.zero_add]

theorem for_each_collect {α : Type} (φ : Cursor → α) : ∀ (fuel : Nat) (z : Cursor)
    (out : List α), z.after.length < fuel →
    for_each_pstree_item (fun (o : List α) item => Except.ok (o ++ [φ item], item)) fuel out z =
      .ok (out ++ (items_from fuel z).map φ, z.root)
  | 0, z, out, h => by omega
  | fuel + 1, z, out, h => by
    cases hn : pstree_item_next z with
    | none => simp [for_each_pstree_item, items_from, hn]
    | some z1 =>
      obtain ⟨a1, -, a3⟩ := pstree_item_next_some z z1 hn
      have hlen : z1.after.length < fuel := by
        have : z.after.length = z1.after.length + 1 := by rw [a3]; simp
        omega
      simp only [for_each_pstree_item, items_from, hn]
      rw [for_each_collect φ fuel z1 _ hlen, a1]
      simp
theorem items_from_root (t : pstree_item) (k : Nat) :
    (items_from (t.size + k) (Cursor.of_root t)).map (fun c => c.focus.d) = t.flat ∧
    (items_from (t.size + k) (Cursor.of_root t)).map Cursor.here = t.walk [] ∧
    (items_from (t.size + k) (Cursor.of_root t)).map (fun c => c.before.length) =
      List.range t.size := by
  have hlen : (Cursor.of_root t).after.length < t.size + k := by
    have := of_root_after_length t
    omega
  obtain ⟨-, -, -, c4, c5, -, c7⟩ := items_from_spec _ _ hlen
  refine ⟨?_, ?_, ?_⟩
  · rw [c4, flat_eq t]
    simp [Cursor.after, Cursor.of_root, ctx_after]
  · rw [c5, of_root_walk]
  · rw [c7, List.range_eq_range']
    have h1 : (Cursor.of_root t).before.length = 0 := by
      simp [Cursor.before, Cursor.of_root, ctx_before]
    have h2 : (Cursor.of_root t).after.length + 1 = t.size := by
      simp [Cursor.after, Cursor.of_root, ctx_after, pstree_item.size, flat_eq t]
    rw [h1, h2]

/-- C12: iterating `pstree_item_next` from the root reaches NULL after exactly one step per
item (any fuel of at least the size of the tree is enough), the pointers gone through are
linked by `pstree_item_next`, start at the root, all point into the same tree, the i-th of
them has exactly i items before it in pre-order, and their items are the depth-first pre-order
listing of the tree (an item, then the subtrees of its children in list order); an item is
the last in pre-order exactly when `pstree_item_next` returns NULL for it. -/
theorem tree_walker_preorder (t : pstree_item) (k : Nat) :
    for_each_pstree_item (fun (o : List Cursor) item => Except.ok (o ++ [item], item))
        (t.size + k) [] (Cursor.of_root t) =
      .ok (items_from (t.size + k) (Cursor.of_root t), t) ∧
    (items_from (t.size + k) (Cursor.of_root t)).head? = some (Cursor.of_root t) ∧
    List.Chain' (fun a b => pstree_item_next a = some b)
      (items_from (t.size + k) (Cursor.of_root t)) ∧
    (∃ last, (items_from (t.size + k) (Cursor.of_root t)).getLast? = some last ∧
      pstree_item_next last = none) ∧
    (items_from (t.size + k) (Cursor.of_root t)).map (fun c => c.focus.d) = t.flat ∧
    t.flat = t.d :: t.children.flatMap pstree_item.flat ∧
    (items_from (t.size + k) (Cursor.of_root t)).map Cursor.here = t.walk [] ∧
    (∀ c ∈ items_from (t.size + k) (Cursor.of_root t), c.root = t) ∧
    (items_from (t.size + k) (Cursor.of_root t)).map (fun c => c.before.length) =
      List.range t.size ∧
    (items_from (t.size + k) (Cursor.of_root t)).length = t.size ∧
    (∀ z : Cursor, z.after = [] ↔ pstree_item_next z = none) := by
  have hlen : (Cursor.of_root t).after.length < t.size + k := by
    have := of_root_after_length t
    omega
  obtain ⟨c1, c2, c3, -, -, c6, -⟩ := items_from_spec _ _ hlen
  obtain ⟨d1, d2, d3⟩ := items_from_root t k
  refine ⟨?_, c1, c2, c3, d1, ?_, d2, c6, d3, ?_, ?_⟩
  · have := for_each_collect (fun c => c) (t.size + k) (Cursor.of_root t) [] hlen
    simpa [Cursor.of_root, Cursor.root, plug_all] using this
  · rw [flat_eq t]
    congr 1
    generalize t.children = cs
    induction cs with
    | nil => simp [flat_list_nil]
    | cons c cs ih => simp [flat_list_cons, ih]
  · have := congrArg List.length d3
    simpa using this
  · intro z
    constructor
    · intro h
      cases hn : pstree_item_next z with
      | none => rfl
      | some z1 =>
        have := (pstree_item_next_some z z1 hn).2.2
        rw [h] at this
        simp at this
    · exact pstree_item_next_none z

theorem tree_walker_preorder_witness :
    (items_from 3 (Cursor.of_root (sample_node 1 1 1 [sample_node 2 1 1 [sample_node 3 1 1 []]]))).map
        (fun c => c.focus.d.pid_virt) = [1, 2, 3] ∧
    (items_from 7 (Cursor.of_root (sample_node 1 1 1 [sample_node 2 1 1 [sample_node 3 1 1 []]]))).length
        = 3 := by
  refine ⟨?_, ?_⟩
  · have h := (tree_walker_preorder
      (sample_node 1 1 1 [sample_node 2 1 1 [sample_node 3 1 1 []]]) 0).2.2.2.2.1
    have h2 := congrArg (List.map ItemData.pid_virt) h
    simp only [List.map_map] at h2
    exact h2
  · exact (tree_walker_preorder
      (sample_node 1 1 1 [sample_node 2 1 1 [sample_node 3 1 1 []]]) 4).2.2.2.2.2.2.2.2.2.1

/-- C11: `dump_pstree` returns the error `RootNotSessionLeader` (before the image is opened,
so without a record) exactly when the root's `pid.virt` differs from its `sid` and `shell_job`
is off; otherwise it returns success and the records written are one per item, in the order
in which `pstree_item_next` goes through the tree from the root, each made of the item's
`pid.virt`, the `pid.virt` of its parent (0 for the root), its `pgid`, `sid` and thread ids
in stored order. -/
theorem dump_pstree_result (shell_job : Bool) (t : pstree_item) :
    (dump_pstree shell_job t = .error Err.RootNotSessionLeader ↔
      (t.d.pid_virt ≠ t.d.sid ∧ shell_job = false)) ∧
    (¬ (t.d.pid_virt ≠ t.d.sid ∧ shell_job = false) →
      dump_pstree shell_job t = .ok ((items_from t.size (Cursor.of_root t)).map entry_of) ∧
      ((items_from t.size (Cursor.of_root t)).map entry_of).length = t.size ∧
      (items_from t.size (Cursor.of_root t)).map (fun c => c.focus.d) = t.flat ∧
      (items_from t.size (Cursor.of_root t)).map entry_of = entries_under 0 t ∧
      ∀ c ∈ items_from t.size (Cursor.of_root t),
        entry_of c = ⟨c.focus.d.pid_virt, (match c.ctx with | [] => 0 | f :: _ => f.d.pid_virt),
          c.focus.d.pgid, c.focus.d.sid, c.focus.d.threads⟩) := by
  have hlen := of_root_after_length t
  have hok : ¬ (t.d.pid_virt ≠ t.d.sid ∧ shell_job = false) →
      dump_pstree shell_job t = .ok ((items_from t.size (Cursor.of_root t)).map entry_of) := by
    intro hc
    unfold dump_pstree
    rw [if_neg hc, for_each_collect entry_of t.size (Cursor.of_root t) [] hlen]
    simp
  obtain ⟨d1, d2, d3⟩ := items_from_root t 0
  simp only [Nat.add_zero] at d1 d2 d3
  refine ⟨?_, ?_⟩
  · constructor
    · intro h
      by_contra hc
      rw [hok hc] at h
      simp at h
    · intro hc
      unfold dump_pstree
      rw [if_pos hc]
  · intro hc
    refine ⟨hok hc, ?_, d1, ?_, fun c _ => rfl⟩
    · have := congrArg List.length d3
      simpa using this
    · have h1 : (items_from t.size (Cursor.of_root t)).map entry_of =
          ((items_from t.size (Cursor.of_root t)).map Cursor.here).map entry_of_walk := by
        rw [List.map_map]
        apply List.map_congr_left
        intro c _
        exact entry_of_here c
      rw [h1, d2, ← entries_eq_under]
      rfl

theorem dump_pstree_result_witness :
    dump_pstree false (sample_node 1 1 1 [sample_node 2 1 1 [], sample_node 3 1 1 []]) =
      .ok [⟨1, 0, 1, 1, [1]⟩, ⟨2, 1, 1, 1, [2]⟩, ⟨3, 1, 1, 1, [3]⟩] ∧
    dump_pstree false (sample_node 1 7 1 []) = .error Err.RootNotSessionLeader := by
  refine ⟨?_, ?_⟩
  · have h := ((dump_pstree_result false
      (sample_node 1 1 1 [sample_node 2 1 1 [], sample_node 3 1 1 []])).2 (by decide)).1
    rw [h]
    rfl
  · exact (dump_pstree_result false (sample_node 1 7 1 [])).1.mpr (by decide)

theorem map_data_mk (f : ItemData → ItemData) (d : ItemData) (cs : List pstree_item) :
    (pstree_item.mk d cs).map_data f = .mk (f d) (map_data_list f cs) := by
  simp [pstree_item.map_data]

theorem map_data_list_nil (f : ItemData → ItemData) : map_data_list f [] = [] := by
  simp [map_data_list]

theorem map_data_list_cons (f : ItemData → ItemData) (c : pstree_item)
    (cs : List pstree_item) :
    map_data_list f (c :: cs) = c.map_data f :: map_data_list f cs := by
  simp [map_data_list]

theorem map_data_list_append (f : ItemData → ItemData) (a b : List pstree_item) :
    map_data_list f (a ++ b) = map_data_list f a ++ map_data_list f b := by
  induction a with
  | nil => simp [map_data_list_nil]
  | cons c cs ih => simp [map_data_list_cons, ih]

mutual
theorem flat_map_data (f : ItemData → ItemData) :
    ∀ t : pstree_item, (t.map_data f).flat = t.flat.map f
  | .mk d cs => by
    rw [map_data_mk, flat_mk, flat_mk, List.map_cons, flat_list_map_data f cs]

theorem flat_list_map_data (f : ItemData → ItemData) :
    ∀ cs : List pstree_item, flat_list (map_data_list f cs) = (flat_list cs).map f
  | [] => by simp [map_data_list_nil, flat_list_nil]
  | c :: cs => by
    rw [map_data_list_cons, flat_list_cons, flat_list_cons, List.map_append,
      flat_map_data f c, flat_list_map_data f cs]
end

theorem next_up_mapped (f : ItemData → ItemData) : ∀ (ctx0 ctx : List Frame) (t0 : pstree_item),
    List.Forall₂ (frame_mapped f) ctx0 ctx →
    (next_up t0 ctx0 = none ∧ next_up (t0.map_data f) ctx = none ∧
      plug_all (t0.map_data f) ctx = (plug_all t0 ctx0).map_data f) ∨
    (∃ c0 c, next_up t0 ctx0 = some c0 ∧ next_up (t0.map_data f) ctx = some c ∧
      c.focus = c0.focus ∧ List.Forall₂ (frame_mapped f) c0.ctx c.ctx)
  | [], ctx, t0, h => by
    cases h
    left
    simp [next_up, plug_all]
  | fr0 :: fs0, ctx, t0, h => by
    rcases List.forall₂_cons_left_iff.mp h with ⟨fr, fs, ⟨h1, h2, h3⟩, hfs, rfl⟩
    cases hr : fr0.right with
    | nil =>
      have hr1 : fr.right = [] := by rw [h3, hr]
      have hplug : fr.plug (t0.map_data f) = (fr0.plug t0).map_data f := by
        simp [Frame.plug, map_data_mk, map_data_list_append, map_data_list_cons,
          map_data_list_nil, h1, h2, hr, hr1]
      simp only [next_up, hr, hr1, plug_all]
      rw [hplug]
      exact next_up_mapped f fs0 fs (fr0.plug t0) hfs
    | cons r rs =>
      have hr1 : fr.right = r :: rs := by rw [h3, hr]
      right
      refine ⟨⟨r, { d := fr0.d, left := fr0.left ++ [t0], right := rs } :: fs0⟩,
        ⟨r, { d := fr.d, left := fr.left ++ [t0.map_data f], right := rs } :: fs⟩,
        by simp [next_up, hr], by simp [next_up, hr1], rfl, ?_⟩
      refine List.Forall₂.cons ⟨h1, ?_, rfl⟩ hfs
      simp [h2, map_data_list_append, map_data_list_cons, map_data_list_nil]

theorem for_each_map_data {σ : Type} (body : σ → Cursor → Except Err (σ × Cursor))
    (f : ItemData → ItemData) (s : σ)
    (hbody : ∀ z, body s z = .ok (s, { z with focus := .mk (f z.focus.d) z.focus.children })) :
    ∀ (fuel : Nat) (z0 z : Cursor), z.focus = z0.focus →
      List.Forall₂ (frame_mapped f) z0.ctx z.ctx → z0.after.length < fuel →
      for_each_pstree_item body fuel s z = .ok (s, z0.root.map_data f)
  | 0, z0, z, _, _, h => by omega
  | fuel + 1, z0, z, hfoc, hctx, hlen => by
    obtain ⟨foc0, ctx0⟩ := z0
    obtain ⟨foc, ctx⟩ := z
    simp only at hfoc hctx
    subst hfoc
    obtain ⟨d, cs⟩ := foc
    simp only [for_each_pstree_item, hbody, pstree_item.d, pstree_item.children]
    cases cs with
    | nil =>
      have hm : pstree_item.mk (f d) [] = (pstree_item.mk d []).map_data f := by
        simp [map_data_mk, map_data_list_nil]
      simp only [pstree_item_next]
      rw [hm]
      rcases next_up_mapped f ctx0 ctx (.mk d []) hctx with ⟨a1, a2, a3⟩ | ⟨c0, c, a1, a2, a3, a4⟩
      · simp only [a2, Cursor.root]
        rw [a3]
      · simp only [a2]
        have hn : pstree_item_next ⟨.mk d [], ctx0⟩ = some c0 := by
          simp only [pstree_item_next]
          exact a1
        obtain ⟨b1, -, b3⟩ := pstree_item_next_some _ _ hn
        have hlen1 : c0.after.length < fuel := by
          rw [b3] at hlen
          simp at hlen
          omega
        rw [for_each_map_data body f s hbody fuel c0 c a3 a4 hlen1, b1]
    | cons c cs =>
      simp only [pstree_item_next]
      have hn : pstree_item_next ⟨.mk d (c :: cs), ctx0⟩ =
          some ⟨c, { d := d, left := [], right := cs } :: ctx0⟩ := by
        simp only [pstree_item_next]
      obtain ⟨b1, -, b3⟩ := pstree_item_next_some _ _ hn
      have hlen1 : (Cursor.mk c ({ d := d, left := [], right := cs } :: ctx0)).after.length
          < fuel := by
        rw [b3] at hlen
        simp at hlen
        omega
      rw [for_each_map_data body f s hbody fuel
        ⟨c, { d := d, left := [], right := cs } :: ctx0⟩
        ⟨c, { d := f d, left := [], right := cs } :: ctx⟩ rfl
        (List.Forall₂.cons ⟨rfl, by simp [map_data_list_nil], rfl⟩ hctx) hlen1, b1]
/-- C14: with `shell_job` set, `prepare_pstree_for_shell_job` returns success with the same
tree in which every item whose `pgid` was the root's original `pgid` has `pgid` equal to the
current group id and every item whose `sid` was the root's original `sid` has `sid` equal to
the current session id, all other fields, the items and the order of their children being
unchanged, and `max_pid` raised to cover both ids and never lowered; with `shell_job` unset
the globals are returned unchanged. -/
theorem shell_job_migrator (current_sid current_gid : Int) (g : Globals) (root : pstree_item)
    (hr : g.root_item = some root) :
    prepare_pstree_for_shell_job true current_sid current_gid g =
      .ok { g with
        root_item := some (root.map_data (fun d => { d with
          pgid := if d.pgid = root.d.pgid then current_gid else d.pgid,
          sid := if d.sid = root.d.sid then current_sid else d.sid })),
        max_pid := max current_gid (max current_sid g.max_pid) } ∧
    (root.map_data (fun d => { d with
        pgid := if d.pgid = root.d.pgid then current_gid else d.pgid,
        sid := if d.sid = root.d.sid then current_sid else d.sid })).flat =
      root.flat.map (fun d => { d with
        pgid := if d.pgid = root.d.pgid then current_gid else d.pgid,
        sid := if d.sid = root.d.sid then current_sid else d.sid }) ∧
    current_sid ≤ max current_gid (max current_sid g.max_pid) ∧
    current_gid ≤ max current_gid (max current_sid g.max_pid) ∧
    g.max_pid ≤ max current_gid (max current_sid g.max_pid) ∧
    prepare_pstree_for_shell_job false current_sid current_gid g = .ok g := by
  refine ⟨?_, flat_map_data _ root, ?_, ?_, ?_, ?_⟩
  · unfold prepare_pstree_for_shell_job
    simp only [hr, Bool.true_eq_false, if_false]
    rw [for_each_map_data (shell_job_body root.d.pgid root.d.sid current_gid current_sid)
      (fun d => { d with
        pgid := if d.pgid = root.d.pgid then current_gid else d.pgid,
        sid := if d.sid = root.d.sid then current_sid else d.sid }) () ?_ root.size
      (Cursor.of_root root) (Cursor.of_root root) rfl (by simp [Cursor.of_root])
      (of_root_after_length root)]
    · simp [Cursor.of_root, Cursor.root, plug_all]
    · intro z
      simp only [shell_job_body]
      by_cases h1 : z.focus.d.pgid = root.d.pgid <;> by_cases h2 : z.focus.d.sid = root.d.sid <;>
        simp [h1, h2]
  · exact le_max_of_le_right (le_max_left _ _)
  · exact le_max_left _ _
  · exact le_max_of_le_right (le_max_right _ _)
  · simp [prepare_pstree_for_shell_job]

theorem shell_job_migrator_witness :
    ∃ g', prepare_pstree_for_shell_job true 10 11
        (sample_globals (sample_node 1 1 1 [sample_node 2 1 2 [], sample_node 3 3 1 []]) 3) =
          .ok g' ∧
      g'.max_pid = 11 ∧
      ∃ root', g'.root_item = some root' ∧
        root'.flat.map (fun d => (d.pid_virt, d.sid, d.pgid)) =
          [(1, 10, 11), (2, 10, 2), (3, 3, 11)] := by
  have h := shell_job_migrator 10 11
    (sample_globals (sample_node 1 1 1 [sample_node 2 1 2 [], sample_node 3 3 1 []]) 3)
    (sample_node 1 1 1 [sample_node 2 1 2 [], sample_node 3 3 1 []]) rfl
  refine ⟨_, h.1, by decide, _, rfl, ?_⟩
  rw [h.2.1]
  decide

/-- C15: for an item with a parent, `restore_before_setsid` returns normally, and returns
true exactly when the parent's `born_sid` equals the item's `born_sid` if that is set (not
-1) and the item's `sid` otherwise. -/
theorem restore_before_setsid_iff (child : Cursor) (parent : Frame) (rest : List Frame)
    (h : child.ctx = parent :: rest) :
    ∃ b, restore_before_setsid child = .ok b ∧
      (b = true ↔ parent.d.born_sid =
        (if child.focus.d.born_sid ≠ -1 then child.focus.d.born_sid else child.focus.d.sid)) := by
  refine ⟨decide (parent.d.born_sid =
    if child.focus.d.born_sid = -1 then child.focus.d.sid else child.focus.d.born_sid),
    by simp only [restore_before_setsid, h], ?_⟩
  by_cases hb : child.focus.d.born_sid = -1
  · simp [hb]
  · simp [hb]

theorem restore_before_setsid_iff_witness :
    restore_before_setsid ⟨sample_node 2 5 5 [],
        [{ d := { sample_item 1 1 1 with born_sid := 5 }, left := [], right := [] }]⟩ = .ok true ∧
    restore_before_setsid ⟨.mk { sample_item 2 5 5 with born_sid := 1 } [],
        [{ d := { sample_item 1 1 1 with born_sid := 5 }, left := [], right := [] }]⟩ =
      .ok false := by
  obtain ⟨b, h1, h2⟩ := restore_before_setsid_iff ⟨sample_node 2 5 5 [],
    [{ d := { sample_item 1 1 1 with born_sid := 5 }, left := [], right := [] }]⟩ _ _ rfl
  refine ⟨?_, rfl⟩
  rw [h1, h2.mpr (by decide)]

theorem group_loop_new (current_pgid : Int) (fuel : Nat) (nr nr' : Nat) (t t' : pstree_item)
    (h : for_each_pstree_item (group_leader_body current_pgid) fuel nr (Cursor.of_root t) =
      .ok (nr', t')) :
    ∃ new : List ItemData, t'.flat.Perm (new ++ t.flat) ∧ nr' = nr + new.length ∧
      (new.map ItemData.pid_virt).Nodup ∧
      ∀ x ∈ new, x.state = Kind.HELPER ∧ x.threads = [] ∧ x.pid_virt = x.pgid ∧
        x.pgid ≠ current_pgid ∧ (∀ d ∈ t.flat, d.pid_virt ≠ x.pgid) ∧
        ∃ d ∈ t.flat, d.pgid ≠ 0 ∧ d.pid_virt ≠ d.pgid ∧ x = group_helper d := by
  refine group_loop_inv current_pgid (fun n r => ∃ new : List ItemData,
      r.flat.Perm (new ++ t.flat) ∧ n = nr + new.length ∧
      (new.map ItemData.pid_virt).Nodup ∧
      ∀ x ∈ new, x.state = Kind.HELPER ∧ x.threads = [] ∧ x.pid_virt = x.pgid ∧
        x.pgid ≠ current_pgid ∧ (∀ d ∈ t.flat, d.pid_virt ≠ x.pgid) ∧
        ∃ d ∈ t.flat, d.pgid ≠ 0 ∧ d.pid_virt ≠ d.pgid ∧ x = group_helper d)
    ?_ fuel nr nr' t t' ⟨[], by simp, by simp, by simp, by simp⟩ h
  intro n z ⟨new, p1, p2, p3, p4⟩ c1 c2 c3 c4
  refine ⟨group_helper z.focus.d :: new, ?_, ?_, ?_, ?_⟩
  · exact (list_add_leaf_perm z _).trans (List.Perm.cons _ p1)
  · rw [p2]; simp; omega
  · rw [List.map_cons, List.nodup_cons]
    refine ⟨?_, p3⟩
    intro hm
    obtain ⟨d, hd, he⟩ := List.mem_map.mp hm
    exact c3 d (p1.symm.subset (List.mem_append_left _ hd)) he
  · intro x hx
    rcases List.mem_cons.mp hx with rfl | hx
    · refine ⟨rfl, rfl, rfl, fun hc => c4 hc.symm, ?_, ?_⟩
      · intro d hd
        exact c3 d (p1.symm.subset (List.mem_append_right _ hd))
      · have hf := p1.subset (focus_mem_root z)
        rcases List.mem_append.mp hf with hf | hf
        · exact absurd (p4 _ hf).2.2.1 c2
        · exact ⟨_, hf, c1, c2, rfl⟩
    · exact p4 x hx

/-- C13: the tree built from the records `(pid 1, ppid 0, sid 1, pgid 1)` and `(pid 2, ppid 1,
sid 5, pgid 5)` is repaired successfully, for any current process group, to the root with one
child, a helper with `pid.virt = sid = pgid = 5` whose only child is item 2, and `nr_helpers`
is 1; in general the last loop of `prepare_pstree_ids` adds only helpers whose `pid.virt` is
the `pgid` of an item that has no item with that `pid.virt` in the tree the loop starts
from, and no two of them have the same `pid.virt`. -/
theorem scenario_no_duplicate_helper :
    (∀ (current_sid current_gid current_pgid : Int) (th1 th2 : List Int),
      ∃ g1 g2, prepare_pstree false current_sid current_gid Globals.init
          [⟨1, 0, 1, 1, th1⟩, ⟨2, 1, 5, 5, th2⟩] = .ok g1 ∧
        prepare_pstree_ids current_pgid g1 = .ok g2 ∧
        g2.root_item = some (.mk (item_of_entry ⟨1, 0, 1, 1, th1⟩)
          [.mk { pid_virt := 5, pid_real := -1, pgid := 5, sid := 5, born_sid := -1,
                 state := Kind.HELPER, threads := [] }
            [.mk (item_of_entry ⟨2, 1, 5, 5, th2⟩) []]]) ∧
        g2.task_entries.nr_helpers = 1) ∧
    (∀ (current_pgid : Int) (fuel nr nr' : Nat) (t t' : pstree_item),
      for_each_pstree_item (group_leader_body current_pgid) fuel nr (Cursor.of_root t) =
        .ok (nr', t') →
      ∃ new : List ItemData, t'.flat.Perm (new ++ t.flat) ∧ nr' = nr + new.length ∧
        (new.map ItemData.pid_virt).Nodup ∧
        ∀ x ∈ new, x.state = Kind.HELPER ∧ x.threads = [] ∧ x.pid_virt = x.pgid ∧
          x.pgid ≠ current_pgid ∧ (∀ d ∈ t.flat, d.pid_virt ≠ x.pgid) ∧
          ∃ d ∈ t.flat, d.pgid ≠ 0 ∧ d.pid_virt ≠ d.pgid ∧ x = group_helper d) := by
  refine ⟨?_, ?_⟩
  · intro cs cg cur th1 th2
    exact ⟨_, _, rfl, rfl, rfl, rfl⟩
  · intro cur fuel nr nr' t t' h
    exact group_loop_new cur fuel nr nr' t t' h

theorem scenario_no_duplicate_helper_witness :
    ∃ g1 g2, prepare_pstree false 0 0 Globals.init
        [⟨1, 0, 1, 1, [1]⟩, ⟨2, 1, 5, 5, [2]⟩] = .ok g1 ∧
      prepare_pstree_ids 0 g1 = .ok g2 ∧ g2.task_entries.nr_helpers = 1 ∧
      ∃ root', g2.root_item = some root' ∧
        root'.flat.map (fun d => (d.pid_virt, d.state)) =
          [(1, Kind.REAL), (5, Kind.HELPER), (2, Kind.REAL)] := by
  obtain ⟨g1, g2, h1, h2, h3, h4⟩ := scenario_no_duplicate_helper.1 0 0 0 [1] [2]
  exact ⟨g1, g2, h1, h2, h4, _, h3, by decide⟩

theorem list_add_perm (z : Cursor) (x : pstree_item) :
    (z.list_add x).root.flat.Perm (x.flat ++ z.root.flat) := by
  rw [list_add_root_flat, flat_root]
  refine (List.Perm.append_left _ List.perm_middle.symm).trans ?_
  rw [← List.append_assoc, ← List.append_assoc]
  exact List.Perm.append_right _ List.perm_append_comm

theorem isolate_orphans_flat (root : pstree_item) (fuel nr : Nat)
    (children1 helpers : List pstree_item) (nr1 : Nat)
    (h : isolate_orphans root.d.sid fuel [] root.children [] nr = .ok (children1, helpers, nr1)) :
    ((pstree_item.mk root.d children1).flat ++ flat_list helpers).Perm
      (helpers.map pstree_item.d ++ root.flat) := by
  have hperm := isolate_orphans_perm _ _ _ _ _ _ _ _ _ h
  simp only [List.nil_append, List.flatMap_nil, List.append_nil] at hperm
  have e1 := flat_list_perm _ _ hperm
  rw [flat_list_append] at e1
  have e2 := flat_list_helpers_perm helpers
  rw [flat_mk, flat_eq root]
  refine (List.Perm.append_left _ e2).trans ?_
  rw [List.cons_append]
  refine List.Perm.trans ?_ List.perm_middle.symm
  refine List.Perm.cons _ ?_
  rw [← List.append_assoc]
  refine (List.Perm.append_right _ List.perm_append_comm).trans ?_
  rw [List.append_assoc]
  exact List.Perm.append_left _ e1

theorem splice_perm (t : pstree_item) (helpers : List pstree_item) :
    (pstree_item.mk t.d (helpers ++ t.children)).flat.Perm (t.flat ++ flat_list helpers) := by
  rw [flat_mk, flat_list_append, flat_eq t, List.cons_append]
  exact List.Perm.cons _ List.perm_append_comm

theorem born_upd_countP (p : ItemData → Bool) (hp : ∀ d s, p { d with born_sid := s } = p d)
    (sid : Int) (l l1 : List ItemData) (h : List.Forall₂ (born_upd sid) l l1) :
    l1.countP p = l.countP p := by
  have := born_upd_map p hp sid l l1 h
  have e1 : l1.countP p = (l1.map p).countP id := by rw [List.countP_map]; rfl
  have e2 : l.countP p = (l.map p).countP id := by rw [List.countP_map]; rfl
  rw [e1, e2, this]

/-- C20: whenever `prepare_pstree_ids` returns success on a tree without helper items,
`nr_helpers` has grown by exactly the number of helper items of the resulting tree. -/
theorem helper_counter (current_pgid : Int) (g g' : Globals) (root root' : pstree_item)
    (h : prepare_pstree_ids current_pgid g = .ok g') (hr : g.root_item = some root)
    (hr' : g'.root_item = some root')
    (hreal : ∀ d ∈ root.flat, d.state ≠ Kind.HELPER) :
    g'.task_entries.nr_helpers =
      g.task_entries.nr_helpers +
        root'.flat.countP (fun d => decide (d.state = Kind.HELPER)) := by
  obtain ⟨root0, children1, helpers, nr1, helpers2, max_pid2, root2, nr4, root4, e0, ea, eb, ed,
    rfl⟩ := prepare_pstree_ids_ok current_pgid g g' h
  rw [hr] at e0
  simp only [Option.some.injEq] at e0 hr'
  subst e0 hr'
  have hA := isolate_orphans_flat root _ _ _ _ _ ea
  obtain ⟨new, a1, a2, -, -⟩ := isolate_orphans_spec root g.task_entries.nr_helpers
  rw [a1] at ea
  simp only [Except.ok.injEq, Prod.mk.injEq] at ea
  obtain ⟨rfl, rfl, rfl⟩ := ea
  have hp : ∀ (d : ItemData) (s : Int),
      (fun d : ItemData => decide (d.state = Kind.HELPER)) { d with born_sid := s } =
        (fun d : ItemData => decide (d.state = Kind.HELPER)) d := fun _ _ => rfl
  -- after the first loop: the helpers are the new helper items
  have hcA : ((pstree_item.mk root.d (root.children.filter (stays root.d.sid))).flat ++
      flat_list new).countP (fun d => decide (d.state = Kind.HELPER)) = new.length := by
    rw [hA.countP_eq, List.countP_append]
    have h1 : root.flat.countP (fun d => decide (d.state = Kind.HELPER)) = 0 := by
      rw [List.countP_eq_zero]
      intro d hd
      simpa using hreal d hd
    have h2 : (new.map pstree_item.d).countP (fun d => decide (d.state = Kind.HELPER)) =
        new.length := by
      rw [List.countP_eq_length.mpr, List.length_map]
      intro d hd
      obtain ⟨x, hx, rfl⟩ := List.mem_map.mp hd
      rw [(a2 x hx).1]
      rfl
    rw [h1, h2, Nat.add_zero]
  -- the second loop keeps the number of helpers of the tree and the pending list together
  have hB := connect_loop_inv
    (fun st t => (t.flat ++ flat_list st.1).countP (fun d => decide (d.state = Kind.HELPER)) =
      new.length) ?_ ?_ _ _ _ _ _ hcA eb
  · simp only at hB
    obtain ⟨newD, d1, d2, -, d4⟩ := group_loop_new current_pgid _ _ _ _ _ ed
    simp only
    rw [d2, d1.countP_eq, List.countP_append, (splice_perm root2 helpers2).countP_eq, hB,
      List.countP_eq_length.mpr]
    · omega
    · intro x hx
      simpa using (d4 x hx).1
  · intro st z ctx1 hI hu
    rw [List.countP_append, born_upd_countP _ hp _ _ _ (root_flat_frame_upd _ z ctx1 hu),
      ← List.countP_append]
    exact hI
  · intro st z child helpers1 hI _ _ _ ht
    obtain ⟨pre, post, e1, e2, -, -⟩ := take_helper_some _ _ _ _ ht
    rw [e1] at hI
    rw [← hI]
    simp only [e2, List.countP_append, (list_add_perm z _).countP_eq, flat_list_append,
      flat_list_cons, renumber_helper, flat_mk, flat_eq child, List.countP_cons]
    omega

theorem helper_counter_witness :
    ∃ g' root', prepare_pstree_ids 0 (sample_globals
        (sample_node 1 1 1 [sample_node 2 2 2 [], sample_node 3 2 7 []]) 7) = .ok g' ∧
      g'.root_item = some root' ∧ g'.task_entries.nr_helpers = 2 ∧
      root'.flat.countP (fun d => decide (d.state = Kind.HELPER)) = 2 := by
  refine ⟨_, _, rfl, rfl, ?_, by decide⟩
  have h := helper_counter 0 (sample_globals
    (sample_node 1 1 1 [sample_node 2 2 2 [], sample_node 3 2 7 []]) 7) _ _ _ rfl rfl rfl
    (by decide)
  rw [h]
  decide

theorem prepare_pstree_step_max (st st1 : Globals × Option Cursor) (e : PstreeEntry)
    (h : prepare_pstree_step st e = .ok st1) :
    st1.1.max_pid = max e.sid (max e.pgid (max e.pid st.1.max_pid)) := by
  unfold prepare_pstree_step at h
  simp only at h
  split_ifs at h with h0
  · cases hr : st.1.root_item with
    | none =>
      rw [hr] at h
      simp only [Except.ok.injEq] at h
      rw [← h]
    | some r => rw [hr] at h; simp at h
  · cases hf : find_parent e.ppid st.1.root_item st.2 with
    | error err => rw [hf] at h; simp at h
    | ok p =>
      cases p with
      | none => rw [hf] at h; simp at h
      | some parent =>
        rw [hf] at h
        simp only [Except.ok.injEq] at h
        rw [← h]

theorem prepare_pstree_loop_max : ∀ (image : List PstreeEntry) (st st' : Globals × Option Cursor),
    prepare_pstree_loop st image = .ok st' →
    st.1.max_pid ≤ st'.1.max_pid ∧
      ∀ e ∈ image, e.pid ≤ st'.1.max_pid ∧ e.pgid ≤ st'.1.max_pid ∧ e.sid ≤ st'.1.max_pid
  | [], st, st', h => by
    simp only [prepare_pstree_loop, Except.ok.injEq] at h
    subst h
    exact ⟨le_refl _, by simp⟩
  | e :: es, st, st', h => by
    simp only [prepare_pstree_loop] at h
    cases hs : prepare_pstree_step st e with
    | error err => rw [hs] at h; simp at h
    | ok st1 =>
      rw [hs] at h
      simp only at h
      have hm := prepare_pstree_step_max st st1 e hs
      obtain ⟨h1, h2⟩ := prepare_pstree_loop_max es st1 st' h
      have b1 : e.sid ≤ st1.1.max_pid := by rw [hm]; exact le_max_left _ _
      have b2 : e.pgid ≤ st1.1.max_pid := by
        rw [hm]; exact le_max_of_le_right (le_max_left _ _)
      have b3 : e.pid ≤ st1.1.max_pid := by
        rw [hm]; exact le_max_of_le_right (le_max_of_le_right (le_max_left _ _))
      have b4 : st.1.max_pid ≤ st1.1.max_pid := by
        rw [hm]; exact le_max_of_le_right (le_max_of_le_right (le_max_right _ _))
      refine ⟨le_trans b4 h1, ?_⟩
      intro e' he'
      rcases List.mem_cons.mp he' with rfl | he'
      · exact ⟨le_trans b3 h1, le_trans b2 h1, le_trans b1 h1⟩
      · exact h2 e' he'

theorem built_items (g g1 : Globals) (c : Option Cursor) (image : List PstreeEntry)
    (root : pstree_item) (hg : g.root_item = none)
    (h : prepare_pstree_loop (g, none) image = .ok (g1, c)) (hr : g1.root_item = some root) :
    ∀ d ∈ root.flat, ∃ e ∈ image, d = item_of_entry e := by
  cases image with
  | nil =>
    simp only [prepare_pstree_loop, Except.ok.injEq, Prod.mk.injEq] at h
    rw [← h.1, hg] at hr
    simp at hr
  | cons e0 rest =>
    simp only [prepare_pstree_loop] at h
    rcases step_of_none g e0 hg with ⟨-, g0, e1, e2⟩ | ⟨-, e1⟩
    · simp only [e1] at h
      have hroot : g0.root_item = some (Cursor.of_root (.mk (item_of_entry e0) [])).root := by
        simpa [Cursor.of_root, Cursor.root, plug_all] using e2
      obtain ⟨cur', -, c2, -, -, c5, -⟩ := loop_of_some_ok rest g0 _ (g1, c) hroot h
      simp only at c2
      rw [hr] at c2
      simp only [Option.some.injEq] at c2
      subst c2
      intro d hd
      rcases (c5 d).mp hd with hd | ⟨e, he, rfl⟩
      · simp only [Cursor.of_root, Cursor.root, plug_all, flat_mk, flat_list_nil,
          List.mem_singleton] at hd
        exact ⟨e0, List.mem_cons_self _ _, hd⟩
      · exact ⟨e, List.mem_cons_of_mem _ he, rfl⟩
    · simp [e1] at h

theorem prepare_pstree_for_shell_job_ok (current_sid current_gid : Int) (g : Globals)
    (root : pstree_item) (hr : g.root_item = some root) :
    prepare_pstree_for_shell_job true current_sid current_gid g =
      .ok { g with
        root_item := some (root.map_data (fun d => { d with
          pgid := if d.pgid = root.d.pgid then current_gid else d.pgid,
          sid := if d.sid = root.d.sid then current_sid else d.sid })),
        max_pid := max current_gid (max current_sid g.max_pid) } := by
  unfold prepare_pstree_for_shell_job
  simp only [hr, Bool.true_eq_false, if_false]
  rw [for_each_map_data (shell_job_body root.d.pgid root.d.sid current_gid current_sid)
    (fun d => { d with
      pgid := if d.pgid = root.d.pgid then current_gid else d.pgid,
      sid := if d.sid = root.d.sid then current_sid else d.sid }) () ?_ root.size
    (Cursor.of_root root) (Cursor.of_root root) rfl (by simp [Cursor.of_root])
    (of_root_after_length root)]
  · simp [Cursor.of_root, Cursor.root, plug_all]
  · intro z
    simp only [shell_job_body]
    by_cases h1 : z.focus.d.pgid = root.d.pgid <;> by_cases h2 : z.focus.d.sid = root.d.sid <;>
      simp [h1, h2]

theorem prepare_pstree_max (shell_job : Bool) (current_sid current_gid : Int) (g g' : Globals)
    (image : List PstreeEntry)
    (h : prepare_pstree shell_job current_sid current_gid g image = .ok g') :
    g.max_pid ≤ g'.max_pid ∧
    (∀ e ∈ image, e.pid ≤ g'.max_pid ∧ e.pgid ≤ g'.max_pid ∧ e.sid ≤ g'.max_pid) ∧
    (shell_job = true → current_sid ≤ g'.max_pid ∧ current_gid ≤ g'.max_pid) ∧
    (g.root_item = none → ∀ root', g'.root_item = some root' →
      ∀ d ∈ root'.flat, d.pid_virt ≤ g'.max_pid ∧ d.pgid ≤ g'.max_pid ∧ d.sid ≤ g'.max_pid) := by
  unfold prepare_pstree at h
  cases hl : prepare_pstree_loop (g, none) image with
  | error err => rw [hl] at h; simp at h
  | ok st =>
    obtain ⟨g1, c⟩ := st
    rw [hl] at h
    simp only at h
    obtain ⟨m1, m2⟩ := prepare_pstree_loop_max image _ _ hl
    simp only at m1 m2
    have hitems : g.root_item = none → ∀ root, g1.root_item = some root →
        ∀ d ∈ root.flat, d.pid_virt ≤ g1.max_pid ∧ d.pgid ≤ g1.max_pid ∧ d.sid ≤ g1.max_pid := by
      intro hg root hr d hd
      obtain ⟨e, he, rfl⟩ := built_items g g1 c image root hg hl hr d hd
      exact m2 e he
    cases shell_job with
    | false =>
      simp only [prepare_pstree_for_shell_job, if_true, Except.ok.injEq] at h
      subst h
      exact ⟨m1, m2, by simp, hitems⟩
    | true =>
      cases hr : g1.root_item with
      | none => simp [prepare_pstree_for_shell_job, hr] at h
      | some root =>
        rw [prepare_pstree_for_shell_job_ok current_sid current_gid g1 root hr] at h
        simp only [Except.ok.injEq] at h
        subst h
        simp only
        have k1 : g1.max_pid ≤ max current_gid (max current_sid g1.max_pid) :=
          le_max_of_le_right (le_max_right _ _)
        have k2 : current_sid ≤ max current_gid (max current_sid g1.max_pid) :=
          le_max_of_le_right (le_max_left _ _)
        have k3 : current_gid ≤ max current_gid (max current_sid g1.max_pid) :=
          le_max_left _ _
        refine ⟨le_trans m1 k1, ?_, fun _ => ⟨k2, k3⟩, ?_⟩
        · intro e he
          obtain ⟨a, b, c'⟩ := m2 e he
          exact ⟨le_trans a k1, le_trans b k1, le_trans c' k1⟩
        · intro hg root' hr' d hd
          simp only [Option.some.injEq] at hr'
          subst hr'
          rw [flat_map_data] at hd
          obtain ⟨d0, hd0, rfl⟩ := List.mem_map.mp hd
          obtain ⟨a, b, c'⟩ := hitems hg root hr d0 hd0
          refine ⟨le_trans a k1, ?_, ?_⟩
          · simp only
            split_ifs
            · exact k3
            · exact le_trans b k1
          · simp only
            split_ifs
            · exact k2
            · exact le_trans c' k1

theorem pids_above_append (m0 : Int) (a b : List ItemData) :
    pids_above m0 (a ++ b) = pids_above m0 a ++ pids_above m0 b := by
  simp [pids_above]

theorem pids_above_perm (m0 : Int) (a b : List ItemData) (h : a.Perm b) :
    (pids_above m0 a).Perm (pids_above m0 b) :=
  (h.map _).filter _

theorem pids_above_of_le (m0 : Int) (l : List ItemData) (h : ∀ d ∈ l, d.pid_virt ≤ m0) :
    pids_above m0 l = [] := by
  simp only [pids_above, List.filter_eq_nil_iff, List.mem_map, decide_eq_true_eq]
  rintro p ⟨d, hd, rfl⟩
  have := h d hd
  omega

theorem mem_pids_above (m0 : Int) (l : List ItemData) (p : Int) :
    p ∈ pids_above m0 l ↔ ∃ d ∈ l, d.pid_virt = p ∧ m0 < p := by
  simp only [pids_above, List.mem_filter, List.mem_map, decide_eq_true_eq]
  constructor
  · rintro ⟨⟨d, hd, rfl⟩, h⟩
    exact ⟨d, hd, rfl, h⟩
  · rintro ⟨d, hd, rfl, h⟩
    exact ⟨⟨d, hd, rfl⟩, h⟩

theorem pids_above_born_upd (m0 sid : Int) (l l1 : List ItemData)
    (h : List.Forall₂ (born_upd sid) l l1) : pids_above m0 l1 = pids_above m0 l := by
  simp only [pids_above, born_upd_map ItemData.pid_virt (fun _ _ => rfl) sid l l1 h]

theorem born_upd_ids (sid : Int) (d d1 : ItemData) (h : born_upd sid d d1) :
    d1.pid_virt = d.pid_virt ∧ d1.pgid = d.pgid ∧ d1.sid = d.sid ∧ d1.state = d.state ∧
      d1.threads = d.threads := by
  rcases h with rfl | ⟨-, rfl⟩
  · exact ⟨rfl, rfl, rfl, rfl, rfl⟩
  · exact ⟨rfl, rfl, rfl, rfl, rfl⟩

theorem new_helpers_length (root : pstree_item) (new : List pstree_item)
    (a2 : ∀ h ∈ new, ∃ c ∈ root.children, c.d.sid = h.d.sid)
    (a4 : (new.map (fun h => h.d.sid)).Nodup) : new.length ≤ root.children.length := by
  have hs : new.map (fun h => h.d.sid) ⊆ root.children.map (fun c => c.d.sid) := by
    intro p hp
    obtain ⟨h, hh, rfl⟩ := List.mem_map.mp hp
    obtain ⟨c, hc, hsid⟩ := a2 h hh
    exact List.mem_map.mpr ⟨c, hc, hsid⟩
  have := (List.subperm_of_subset a4 hs).length_le
  simpa using this

theorem connect_loop_fresh (m0 : Int) (fuel : Nat) (s s' : List pstree_item × Int)
    (t t' : pstree_item) (hm : s.2 = m0) (hlow : -2147483648 ≤ m0)
    (ht : ∀ d ∈ t.flat, ids_le m0 d) (hs : ∀ d ∈ flat_list s.1, ids_le m0 d)
    (hovf : m0 + s.1.length < 2147483648)
    (h : for_each_pstree_item connect_body fuel s (Cursor.of_root t) = .ok (s', t')) :
    (∀ d ∈ t'.flat, ids_le m0 d ∨ renumbered m0 s'.2 d) ∧
    (∀ d ∈ flat_list s'.1, ids_le m0 d) ∧
    s'.2 = m0 + (pids_above m0 t'.flat).length ∧ (pids_above m0 t'.flat).Nodup := by
  have hB := connect_loop_inv
    (fun st r =>
      (∀ d ∈ r.flat, ids_le m0 d ∨ renumbered m0 st.2 d) ∧
      (∀ d ∈ flat_list st.1, ids_le m0 d) ∧
      st.2 = m0 + (pids_above m0 r.flat).length ∧ (pids_above m0 r.flat).Nodup ∧
      st.2 + st.1.length < 2147483648)
    ?_ ?_ fuel s s' t t' ?_ h
  · exact ⟨hB.1, hB.2.1, hB.2.2.1, hB.2.2.2.1⟩
  · intro st z ctx1 hI hu
    have hf := root_flat_frame_upd _ z ctx1 hu
    obtain ⟨i1, i2, i3, i4, i5⟩ := hI
    refine ⟨?_, i2, ?_, ?_, i5⟩
    · intro d1 hd1
      obtain ⟨d, hd, hup⟩ := forall₂_mem_right _ _ _ hf d1 hd1
      obtain ⟨u1, u2, u3, u4, -⟩ := born_upd_ids _ _ _ hup
      rcases i1 d hd with c | c
      · left
        unfold ids_le at c ⊢
        rw [u1, u2, u3]
        exact c
      · right
        unfold renumbered at c ⊢
        rw [u1, u2, u3, u4]
        exact c
    · rw [pids_above_born_upd m0 _ _ _ hf]
      exact i3
    · rw [pids_above_born_upd m0 _ _ _ hf]
      exact i4
  · intro st z child helpers1 hI _ _ _ htk
    obtain ⟨pre, post, e1, e2, e3, -⟩ := take_helper_some _ _ _ _ htk
    obtain ⟨i1, i2, i3, i4, i5⟩ := hI
    have hlen1 : st.1.length = helpers1.length + 1 := by
      rw [e1, e2]; simp; omega
    have hge : m0 ≤ st.2 := by rw [i3]; omega
    have hw : wrap32 (st.2 + 1) = st.2 + 1 := wrap32_eq _ (by omega) (by omega)
    have hchild : ∀ d ∈ child.flat, ids_le m0 d := by
      intro d hd
      apply i2
      rw [e1, flat_list_append, flat_list_cons]
      exact List.mem_append_right _ (List.mem_append_left _ hd)
    have hfocus : z.focus.d.pgid ≤ m0 := by
      rcases i1 _ (focus_mem_root z) with c | c
      · exact c.2.1
      · exact c.2.2.2.1
    simp only [hw]
    have hperm := list_add_perm z (renumber_helper child z.focus.d.pgid (st.2 + 1))
    have hkids : pids_above m0 (flat_list child.children) = [] := by
      apply pids_above_of_le
      intro d hd
      exact (hchild d (by rw [flat_eq child]; exact List.mem_cons_of_mem _ hd)).1
    have hpa : (pids_above m0 (z.list_add
        (renumber_helper child z.focus.d.pgid (st.2 + 1))).root.flat).Perm
        ((st.2 + 1) :: pids_above m0 z.root.flat) := by
      refine (pids_above_perm m0 _ _ hperm).trans ?_
      rw [pids_above_append, renumber_helper, flat_mk]
      have : pids_above m0
          ({ child.d with pgid := z.focus.d.pgid, pid_virt := st.2 + 1 } ::
            flat_list child.children) = [st.2 + 1] := by
        have hc : pids_above m0
            ({ child.d with pgid := z.focus.d.pgid, pid_virt := st.2 + 1 } ::
              flat_list child.children) =
            pids_above m0 [{ child.d with pgid := z.focus.d.pgid, pid_virt := st.2 + 1 }] ++
              pids_above m0 (flat_list child.children) := by
          rw [← pids_above_append]; rfl
        rw [hc, hkids, List.append_nil]
        simp only [pids_above, List.map_cons, List.map_nil]
        rw [List.filter_cons_of_pos (by simp; omega)]
        rfl
      rw [this]
      rfl
    refine ⟨?_, ?_, ?_, ?_, ?_⟩
    · intro d hd
      rcases List.mem_append.mp (hperm.subset hd) with hd | hd
      · rw [renumber_helper, flat_mk, List.mem_cons] at hd
        rcases hd with rfl | hd
        · right
          refine ⟨e3, ?_, ?_, hfocus, ?_⟩
          · show m0 < st.2 + 1
            omega
          · show st.2 + 1 ≤ st.2 + 1
            omega
          · exact (hchild child.d (by rw [flat_eq child]; exact List.mem_cons_self _ _)).2.2
        · left
          exact hchild d (by rw [flat_eq child]; exact List.mem_cons_of_mem _ hd)
      · rcases i1 d hd with c | c
        · exact Or.inl c
        · right
          refine ⟨c.1, c.2.1, ?_, c.2.2.2⟩
          have := c.2.2.1
          omega
    · intro d hd
      apply i2
      rw [e1, flat_list_append, flat_list_cons]
      rw [e2, flat_list_append] at hd
      rcases List.mem_append.mp hd with hd | hd
      · exact List.mem_append_left _ hd
      · exact List.mem_append_right _ (List.mem_append_right _ hd)
    · rw [hpa.length_eq, List.length_cons, i3]
      push_cast
      omega
    · rw [hpa.nodup_iff, List.nodup_cons]
      refine ⟨?_, i4⟩
      intro hmem
      obtain ⟨d, hd, hp, hgt⟩ := (mem_pids_above m0 _ _).mp hmem
      rcases i1 d hd with c | c
      · have := c.1; omega
      · have := c.2.2.1; omega
    · omega
  · refine ⟨fun d hd => Or.inl (ht d hd), hs, ?_, ?_, ?_⟩
    · rw [pids_above_of_le m0 _ (fun d hd => (ht d hd).1), hm]
      simp
    · rw [pids_above_of_le m0 _ (fun d hd => (ht d hd).1)]
      exact List.nodup_nil
    · rw [hm]; exact hovf
theorem repair_fresh (current_pgid : Int) (g g' : Globals) (root root' : pstree_item)
    (h : prepare_pstree_ids current_pgid g = .ok g') (hr : g.root_item = some root)
    (hr' : g'.root_item = some root')
    (hids : ∀ d ∈ root.flat, ids_le g.max_pid d)
    (hlow : -2147483648 ≤ g.max_pid)
    (hovf : g.max_pid + root.children.length < 2147483648) :
    (∀ d ∈ root'.flat, ids_le g.max_pid d ∨ renumbered g.max_pid g'.max_pid d) ∧
    (pids_above g.max_pid root'.flat).Nodup ∧
    g'.max_pid = g.max_pid + (pids_above g.max_pid root'.flat).length := by
  obtain ⟨root0, children1, helpers, nr1, helpers2, max_pid2, root2, nr4, root4, e0, ea, eb, ed,
    rfl⟩ := prepare_pstree_ids_ok current_pgid g g' h
  rw [hr] at e0
  simp only [Option.some.injEq] at e0 hr'
  subst e0 hr'
  obtain ⟨new, a1, a2, a3, a4⟩ := isolate_orphans_spec root g.task_entries.nr_helpers
  rw [a1] at ea
  simp only [Except.ok.injEq, Prod.mk.injEq] at ea
  obtain ⟨rfl, rfl, rfl⟩ := ea
  have hsub : ∀ d ∈ (pstree_item.mk root.d (root.children.filter (stays root.d.sid))).flat,
      d ∈ root.flat := by
    intro d hd
    rw [flat_mk, List.mem_cons] at hd
    rw [flat_eq root, List.mem_cons]
    rcases hd with hd | hd
    · exact Or.inl hd
    · obtain ⟨c, hc, hdc⟩ := (mem_flat_list d _).mp hd
      exact Or.inr ((mem_flat_list d _).mpr ⟨c, (List.mem_filter.mp hc).1, hdc⟩)
  have hchild : ∀ c ∈ root.children, ∀ d ∈ c.flat, d ∈ root.flat := by
    intro c hc d hd
    rw [flat_eq root]
    exact List.mem_cons_of_mem _ ((mem_flat_list d _).mpr ⟨c, hc, hd⟩)
  have hlen : new.length ≤ root.children.length :=
    new_helpers_length root new (fun x hx => by
      obtain ⟨-, -, ⟨c, hc, -, hsid⟩, -⟩ := a2 x hx
      exact ⟨c, hc, hsid⟩) a4
  have hnew : ∀ d ∈ flat_list new, ids_le g.max_pid d := by
    intro d hd
    obtain ⟨x, hx, hdx⟩ := (mem_flat_list d _).mp hd
    obtain ⟨c1, -, ⟨c, hc, -, hsid⟩, c4⟩ := a2 x hx
    rw [flat_eq x, List.mem_cons] at hdx
    rcases hdx with rfl | hdx
    · have hc' := (hids c.d (hchild c hc c.d (by rw [flat_eq c]; exact List.mem_cons_self _ _))).2.2
      rw [hsid] at hc'
      unfold ids_le
      rw [c1]
      exact ⟨hc', hc', hc'⟩
    · obtain ⟨y, hy, hdy⟩ := (mem_flat_list d _).mp hdx
      exact hids d (hchild y (c4 y hy).1 d hdy)
  obtain ⟨b1, b2, b3, b4⟩ := connect_loop_fresh g.max_pid _ (new, g.max_pid) (helpers2, max_pid2)
    _ root2 rfl hlow (fun d hd => hids d (hsub d hd)) hnew (by simp only; omega) eb
  simp only at b1 b2 b3 b4
  -- the splice
  have hC := splice_perm root2 helpers2
  have hpC : (pids_above g.max_pid (pstree_item.mk root2.d (helpers2 ++ root2.children)).flat).Perm
      (pids_above g.max_pid root2.flat) := by
    refine (pids_above_perm _ _ _ hC).trans ?_
    rw [pids_above_append, pids_above_of_le g.max_pid (flat_list helpers2)
      (fun d hd => (b2 d hd).1), List.append_nil]
  have hiC : ∀ d ∈ (pstree_item.mk root2.d (helpers2 ++ root2.children)).flat,
      ids_le g.max_pid d ∨ renumbered g.max_pid max_pid2 d := by
    intro d hd
    rcases List.mem_append.mp (hC.subset hd) with hd | hd
    · exact b1 d hd
    · exact Or.inl (b2 d hd)
  -- the last loop
  obtain ⟨newD, d1, -, -, d4⟩ := group_loop_new current_pgid _ _ _ _ _ ed
  have hnewD : ∀ x ∈ newD, ids_le g.max_pid x := by
    intro x hx
    obtain ⟨-, -, -, -, -, d, hd, -, -, rfl⟩ := d4 x hx
    have : d.pgid ≤ g.max_pid ∧ d.sid ≤ g.max_pid := by
      rcases hiC d hd with c | c
      · exact ⟨c.2.1, c.2.2⟩
      · exact ⟨c.2.2.2.1, c.2.2.2.2⟩
    exact ⟨this.1, this.1, this.2⟩
  have hpD : (pids_above g.max_pid root4.flat).Perm (pids_above g.max_pid root2.flat) := by
    refine (pids_above_perm _ _ _ d1).trans ?_
    rw [pids_above_append, pids_above_of_le g.max_pid newD (fun d hd => (hnewD d hd).1),
      List.nil_append]
    exact hpC
  refine ⟨?_, hpD.nodup_iff.mpr b4, ?_⟩
  · intro d hd
    rcases List.mem_append.mp (d1.subset hd) with hd | hd
    · exact Or.inl (hnewD d hd)
    · exact hiC d hd
  · simp only
    rw [hpD.length_eq]
    exact b3

/-- C17: after a successful `prepare_pstree`, `max_pid` is at least its previous value and at
least the `pid`, `pgid` and `sid` of every record read (hence of every item of the tree), and
with `shell_job` set at least the current session and group ids. The second loop of
`prepare_pstree_ids` changes a `pid.virt` only by giving a pending helper the value of
`++max_pid`. Hence, when all ids of the tree are at most `max_pid` and `max_pid` plus the
number of children of the root does not overflow 32 bits, after a successful
`prepare_pstree_ids` every item either has all its ids at most the old `max_pid` (every
non-helper item and every helper of the first and last loop) or is a helper with a `pid.virt`
above it; the latter are as many as `max_pid` was incremented, their `pid.virt` are pairwise
distinct and strictly greater than every id of every other item. -/
theorem fresh_pids :
    (∀ (shell_job : Bool) (current_sid current_gid : Int) (g g' : Globals)
        (image : List PstreeEntry),
      prepare_pstree shell_job current_sid current_gid g image = .ok g' →
      g.max_pid ≤ g'.max_pid ∧
      (∀ e ∈ image, e.pid ≤ g'.max_pid ∧ e.pgid ≤ g'.max_pid ∧ e.sid ≤ g'.max_pid) ∧
      (shell_job = true → current_sid ≤ g'.max_pid ∧ current_gid ≤ g'.max_pid) ∧
      (g.root_item = none → ∀ root', g'.root_item = some root' →
        ∀ d ∈ root'.flat, ids_le g'.max_pid d)) ∧
    (∀ (s s1 : List pstree_item × Int) (z z1 : Cursor), connect_body s z = .ok (s1, z1) →
      (s1 = s ∧ z1.focus = z.focus) ∨
      ∃ child helpers1, take_helper z.focus.d.sid s.1 = some (child, helpers1) ∧
        s1 = (helpers1, wrap32 (s.2 + 1)) ∧
        z1 = z.list_add (renumber_helper child z.focus.d.pgid (wrap32 (s.2 + 1)))) ∧
    (∀ (current_pgid : Int) (g g' : Globals) (root root' : pstree_item),
      prepare_pstree_ids current_pgid g = .ok g' → g.root_item = some root →
      g'.root_item = some root' → (∀ d ∈ root.flat, ids_le g.max_pid d) →
      -2147483648 ≤ g.max_pid → g.max_pid + root.children.length < 2147483648 →
      (∀ d ∈ root'.flat, ids_le g.max_pid d ∨ renumbered g.max_pid g'.max_pid d) ∧
      (∀ d ∈ root'.flat, d.state ≠ Kind.HELPER → ids_le g.max_pid d) ∧
      (pids_above g.max_pid root'.flat).Nodup ∧
      g'.max_pid = g.max_pid + (pids_above g.max_pid root'.flat).length ∧
      (∀ b ∈ root'.flat, g.max_pid < b.pid_virt → b.state = Kind.HELPER ∧
        ∀ d ∈ root'.flat, d.pid_virt ≤ g.max_pid →
          d.pid_virt < b.pid_virt ∧ d.pgid < b.pid_virt ∧ d.sid < b.pid_virt)) := by
  refine ⟨?_, ?_, ?_⟩
  · intro sj cs cg g g' image h
    exact prepare_pstree_max sj cs cg g g' image h
  · intro s s1 z z1 h
    rcases connect_body_cases s z with ⟨e, -⟩ | ⟨parent, rest, -, -, -, -, hw⟩ |
      ⟨child, helpers1, -, -, -, c4, e⟩
    · rw [e] at h
      simp only [Except.ok.injEq, Prod.mk.injEq] at h
      exact Or.inl ⟨h.1.symm, by rw [← h.2]⟩
    · rcases hw with ⟨ctx1, -, e⟩ | ⟨e', -, e⟩
      · rw [e] at h
        simp only [Except.ok.injEq, Prod.mk.injEq] at h
        exact Or.inl ⟨h.1.symm, by rw [← h.2]⟩
      · rw [e] at h; simp at h
    · rw [e] at h
      simp only [Except.ok.injEq, Prod.mk.injEq] at h
      exact Or.inr ⟨child, helpers1, c4, h.1.symm, h.2.symm⟩
  · intro cur g g' root root' h hr hr' hids hlow hovf
    obtain ⟨r1, r2, r3⟩ := repair_fresh cur g g' root root' h hr hr' hids hlow hovf
    have hreal : ∀ d ∈ root'.flat, d.state ≠ Kind.HELPER → ids_le g.max_pid d := by
      intro d hd hs
      rcases r1 d hd with c | c
      · exact c
      · exact absurd c.1 hs
    refine ⟨r1, hreal, r2, r3, ?_⟩
    intro b hb hgt
    have hbh : b.state = Kind.HELPER := by
      by_contra hs
      have := (hreal b hb hs).1
      omega
    refine ⟨hbh, ?_⟩
    intro d hd hle
    rcases r1 d hd with c | c
    · obtain ⟨c1, c2, c3⟩ := c
      omega
    · have := c.2.1
      omega

theorem fresh_pids_witness :
    (∃ g1, prepare_pstree false 0 0 Globals.init
        [⟨1, 0, 1, 1, [1]⟩, ⟨2, 1, 2, 2, [2]⟩, ⟨3, 1, 7, 2, [3]⟩] = .ok g1 ∧ g1.max_pid = 7) ∧
    ∃ g2 root', prepare_pstree_ids 0 (sample_globals
        (sample_node 1 1 1 [sample_node 2 2 2 [], sample_node 3 2 7 []]) 7) = .ok g2 ∧
      g2.root_item = some root' ∧ g2.max_pid = 8 ∧ pids_above 7 root'.flat = [8] ∧
      ∀ d ∈ root'.flat, d.state ≠ Kind.HELPER → ids_le 7 d := by
  refine ⟨⟨_, rfl, rfl⟩, _, _, rfl, rfl, rfl, by decide, ?_⟩
  exact (fresh_pids.2.2 0 (sample_globals
      (sample_node 1 1 1 [sample_node 2 2 2 [], sample_node 3 2 7 []]) 7) _
      (sample_node 1 1 1 [sample_node 2 2 2 [], sample_node 3 2 7 []]) _ rfl rfl rfl (by
      intro d hd
      have : d.pid_virt ≤ 7 ∧ d.pgid ≤ 7 ∧ d.sid ≤ 7 := by
        revert d
        decide
      exact this) (by decide) (by decide)).2.1

theorem plug_all_append (t : pstree_item) (a b : List Frame) :
    plug_all t (a ++ b) = plug_all (plug_all t a) b := by
  induction a generalizing t with
  | nil => rfl
  | cons f fs ih => simp [plug_all, ih]

theorem plug_all_snoc (t : pstree_item) (a : List Frame) (fr : Frame) :
    plug_all t (a ++ [fr]) = .mk fr.d (fr.left ++ plug_all t a :: fr.right) := by
  rw [plug_all_append]
  rfl

theorem mem_plug_all (t : pstree_item) (ctx : List Frame) : t.d ∈ (plug_all t ctx).flat := by
  rw [flat_plug_all, flat_eq t]
  simp

theorem split_unique : ∀ (L1 L2 : List pstree_item) (S1 S2 : pstree_item)
    (R1 R2 : List pstree_item) (x1 x2 : ItemData),
    L1 ++ S1 :: R1 = L2 ++ S2 :: R2 → x1 ∈ S1.flat → x2 ∈ S2.flat →
    x1.pid_virt = x2.pid_virt → ((flat_list (L1 ++ S1 :: R1)).map ItemData.pid_virt).Nodup →
    L1 = L2 ∧ S1 = S2 ∧ R1 = R2
  | [], [], S1, S2, R1, R2, x1, x2, h, _, _, _, _ => by
    simp only [List.nil_append, List.cons.injEq] at h
    exact ⟨rfl, h.1, h.2⟩
  | [], a :: L2, S1, S2, R1, R2, x1, x2, h, h1, h2, hp, hn => by
    exfalso
    simp only [List.nil_append, List.cons_append, List.cons.injEq] at h
    obtain ⟨rfl, rfl⟩ := h
    simp only [List.nil_append, flat_list_cons, flat_list_append, List.map_append,
      List.nodup_append] at hn
    refine hn.2.2 (List.mem_map.mpr ⟨x1, h1, rfl⟩) ?_
    rw [hp]
    exact List.mem_append_right _ (List.mem_append_left _ (List.mem_map.mpr ⟨x2, h2, rfl⟩))
  | a :: L1, [], S1, S2, R1, R2, x1, x2, h, h1, h2, hp, hn => by
    exfalso
    simp only [List.nil_append, List.cons_append, List.cons.injEq] at h
    obtain ⟨rfl, rfl⟩ := h
    simp only [List.cons_append, flat_list_cons, flat_list_append, List.map_append,
      List.nodup_append] at hn
    refine hn.2.2 (List.mem_map.mpr ⟨x2, h2, rfl⟩) ?_
    rw [← hp]
    exact List.mem_append_right _ (List.mem_append_left _ (List.mem_map.mpr ⟨x1, h1, rfl⟩))
  | a :: L1, b :: L2, S1, S2, R1, R2, x1, x2, h, h1, h2, hp, hn => by
    simp only [List.cons_append, List.cons.injEq] at h
    obtain ⟨rfl, h⟩ := h
    simp only [List.cons_append, flat_list_cons, List.map_append, List.nodup_append] at hn
    obtain ⟨e1, e2, e3⟩ := split_unique L1 L2 S1 S2 R1 R2 x1 x2 h h1 h2 hp hn.2.1
    exact ⟨by rw [e1], e2, e3⟩

theorem nil_or_snoc {α : Type} (l : List α) : l = [] ∨ ∃ a b, l = a ++ [b] := by
  rcases List.eq_nil_or_concat l with h | ⟨a, b, h⟩
  · exact Or.inl h
  · exact Or.inr ⟨a, b, by rw [h, List.concat_eq_append]⟩

theorem plug_all_unique : ∀ (n : Nat) (ctx1 ctx2 : List Frame) (t1 t2 : pstree_item),
    ctx1.length ≤ n → plug_all t1 ctx1 = plug_all t2 ctx2 →
    ((plug_all t1 ctx1).flat.map ItemData.pid_virt).Nodup →
    t1.d.pid_virt = t2.d.pid_virt → t1 = t2 ∧ ctx1 = ctx2 := by
  intro n
  induction n with
  | zero =>
    intro ctx1 ctx2 t1 t2 hlen h hn hp
    have hc1 : ctx1 = [] := List.length_eq_zero.mp (Nat.le_zero.mp hlen)
    subst hc1
    rcases nil_or_snoc ctx2 with rfl | ⟨c2, fr, rfl⟩
    · exact ⟨h, rfl⟩
    · exfalso
      rw [plug_all_snoc] at h
      simp only [plug_all] at h hn
      rw [h, flat_mk, flat_list_append, flat_list_cons, List.map_cons, List.nodup_cons] at hn
      apply hn.1
      have hd : t1.d = fr.d := by rw [h]; rfl
      rw [← hd, hp]
      exact List.mem_map.mpr ⟨t2.d, List.mem_append_right _
        (List.mem_append_left _ (mem_plug_all t2 c2)), rfl⟩
  | succ n ih =>
    intro ctx1 ctx2 t1 t2 hlen h hn hp
    rcases nil_or_snoc ctx1 with rfl | ⟨c1, fr1, rfl⟩
    · rcases nil_or_snoc ctx2 with rfl | ⟨c2, fr, rfl⟩
      · exact ⟨h, rfl⟩
      · exfalso
        rw [plug_all_snoc] at h
        simp only [plug_all] at h hn
        rw [h, flat_mk, flat_list_append, flat_list_cons, List.map_cons, List.nodup_cons] at hn
        apply hn.1
        have hd : t1.d = fr.d := by rw [h]; rfl
        rw [← hd, hp]
        exact List.mem_map.mpr ⟨t2.d, List.mem_append_right _
          (List.mem_append_left _ (mem_plug_all t2 c2)), rfl⟩
    · rcases nil_or_snoc ctx2 with rfl | ⟨c2, fr2, rfl⟩
      · exfalso
        rw [plug_all_snoc] at h hn
        simp only [plug_all] at h
        rw [flat_mk, flat_list_append, flat_list_cons, List.map_cons, List.nodup_cons] at hn
        apply hn.1
        have hd : t2.d = fr1.d := by rw [← h]; rfl
        rw [← hd, ← hp]
        exact List.mem_map.mpr ⟨t1.d, List.mem_append_right _
          (List.mem_append_left _ (mem_plug_all t1 c1)), rfl⟩
      · rw [plug_all_snoc] at h hn
        rw [plug_all_snoc] at h
        simp only [pstree_item.mk.injEq] at h
        obtain ⟨hd, hl⟩ := h
        rw [flat_mk, List.map_cons, List.nodup_cons] at hn
        obtain ⟨e1, e2, e3⟩ := split_unique _ _ _ _ _ _ t1.d t2.d hl (mem_plug_all t1 c1)
          (mem_plug_all t2 c2) hp hn.2
        have hsub : ((plug_all t1 c1).flat.map ItemData.pid_virt).Nodup := by
          have := hn.2
          rw [flat_list_append, flat_list_cons, List.map_append, List.map_append] at this
          exact (List.nodup_append.mp (List.nodup_append.mp this).2.1).1
        have hlen1 : c1.length ≤ n := by
          simp at hlen
          omega
        obtain ⟨r1, r2⟩ := ih c1 c2 t1 t2 hlen1 e2 hsub hp
        refine ⟨r1, ?_⟩
        rw [r2]
        congr 1
        cases fr1
        cases fr2
        simp only at hd e1 e3
        rw [hd, e1, e3]

theorem cursor_unique (c1 c2 : Cursor) (hroot : c1.root = c2.root)
    (hn : (c1.root.flat.map ItemData.pid_virt).Nodup)
    (hp : c1.focus.d.pid_virt = c2.focus.d.pid_virt) : c1 = c2 := by
  obtain ⟨t1, ctx1⟩ := c1
  obtain ⟨t2, ctx2⟩ := c2
  obtain ⟨r1, r2⟩ := plug_all_unique ctx1.length ctx1 ctx2 t1 t2 (le_refl _) hroot hn hp
  rw [r1, r2]
theorem find_parent_eq_scan (ppid : Int) (cur : Cursor)
    (hn : (cur.root.flat.map ItemData.pid_virt).Nodup) :
    find_parent ppid (some cur.root) (some cur) = find_parent_scan ppid (some cur.root) := by
  unfold find_parent find_parent_scan
  simp only
  cases hl : lookup_ancestors ppid cur.focus cur.ctx with
  | none => rfl
  | some p =>
    simp only
    obtain ⟨hp, hroot⟩ := lookup_ancestors_some ppid _ _ p hl
    rcases root_search_spec (fun d => decide (d.pid_virt = ppid)) cur.root with
      ⟨c, h1, h2, h3⟩ | ⟨-, h2⟩
    · rw [h1]
      have hpc : p = c := by
        apply cursor_unique
        · rw [h3, hroot]; rfl
        · rw [hroot]; exact hn
        · rw [hp]
          have : c.focus.d.pid_virt = ppid := by simpa using h2
          exact this.symm
      rw [hpc]
    · exfalso
      have hm : p.focus.d ∈ cur.root.flat := by
        have := focus_mem_root p
        rw [hroot] at this
        exact this
      have := h2 _ hm
      simp [hp] at this

theorem step_eq_scan (g : Globals) (cur : Cursor) (e : PstreeEntry)
    (hg : g.root_item = some cur.root) (hn : (cur.root.flat.map ItemData.pid_virt).Nodup) :
    prepare_pstree_step (g, some cur) e = prepare_pstree_step_scan (g, some cur) e := by
  unfold prepare_pstree_step prepare_pstree_step_scan
  simp only [hg, find_parent_eq_scan e.ppid cur hn]

theorem loop_eq_scan : ∀ (image : List PstreeEntry) (g : Globals) (cur : Cursor),
    g.root_item = some cur.root →
    (cur.root.flat.map ItemData.pid_virt ++ image.map PstreeEntry.pid).Nodup →
    prepare_pstree_loop (g, some cur) image = prepare_pstree_loop_scan (g, some cur) image
  | [], g, cur, _, _ => rfl
  | e :: es, g, cur, hg, hn => by
    have hn0 : (cur.root.flat.map ItemData.pid_virt).Nodup := (List.nodup_append.mp hn).1
    simp only [prepare_pstree_loop, prepare_pstree_loop_scan]
    rw [← step_eq_scan g cur e hg hn0]
    rcases step_of_some g cur e hg with ⟨e1, -⟩ | ⟨h0, g1, cur1, parent, e1, e2, e3, e4, e5⟩
    · rw [e1]
    · rw [e1]
      simp only
      apply loop_eq_scan es g1 cur1 e2
      have hp := (list_add_leaf_perm parent (item_of_entry e)).map ItemData.pid_virt
      rw [← e5, e3] at hp
      refine (List.Perm.nodup_iff ?_).mpr hn
      refine (hp.append_right _).trans ?_
      simp only [List.map_cons, List.cons_append]
      exact List.perm_middle.symm

/-- C19: for every sequence of records whose pids are pairwise distinct, `prepare_pstree`, which
looks a parent up first along the ancestors of the last inserted item and then by the scan of
the whole tree, returns exactly what the builder that only scans the whole tree returns: the
same error, or the same globals with the same tree (same items, same parent for each, same
order of children). -/
theorem fast_path_refines (shell_job : Bool) (current_sid current_gid : Int) (g : Globals)
    (image : List PstreeEntry) (hg : g.root_item = none)
    (hn : (image.map PstreeEntry.pid).Nodup) :
    prepare_pstree shell_job current_sid current_gid g image =
      prepare_pstree_scan shell_job current_sid current_gid g image := by
  have hloop : prepare_pstree_loop (g, none) image = prepare_pstree_loop_scan (g, none) image := by
    cases image with
    | nil => rfl
    | cons e0 rest =>
      have hstep : prepare_pstree_step (g, none) e0 = prepare_pstree_step_scan (g, none) e0 := by
        unfold prepare_pstree_step prepare_pstree_step_scan
        simp only [hg, find_parent, find_parent_scan]
      simp only [prepare_pstree_loop, prepare_pstree_loop_scan]
      rw [← hstep]
      rcases step_of_none g e0 hg with ⟨-, g0, e1, e2⟩ | ⟨-, e1⟩
      · rw [e1]
        simp only
        have hroot : g0.root_item = some (Cursor.of_root (.mk (item_of_entry e0) [])).root := by
          simpa [Cursor.of_root, Cursor.root, plug_all] using e2
        apply loop_eq_scan rest g0 _ hroot
        simpa [Cursor.of_root, Cursor.root, plug_all, flat_mk, flat_list_nil, item_of_entry]
          using hn
      · rw [e1]
  unfold prepare_pstree prepare_pstree_scan
  rw [hloop]

theorem fast_path_refines_witness :
    Globals.init.root_item = none ∧
    prepare_pstree false 0 0 Globals.init
        [⟨1, 0, 1, 1, [1]⟩, ⟨2, 1, 1, 1, [2]⟩, ⟨3, 2, 1, 1, [3]⟩, ⟨4, 1, 1, 1, [4]⟩,
          ⟨5, 3, 1, 1, [5]⟩] =
      prepare_pstree_scan false 0 0 Globals.init
        [⟨1, 0, 1, 1, [1]⟩, ⟨2, 1, 1, 1, [2]⟩, ⟨3, 2, 1, 1, [3]⟩, ⟨4, 1, 1, 1, [4]⟩,
          ⟨5, 3, 1, 1, [5]⟩] ∧
    ∃ g' root', prepare_pstree_scan false 0 0 Globals.init
        [⟨1, 0, 1, 1, [1]⟩, ⟨2, 1, 1, 1, [2]⟩, ⟨3, 2, 1, 1, [3]⟩, ⟨4, 1, 1, 1, [4]⟩,
          ⟨5, 3, 1, 1, [5]⟩] = .ok g' ∧
      g'.root_item = some root' ∧ root'.entries.map (fun e => (e.pid, e.ppid)) =
        [(1, 0), (4, 1), (2, 1), (3, 2), (5, 3)] :=
  ⟨rfl, fast_path_refines false 0 0 Globals.init _ rfl (by decide), _, _, rfl, rfl, by decide⟩

theorem linked_items_mk (i : Linked.Item) (cs : List Linked.pstree_item) :
    (Linked.pstree_item.mk i cs).items = i :: Linked.items_list cs := by
  simp [Linked.pstree_item.items]

theorem linked_items_eq (t : Linked.pstree_item) :
    t.items = t.i :: Linked.items_list t.children := by
  cases t; simp [Linked.pstree_item.items, Linked.pstree_item.i, Linked.pstree_item.children]

theorem linked_items_list_nil : Linked.items_list [] = [] := by simp [Linked.items_list]

theorem linked_items_list_cons (c : Linked.pstree_item) (cs : List Linked.pstree_item) :
    Linked.items_list (c :: cs) = c.items ++ Linked.items_list cs := by
  simp [Linked.items_list]

theorem linked_items_list_append (a b : List Linked.pstree_item) :
    Linked.items_list (a ++ b) = Linked.items_list a ++ Linked.items_list b := by
  induction a with
  | nil => simp [linked_items_list_nil]
  | cons c cs ih => simp [linked_items_list_cons, ih]

theorem linked_items_plug (f : Linked.Frame) (t : Linked.pstree_item) :
    (f.plug t).items =
      f.i :: Linked.items_list f.left ++ t.items ++ Linked.items_list f.right := by
  simp [Linked.Frame.plug, linked_items_mk, linked_items_list_append, linked_items_list_cons]

theorem linked_plug_all_perm : ∀ (ctx : List Linked.Frame) (t t1 : Linked.pstree_item)
    (extra : List Linked.Item), t1.items.Perm (extra ++ t.items) →
    (Linked.plug_all t1 ctx).items.Perm (extra ++ (Linked.plug_all t ctx).items)
  | [], t, t1, extra, h => h
  | f :: fs, t, t1, extra, h => by
    simp only [Linked.plug_all]
    apply linked_plug_all_perm fs
    rw [linked_items_plug, linked_items_plug]
    simp only [List.cons_append, List.append_assoc]
    refine List.Perm.trans ?_ List.perm_middle.symm
    refine List.Perm.cons _ ?_
    refine (List.Perm.append_left _ (List.Perm.append_right _ h)).trans ?_
    simp only [List.append_assoc]
    rw [← List.append_assoc, ← List.append_assoc extra]
    exact List.Perm.append_right _ List.perm_append_comm

theorem linked_list_add_perm (z : Linked.Cursor) (x : Linked.pstree_item) :
    (z.list_add x).root.items.Perm (x.items ++ z.root.items) := by
  apply linked_plug_all_perm
  simp only [Linked.Cursor.list_add]
  rw [linked_items_mk, linked_items_list_cons, linked_items_eq z.focus]
  exact List.perm_middle.symm

theorem linked_plug_all_i : ∀ (ctx : List Linked.Frame) (t t1 : Linked.pstree_item),
    t1.i = t.i → (Linked.plug_all t1 ctx).i = (Linked.plug_all t ctx).i
  | [], _, _, h => h
  | f :: fs, t, t1, _ => by
    simp only [Linked.plug_all]
    exact linked_plug_all_i fs _ _ rfl

theorem linked_list_add_root_i (z : Linked.Cursor) (x : Linked.pstree_item) :
    (z.list_add x).root.i = z.root.i :=
  linked_plug_all_i z.ctx _ _ rfl

theorem linked_frame_upd_refl (f : Linked.Frame) : Linked.frame_upd f f := by
  refine ⟨f.i.d.born_sid, ?_⟩
  obtain ⟨⟨a, p, d⟩, l, r⟩ := f
  rfl

theorem linked_plug_all_upd {α : Type} (ψ : Linked.Item → α)
    (hψ : ∀ (x : Linked.Item) (b : Int), ψ { x with d := { x.d with born_sid := b } } = ψ x) :
    ∀ (ctx ctx1 : List Linked.Frame) (t t1 : Linked.pstree_item),
    List.Forall₂ Linked.frame_upd ctx ctx1 → t1.items.map ψ = t.items.map ψ →
    (Linked.plug_all t1 ctx1).items.map ψ = (Linked.plug_all t ctx).items.map ψ
  | [], ctx1, t, t1, h, ht => by
    cases h
    exact ht
  | f :: fs, ctx1, t, t1, h, ht => by
    rcases List.forall₂_cons_left_iff.mp h with ⟨f1, fs1, ⟨b, hb⟩, hfs, rfl⟩
    simp only [Linked.plug_all]
    apply linked_plug_all_upd ψ hψ fs fs1 _ _ hfs
    rw [linked_items_plug, linked_items_plug, hb]
    simp only [List.cons_append, List.map_cons, List.map_append, ht, hψ]

theorem linked_plug_all_upd_i : ∀ (ctx ctx1 : List Linked.Frame) (t t1 : Linked.pstree_item),
    List.Forall₂ Linked.frame_upd ctx ctx1 →
    (t1.i.addr = t.i.addr ∧ t1.i.parent = t.i.parent) →
    (Linked.plug_all t1 ctx1).i.addr = (Linked.plug_all t ctx).i.addr ∧
      (Linked.plug_all t1 ctx1).i.parent = (Linked.plug_all t ctx).i.parent
  | [], ctx1, t, t1, h, ht => by
    cases h
    exact ht
  | f :: fs, ctx1, t, t1, h, _ => by
    rcases List.forall₂_cons_left_iff.mp h with ⟨f1, fs1, ⟨b, hb⟩, hfs, rfl⟩
    simp only [Linked.plug_all]
    apply linked_plug_all_upd_i fs fs1 _ _ hfs
    rw [hb]
    exact ⟨rfl, rfl⟩

theorem linked_stack_on_helper_eq (a : Nat) (s : Int) : ∀ (l hc kept : List Linked.pstree_item),
    Linked.stack_on_helper a s l hc kept =
      (((l.filter (Linked.moves_to s)).reverse).map (fun x => x.set_parent a) ++ hc,
        kept ++ l.filter (fun c => !Linked.moves_to s c))
  | [], hc, kept => by simp [Linked.stack_on_helper]
  | c :: l, hc, kept => by
    unfold Linked.stack_on_helper
    by_cases h1 : c.i.d.sid = s
    · by_cases h2 : c.i.d.sid = c.i.d.pid_virt
      · have hm : Linked.moves_to s c = false := by simp [Linked.moves_to, h2]
        simp [h1, linked_stack_on_helper_eq a s l, hm, List.filter_cons]
        exact h1.symm.trans h2
      · have hm : Linked.moves_to s c = true := by
          simp only [Linked.moves_to, decide_eq_true_eq]; exact ⟨h1, h2⟩
        have h3 : ¬ s = c.i.d.pid_virt := fun h => h2 (h1.trans h)
        simp [h1, h3, linked_stack_on_helper_eq a s l, hm, List.filter_cons]
    · have hm : Linked.moves_to s c = false := by simp [Linked.moves_to, h1]
      simp [h1, linked_stack_on_helper_eq a s l, hm, List.filter_cons]

theorem linked_moves_to_of_not_stays (root_sid : Int) (c : Linked.pstree_item)
    (h : Linked.stays root_sid c = false) : Linked.moves_to c.i.d.sid c = true := by
  simp only [Linked.stays, decide_eq_false_iff_not, not_or] at h
  simp only [Linked.moves_to, decide_eq_true_eq, true_and]
  exact h.2

theorem linked_not_moves_to_of_stays (root_sid s : Int) (c : Linked.pstree_item)
    (h : Linked.stays root_sid c = true) (hs : s ≠ root_sid) : Linked.moves_to s c = false := by
  simp only [Linked.stays, decide_eq_true_eq] at h
  simp only [Linked.moves_to, decide_eq_false_iff_not, not_and, not_not]
  intro h1
  rcases h with h | h
  · exact absurd (h1.symm.trans h) hs
  · exact h

theorem linked_sid_ne_root_of_not_stays (root_sid : Int) (c : Linked.pstree_item)
    (h : Linked.stays root_sid c = false) : c.i.d.sid ≠ root_sid := by
  simp only [Linked.stays, decide_eq_false_iff_not, not_or] at h
  exact h.1

theorem linked_isolate_orphans_post (root_addr : Nat) (root_sid : Int) : ∀ (fuel : Nat)
    (passed rest helpers : List Linked.pstree_item) (nr next : Nat), rest.length < fuel →
    ∃ new : List Linked.pstree_item,
      Linked.isolate_orphans root_addr root_sid fuel passed rest helpers nr next =
        .ok (passed ++ rest.filter (Linked.stays root_sid), helpers ++ new, nr + new.length,
          next + new.length) ∧
      (∀ h ∈ new, ∃ c ∈ rest, Linked.stays root_sid c = false ∧
        h = .mk { addr := h.i.addr, parent := some root_addr, d := session_helper c.i.d }
          (((rest.filter (Linked.moves_to c.i.d.sid)).reverse).map
            (fun x => x.set_parent h.i.addr))) ∧
      (∀ c ∈ rest, Linked.stays root_sid c = false → ∃ h ∈ new, h.i.d.sid = c.i.d.sid) ∧
      (new.map (fun h => h.i.d.sid)).Nodup ∧
      new.map (fun h => h.i.addr) = List.range' next new.length := by
  intro fuel
  induction fuel with
  | zero => intro passed rest helpers nr next h; omega
  | succ n ih =>
    intro passed rest helpers nr next hlen
    cases rest with
    | nil => exact ⟨[], by simp [Linked.isolate_orphans], by simp, by simp, by simp, by simp⟩
    | cons item rest =>
      simp only [List.length_cons] at hlen
      by_cases hst : Linked.stays root_sid item = true
      · obtain ⟨new, e1, e2, e3, e4, e5⟩ :=
          ih (passed ++ [item]) rest helpers nr next (by omega)
        have hcond : item.i.d.sid = root_sid ∨ item.i.d.sid = item.i.d.pid_virt := by
          simpa [Linked.stays] using hst
        refine ⟨new, ?_, ?_, ?_, e4, e5⟩
        · simp only [Linked.isolate_orphans, if_pos hcond, e1, List.filter_cons, hst, if_true]
          simp
        · intro h hh
          obtain ⟨c, hc, hcs, he⟩ := e2 h hh
          refine ⟨c, List.mem_cons_of_mem _ hc, hcs, ?_⟩
          have : Linked.moves_to c.i.d.sid item = false :=
            linked_not_moves_to_of_stays root_sid _ item hst
              (linked_sid_ne_root_of_not_stays _ _ hcs)
          simp only [List.filter_cons, this, Bool.false_eq_true, if_false]
          exact he
        · intro c hc hcs
          rcases List.mem_cons.mp hc with rfl | hc
          · rw [hst] at hcs; exact absurd hcs (by simp)
          · exact e3 c hc hcs
      · have hst' : Linked.stays root_sid item = false := by simpa using hst
        have hcond : ¬ (item.i.d.sid = root_sid ∨ item.i.d.sid = item.i.d.pid_virt) := by
          simpa [Linked.stays] using hst'
        have hmv : Linked.moves_to item.i.d.sid item = true :=
          linked_moves_to_of_not_stays _ _ hst'
        have hrem : (List.filter (fun c => !Linked.moves_to item.i.d.sid c) rest).length < n :=
          lt_of_le_of_lt (List.length_filter_le _ _) (by omega)
        obtain ⟨new, e1, e2, e3, e4, e5⟩ := ih passed
          (List.filter (fun c => !Linked.moves_to item.i.d.sid c) rest)
          (helpers ++ [.mk { addr := next, parent := some root_addr, d := session_helper item.i.d }
            (((List.filter (Linked.moves_to item.i.d.sid) (item :: rest)).reverse).map
              (fun x => x.set_parent next))]) (nr + 1) (next + 1) hrem
        have hkeep : ∀ c ∈ rest, Linked.stays root_sid c = true →
            (!Linked.moves_to item.i.d.sid c) = true := by
          intro c _ hc
          rw [linked_not_moves_to_of_stays root_sid _ c hc
            (linked_sid_ne_root_of_not_stays _ _ hst')]
          rfl
        have hne : ∀ c, c ∈ List.filter (fun c => !Linked.moves_to item.i.d.sid c) rest →
            Linked.stays root_sid c = false → c.i.d.sid ≠ item.i.d.sid := by
          intro c hc hcs heq
          have h1 := (List.mem_filter.mp hc).2
          have h2 := linked_moves_to_of_not_stays _ _ hcs
          rw [heq] at h2
          simp [h2] at h1
        refine ⟨.mk { addr := next, parent := some root_addr, d := session_helper item.i.d }
          (((List.filter (Linked.moves_to item.i.d.sid) (item :: rest)).reverse).map
            (fun x => x.set_parent next)) :: new, ?_, ?_, ?_, ?_, ?_⟩
        · have hf1 : List.filter (Linked.stays root_sid)
              (List.filter (fun c => !Linked.moves_to item.i.d.sid c) rest) =
              List.filter (Linked.stays root_sid) rest := by
            rw [List.filter_filter]
            apply List.filter_congr
            intro c hc
            by_cases hcs : Linked.stays root_sid c = true
            · simp [hcs, hkeep c hc hcs]
            · simp [hcs]
          have hf2 : List.filter (fun c => !Linked.moves_to item.i.d.sid c) (item :: rest) =
              List.filter (fun c => !Linked.moves_to item.i.d.sid c) rest := by
            simp [List.filter_cons, hmv]
          have hf3 : List.filter (Linked.stays root_sid) (item :: rest) =
              List.filter (Linked.stays root_sid) rest := by
            simp [List.filter_cons, hst']
          simp only [Linked.isolate_orphans, if_neg hcond, linked_stack_on_helper_eq,
            session_helper_sid, List.append_nil, List.nil_append]
          rw [hf2, e1, hf1, hf3]
          simp only [List.length_cons, List.append_assoc, List.singleton_append]
          have a1 : nr + 1 + new.length = nr + (new.length + 1) := by omega
          have a2 : next + 1 + new.length = next + (new.length + 1) := by omega
          rw [a1, a2]
        · intro h hh
          rcases List.mem_cons.mp hh with rfl | hh
          · exact ⟨item, List.mem_cons_self _ _, hst', rfl⟩
          · obtain ⟨c, hc, hcs, he⟩ := e2 h hh
            refine ⟨c, List.mem_cons_of_mem _ (List.mem_filter.mp hc).1, hcs, ?_⟩
            have hcne := hne c hc hcs
            have h1 : Linked.moves_to c.i.d.sid item = false := by
              simp only [Linked.moves_to, decide_eq_false_iff_not, not_and, not_not]
              intro h; exact absurd h.symm hcne
            have hf : List.filter (Linked.moves_to c.i.d.sid) (item :: rest) =
                List.filter (Linked.moves_to c.i.d.sid)
                  (List.filter (fun c => !Linked.moves_to item.i.d.sid c) rest) := by
              simp only [List.filter_cons, h1, Bool.false_eq_true, if_false, List.filter_filter]
              apply List.filter_congr
              intro x _
              by_cases hx : Linked.moves_to c.i.d.sid x = true
              · have : Linked.moves_to item.i.d.sid x = false := by
                  simp only [Linked.moves_to, decide_eq_true_eq] at hx
                  simp only [Linked.moves_to, decide_eq_false_iff_not, not_and, not_not]
                  intro h; exact absurd (hx.1.symm.trans h) hcne
                simp [hx, this]
              · simp [hx]
            rw [hf]
            exact he
        · intro c hc hcs
          by_cases heq : c.i.d.sid = item.i.d.sid
          · exact ⟨_, List.mem_cons_self _ _, heq.symm⟩
          · rcases List.mem_cons.mp hc with rfl | hc
            · exact absurd rfl heq
            · have hm : c ∈ List.filter (fun c => !Linked.moves_to item.i.d.sid c) rest := by
                refine List.mem_filter.mpr ⟨hc, ?_⟩
                simp only [Linked.moves_to, Bool.not_eq_true', decide_eq_false_iff_not, not_and,
                  not_not]
                intro h; exact absurd h heq
              obtain ⟨h, hh, hs⟩ := e3 c hm hcs
              exact ⟨h, List.mem_cons_of_mem _ hh, hs⟩
        · simp only [List.map_cons, List.nodup_cons]
          refine ⟨?_, e4⟩
          intro hmem
          obtain ⟨h, hh, hs⟩ := List.mem_map.mp hmem
          obtain ⟨c, hc, hcs, he⟩ := e2 h hh
          refine hne c hc hcs ?_
          rw [he] at hs
          simpa [Linked.pstree_item.i, session_helper] using hs
        · rw [List.map_cons, List.length_cons, e5, List.range'_succ]
          rfl

theorem linked_erase_mk (i : Linked.Item) (cs : List Linked.pstree_item) :
    (Linked.pstree_item.mk i cs).erase = .mk i.d (Linked.erase_list cs) := by
  simp [Linked.pstree_item.erase]

theorem linked_erase_list_nil : Linked.erase_list [] = [] := by simp [Linked.erase_list]

theorem linked_erase_list_cons (c : Linked.pstree_item) (cs : List Linked.pstree_item) :
    Linked.erase_list (c :: cs) = c.erase :: Linked.erase_list cs := by
  simp [Linked.erase_list]

theorem linked_erase_list_append (a b : List Linked.pstree_item) :
    Linked.erase_list (a ++ b) = Linked.erase_list a ++ Linked.erase_list b := by
  induction a with
  | nil => simp [linked_erase_list_nil]
  | cons c cs ih => simp [linked_erase_list_cons, ih]

theorem linked_erase_d (t : Linked.pstree_item) : t.erase.d = t.i.d := by
  cases t; rfl

theorem linked_erase_children (t : Linked.pstree_item) :
    t.erase.children = Linked.erase_list t.children := by
  cases t; simp [Linked.pstree_item.erase, pstree_item.children, Linked.pstree_item.children]

theorem linked_erase_set_parent (t : Linked.pstree_item) (p : Nat) :
    (t.set_parent p).erase = t.erase := by
  cases t; simp [Linked.pstree_item.set_parent, Linked.pstree_item.erase,
    Linked.pstree_item.i, Linked.pstree_item.children]

theorem linked_erase_list_length (l : List Linked.pstree_item) :
    (Linked.erase_list l).length = l.length := by
  induction l with
  | nil => simp [linked_erase_list_nil]
  | cons c cs ih => simp [linked_erase_list_cons, ih]

theorem linked_stack_on_helper_erase (a : Nat) (s : Int) :
    ∀ (l hc kept : List Linked.pstree_item),
    stack_on_helper s (Linked.erase_list l) (Linked.erase_list hc) (Linked.erase_list kept) =
      (Linked.erase_list (Linked.stack_on_helper a s l hc kept).1,
        Linked.erase_list (Linked.stack_on_helper a s l hc kept).2)
  | [], hc, kept => by simp [stack_on_helper, Linked.stack_on_helper, linked_erase_list_nil]
  | c :: l, hc, kept => by
    simp only [linked_erase_list_cons, stack_on_helper, Linked.stack_on_helper, linked_erase_d]
    split_ifs with h1 h2
    · have := linked_stack_on_helper_erase a s l hc (kept ++ [c])
      rw [linked_erase_list_append, linked_erase_list_cons, linked_erase_list_nil] at this
      exact this
    · have := linked_stack_on_helper_erase a s l hc (kept ++ [c])
      rw [linked_erase_list_append, linked_erase_list_cons, linked_erase_list_nil] at this
      exact this
    · have := linked_stack_on_helper_erase a s l (c.set_parent a :: hc) kept
      rw [linked_erase_list_cons, linked_erase_set_parent] at this
      exact this

theorem linked_isolate_orphans_erase (root_addr : Nat) (root_sid : Int) : ∀ (fuel : Nat)
    (passed rest helpers : List Linked.pstree_item) (nr next : Nat),
    isolate_orphans root_sid fuel (Linked.erase_list passed) (Linked.erase_list rest)
        (Linked.erase_list helpers) nr =
      match Linked.isolate_orphans root_addr root_sid fuel passed rest helpers nr next with
      | .error e => .error e
      | .ok r => .ok (Linked.erase_list r.1, Linked.erase_list r.2.1, r.2.2.1)
  | 0, _, _, _, _, _ => by simp [isolate_orphans, Linked.isolate_orphans]
  | fuel + 1, passed, [], helpers, nr, next => by
    simp [isolate_orphans, Linked.isolate_orphans, linked_erase_list_nil]
  | fuel + 1, passed, item :: rest, helpers, nr, next => by
    simp only [linked_erase_list_cons, isolate_orphans, Linked.isolate_orphans, linked_erase_d]
    split_ifs with h1
    · have := linked_isolate_orphans_erase root_addr root_sid fuel (passed ++ [item]) rest
        helpers nr next
      rw [linked_erase_list_append, linked_erase_list_cons, linked_erase_list_nil] at this
      exact this
    · have hs := linked_stack_on_helper_erase next (session_helper item.i.d).sid (item :: rest)
        [] []
      rw [linked_erase_list_cons, linked_erase_list_nil] at hs
      have := linked_isolate_orphans_erase root_addr root_sid fuel passed
        (Linked.stack_on_helper next (session_helper item.i.d).sid (item :: rest) [] []).2
        (helpers ++ [.mk { addr := next, parent := some root_addr, d := session_helper item.i.d }
          (Linked.stack_on_helper next (session_helper item.i.d).sid (item :: rest) [] []).1])
        (nr + 1) (next + 1)
      rw [linked_erase_list_append, linked_erase_list_cons, linked_erase_list_nil,
        linked_erase_mk] at this
      rw [hs]
      exact this
/-- C16: the first loop of `prepare_pstree_ids`, run on the children of the root, returns with
(1) exactly the children that are in the root's session or are session leaders left on the
root, in order; (2) a `helpers` list holding, for each session id of a child that is neither,
exactly one helper, with `pid.virt = pgid = sid` that session id, `state` helper, no threads
and `parent` the root, allocated at consecutive fresh addresses; (3) as children of the helper
of a session id exactly the children of the root with that `sid` that are not session
leaders (the one that caused the helper included), each with `parent` set to the helper; and
`nr_helpers` raised by the number of helpers. Without addresses and `parent` fields this is
the run of `isolate_orphans`. -/
theorem pass_a_post (root : Linked.pstree_item) (nr next : Nat) :
    ∃ new : List Linked.pstree_item,
      Linked.isolate_orphans root.i.addr root.i.d.sid (root.children.length + 1) []
          root.children [] nr next =
        .ok (root.children.filter (Linked.stays root.i.d.sid), new, nr + new.length,
          next + new.length) ∧
      isolate_orphans root.erase.d.sid (root.erase.children.length + 1) []
          root.erase.children [] nr =
        .ok (Linked.erase_list (root.children.filter (Linked.stays root.i.d.sid)),
          Linked.erase_list new, nr + new.length) ∧
      (∀ c ∈ root.children, c ∈ root.children.filter (Linked.stays root.i.d.sid) ↔
        (c.i.d.sid = root.i.d.sid ∨ c.i.d.pid_virt = c.i.d.sid)) ∧
      (∀ h ∈ new, h.i.d.state = Kind.HELPER ∧ h.i.d.pid_virt = h.i.d.sid ∧
        h.i.d.pgid = h.i.d.sid ∧ h.i.d.threads = [] ∧ h.i.parent = some root.i.addr ∧
        (∃ c ∈ root.children, c.i.d.sid ≠ root.i.d.sid ∧ c.i.d.sid ≠ c.i.d.pid_virt ∧
          c.i.d.sid = h.i.d.sid) ∧
        h.children = ((root.children.filter (fun c =>
            decide (c.i.d.sid = h.i.d.sid ∧ c.i.d.sid ≠ c.i.d.pid_virt))).reverse).map
          (fun c => c.set_parent h.i.addr)) ∧
      (∀ c ∈ root.children, c.i.d.sid ≠ root.i.d.sid → c.i.d.sid ≠ c.i.d.pid_virt →
        ∃ h ∈ new, h.i.d.sid = c.i.d.sid ∧ c.set_parent h.i.addr ∈ h.children) ∧
      (new.map (fun h => h.i.d.sid)).Nodup ∧
      new.map (fun h => h.i.addr) = List.range' next new.length := by
  obtain ⟨new, e1, e2, e3, e4, e5⟩ := linked_isolate_orphans_post root.i.addr root.i.d.sid
    (root.children.length + 1) [] root.children [] nr next (by omega)
  simp only [List.nil_append] at e1
  have hdesc : ∀ h ∈ new, h.i.d.state = Kind.HELPER ∧ h.i.d.pid_virt = h.i.d.sid ∧
      h.i.d.pgid = h.i.d.sid ∧ h.i.d.threads = [] ∧ h.i.parent = some root.i.addr ∧
      (∃ c ∈ root.children, c.i.d.sid ≠ root.i.d.sid ∧ c.i.d.sid ≠ c.i.d.pid_virt ∧
        c.i.d.sid = h.i.d.sid) ∧
      h.children = ((root.children.filter (fun c =>
          decide (c.i.d.sid = h.i.d.sid ∧ c.i.d.sid ≠ c.i.d.pid_virt))).reverse).map
        (fun c => c.set_parent h.i.addr) := by
    intro h hh
    obtain ⟨c, hc, hcs, he⟩ := e2 h hh
    have hcs' : c.i.d.sid ≠ root.i.d.sid ∧ c.i.d.sid ≠ c.i.d.pid_virt := by
      simpa [Linked.stays, not_or] using hcs
    have hsid : h.i.d.sid = c.i.d.sid := by rw [he]; rfl
    refine ⟨by rw [he]; rfl, by rw [he]; rfl, by rw [he]; rfl, by rw [he]; rfl, by rw [he]; rfl,
      ⟨c, hc, hcs'.1, hcs'.2, hsid.symm⟩, ?_⟩
    rw [hsid]
    have : h.children = ((root.children.filter (Linked.moves_to c.i.d.sid)).reverse).map
        (fun x => x.set_parent h.i.addr) := by
      conv_lhs => rw [he]
      rfl
    rw [this]
    rfl
  refine ⟨new, e1, ?_, ?_, hdesc, ?_, e4, e5⟩
  · have hs := linked_isolate_orphans_erase root.i.addr root.i.d.sid
      (root.children.length + 1) [] root.children [] nr next
    rw [e1, linked_erase_list_nil] at hs
    rw [linked_erase_d, linked_erase_children, linked_erase_list_length]
    exact hs
  · intro c hc
    rw [List.mem_filter]
    simp only [Linked.stays, decide_eq_true_eq, hc, true_and]
    constructor
    · rintro (h | h)
      · exact Or.inl h
      · exact Or.inr h.symm
    · rintro (h | h)
      · exact Or.inl h
      · exact Or.inr h.symm
  · intro c hc h1 h2
    have hcs : Linked.stays root.i.d.sid c = false := by
      simp [Linked.stays, h1, h2]
    obtain ⟨h, hh, hs⟩ := e3 c hc hcs
    refine ⟨h, hh, hs, ?_⟩
    rw [(hdesc h hh).2.2.2.2.2.2]
    refine List.mem_map.mpr ⟨c, ?_, rfl⟩
    rw [List.mem_reverse, List.mem_filter]
    exact ⟨hc, by simp [hs, h2]⟩

theorem pass_a_post_witness :
    Linked.isolate_orphans 0 1 4 []
        [.mk ⟨1, some 0, sample_item 2 5 5⟩ [], .mk ⟨2, some 0, sample_item 3 1 1⟩ [],
          .mk ⟨3, some 0, sample_item 4 5 5⟩ []] [] 0 4 =
      .ok ([.mk ⟨2, some 0, sample_item 3 1 1⟩ []],
        [.mk ⟨4, some 0, session_helper (sample_item 2 5 5)⟩
          [.mk ⟨3, some 4, sample_item 4 5 5⟩ [], .mk ⟨1, some 4, sample_item 2 5 5⟩ []]],
        1, 5) ∧
    ∃ new : List Linked.pstree_item,
      Linked.isolate_orphans 0 1 4 []
          [.mk ⟨1, some 0, sample_item 2 5 5⟩ [], .mk ⟨2, some 0, sample_item 3 1 1⟩ [],
            .mk ⟨3, some 0, sample_item 4 5 5⟩ []] [] 0 4 =
        .ok ([.mk ⟨2, some 0, sample_item 3 1 1⟩ []], new, 0 + new.length, 4 + new.length) ∧
      ∀ h ∈ new, h.i.parent = some 0 := by
  refine ⟨rfl, ?_⟩
  obtain ⟨new, h1, -, -, h4, -⟩ := pass_a_post (.mk ⟨0, none, sample_item 1 1 1⟩
    [.mk ⟨1, some 0, sample_item 2 5 5⟩ [], .mk ⟨2, some 0, sample_item 3 1 1⟩ [],
      .mk ⟨3, some 0, sample_item 4 5 5⟩ []]) 0 4
  exact ⟨new, h1, fun h hh => (h4 h hh).2.2.2.2.1⟩

theorem linked_wl_mk (p : Option Nat) (i : Linked.Item) (cs : List Linked.pstree_item) :
    Linked.well_linked p (.mk i cs) ↔
      i.parent = p ∧ Linked.well_linked_list (some i.addr) cs := by
  simp [Linked.well_linked]

theorem linked_wl_eq (p : Option Nat) (t : Linked.pstree_item) :
    Linked.well_linked p t ↔
      t.i.parent = p ∧ Linked.well_linked_list (some t.i.addr) t.children := by
  cases t
  simp [Linked.well_linked, Linked.pstree_item.i, Linked.pstree_item.children]

theorem linked_wl_list_nil (p : Option Nat) : Linked.well_linked_list p [] := by
  simp [Linked.well_linked_list]

theorem linked_wl_list_cons (p : Option Nat) (c : Linked.pstree_item)
    (cs : List Linked.pstree_item) :
    Linked.well_linked_list p (c :: cs) ↔
      Linked.well_linked p c ∧ Linked.well_linked_list p cs := by
  simp [Linked.well_linked_list]

theorem linked_wl_list_iff (p : Option Nat) (cs : List Linked.pstree_item) :
    Linked.well_linked_list p cs ↔ ∀ c ∈ cs, Linked.well_linked p c := by
  induction cs with
  | nil => simp [linked_wl_list_nil]
  | cons c cs ih => simp [linked_wl_list_cons, ih]

theorem linked_wl_list_append (p : Option Nat) (a b : List Linked.pstree_item) :
    Linked.well_linked_list p (a ++ b) ↔
      Linked.well_linked_list p a ∧ Linked.well_linked_list p b := by
  simp only [linked_wl_list_iff, List.mem_append]
  constructor
  · intro h
    exact ⟨fun c hc => h c (Or.inl hc), fun c hc => h c (Or.inr hc)⟩
  · rintro ⟨h1, h2⟩ c (hc | hc)
    · exact h1 c hc
    · exact h2 c hc

theorem linked_wl_plug_all (p : Option Nat) : ∀ (ctx : List Linked.Frame)
    (t : Linked.pstree_item),
    Linked.well_linked p (Linked.plug_all t ctx) ↔
      Linked.well_linked (Linked.ctx_parent p ctx) t ∧ Linked.well_linked_ctx p ctx
  | [], t => by simp [Linked.plug_all, Linked.ctx_parent, Linked.well_linked_ctx]
  | f :: fs, t => by
    simp only [Linked.plug_all, linked_wl_plug_all p fs, Linked.Frame.plug, linked_wl_mk,
      linked_wl_list_append, linked_wl_list_cons, Linked.ctx_parent, Linked.well_linked_ctx]
    tauto

theorem linked_wl_ctx_upd (p : Option Nat) : ∀ (ctx ctx1 : List Linked.Frame),
    List.Forall₂ Linked.frame_upd ctx ctx1 →
    Linked.ctx_parent p ctx1 = Linked.ctx_parent p ctx ∧
      (Linked.well_linked_ctx p ctx1 ↔ Linked.well_linked_ctx p ctx)
  | [], ctx1, h => by
    cases h
    exact ⟨rfl, Iff.rfl⟩
  | f :: fs, ctx1, h => by
    rcases List.forall₂_cons_left_iff.mp h with ⟨f1, fs1, ⟨b, hb⟩, hfs, rfl⟩
    obtain ⟨h1, h2⟩ := linked_wl_ctx_upd p fs fs1 hfs
    subst hb
    refine ⟨rfl, ?_⟩
    simp only [Linked.well_linked_ctx]
    rw [h1, h2]

theorem linked_next_up_root : ∀ (ctx : List Linked.Frame) (t : Linked.pstree_item)
    (c : Linked.Cursor), Linked.next_up t ctx = some c → c.root = Linked.plug_all t ctx
  | [], t, c, h => by simp [Linked.next_up] at h
  | f :: fs, t, c, h => by
    simp only [Linked.next_up] at h
    cases hr : f.right with
    | nil =>
      rw [hr] at h
      simp only [Linked.plug_all]
      exact linked_next_up_root fs _ c h
    | cons r rs =>
      rw [hr] at h
      simp only [Option.some.injEq] at h
      subst h
      simp [Linked.Cursor.root, Linked.plug_all, Linked.Frame.plug, hr]

theorem linked_next_root (z c : Linked.Cursor) (h : Linked.pstree_item_next z = some c) :
    c.root = z.root := by
  obtain ⟨⟨i, cs⟩, ctx⟩ := z
  cases cs with
  | nil =>
    simp only [Linked.pstree_item_next] at h
    exact linked_next_up_root ctx _ c h
  | cons x xs =>
    simp only [Linked.pstree_item_next, Option.some.injEq] at h
    subst h
    simp [Linked.Cursor.root, Linked.plug_all, Linked.Frame.plug]

theorem linked_for_each_inv {σ : Type}
    (body : σ → Linked.Cursor → Except Err (σ × Linked.Cursor))
    (I : σ → Linked.pstree_item → Prop)
    (hbody : ∀ s z s1 z1, I s z.root → body s z = .ok (s1, z1) → I s1 z1.root) :
    ∀ (fuel : Nat) (s : σ) (z : Linked.Cursor) (s' : σ) (t' : Linked.pstree_item),
      I s z.root → Linked.for_each_pstree_item body fuel s z = .ok (s', t') → I s' t'
  | 0, s, z, s', t', _, h => by simp [Linked.for_each_pstree_item] at h
  | fuel + 1, s, z, s', t', hI, h => by
    simp only [Linked.for_each_pstree_item] at h
    cases hb : body s z with
    | error e => rw [hb] at h; simp at h
    | ok r =>
      obtain ⟨s1, z1⟩ := r
      rw [hb] at h
      simp only at h
      have h1 := hbody s z s1 z1 hI hb
      cases hn : Linked.pstree_item_next z1 with
      | none =>
        rw [hn] at h
        simp only [Except.ok.injEq, Prod.mk.injEq] at h
        obtain ⟨rfl, rfl⟩ := h
        exact h1
      | some z2 =>
        rw [hn] at h
        simp only at h
        refine linked_for_each_inv body I hbody fuel s1 z2 s' t' ?_ h
        rw [linked_next_root z1 z2 hn]
        exact h1

theorem linked_born_sid_walk_ok (sid : Int) : ∀ (ctx ctx1 : List Linked.Frame),
    Linked.born_sid_walk sid ctx = .ok ctx1 → List.Forall₂ Linked.frame_upd ctx ctx1
  | [], ctx1, h => by simp [Linked.born_sid_walk] at h
  | f :: fs, ctx1, h => by
    simp only [Linked.born_sid_walk] at h
    split_ifs at h with h1 h2
    · simp only [Except.ok.injEq] at h
      subst h
      exact List.forall₂_same.mpr (fun x _ => linked_frame_upd_refl x)
    · cases hw : Linked.born_sid_walk sid fs with
      | error e => rw [hw] at h; simp at h
      | ok fs1 =>
        rw [hw] at h
        simp only [Except.ok.injEq] at h
        subst h
        exact List.Forall₂.cons ⟨sid, rfl⟩ (linked_born_sid_walk_ok sid fs fs1 hw)

theorem linked_take_helper_some (sid : Int) : ∀ (l : List Linked.pstree_item)
    (child : Linked.pstree_item) (l1 : List Linked.pstree_item),
    Linked.take_helper sid l = some (child, l1) →
    ∃ pre post, l = pre ++ child :: post ∧ l1 = pre ++ post
  | [], child, l1, h => by simp [Linked.take_helper] at h
  | c :: rest, child, l1, h => by
    simp only [Linked.take_helper] at h
    split_ifs at h with h1 h2
    · obtain ⟨r, hr, he⟩ := Option.map_eq_some'.mp h
      simp only [Prod.mk.injEq] at he
      obtain ⟨rfl, rfl⟩ := he
      obtain ⟨pre, post, e1, e2⟩ := linked_take_helper_some sid rest r.1 r.2 (by rw [hr])
      exact ⟨c :: pre, post, by rw [e1]; rfl, by rw [e2]; rfl⟩
    · obtain ⟨r, hr, he⟩ := Option.map_eq_some'.mp h
      simp only [Prod.mk.injEq] at he
      obtain ⟨rfl, rfl⟩ := he
      obtain ⟨pre, post, e1, e2⟩ := linked_take_helper_some sid rest r.1 r.2 (by rw [hr])
      exact ⟨c :: pre, post, by rw [e1]; rfl, by rw [e2]; rfl⟩
    · simp only [Option.some.injEq, Prod.mk.injEq] at h
      obtain ⟨rfl, rfl⟩ := h
      exact ⟨[], rest, rfl, rfl⟩

theorem linked_connect_loop_inv (I : List Linked.pstree_item × Int → Linked.pstree_item → Prop)
    (hwalk : ∀ s (z : Linked.Cursor) ctx1, I s z.root →
      List.Forall₂ Linked.frame_upd z.ctx ctx1 →
      I s ({ z with ctx := ctx1 } : Linked.Cursor).root)
    (hattach : ∀ (s : List Linked.pstree_item × Int) (z : Linked.Cursor) child helpers1,
      I s z.root → Linked.take_helper z.focus.i.d.sid s.1 = some (child, helpers1) →
      I (helpers1, wrap32 (s.2 + 1))
        (z.list_add (Linked.renumber_helper child z.focus.i.addr z.focus.i.d.pgid
          (wrap32 (s.2 + 1)))).root)
    (fuel : Nat) (s s' : List Linked.pstree_item × Int) (t t' : Linked.pstree_item)
    (h0 : I s t)
    (h : Linked.for_each_pstree_item Linked.connect_body fuel s (Linked.Cursor.of_root t) =
      .ok (s', t')) : I s' t' := by
  refine linked_for_each_inv Linked.connect_body I ?_ fuel s (Linked.Cursor.of_root t) s' t' h0 h
  intro s z s1 z1 hI hb
  unfold Linked.connect_body at hb
  cases hctx : z.ctx with
  | nil =>
    rw [hctx] at hb
    simp only [Except.ok.injEq, Prod.mk.injEq] at hb
    obtain ⟨rfl, rfl⟩ := hb
    exact hI
  | cons parent rest =>
    rw [hctx] at hb
    simp only at hb
    split_ifs at hb with h1 h2 h3
    · simp only [Except.ok.injEq, Prod.mk.injEq] at hb
      obtain ⟨rfl, rfl⟩ := hb
      exact hI
    · simp only [Except.ok.injEq, Prod.mk.injEq] at hb
      obtain ⟨rfl, rfl⟩ := hb
      exact hI
    · cases hw : Linked.born_sid_walk z.focus.i.d.sid (parent :: rest) with
      | error e => rw [hw] at hb; simp at hb
      | ok ctx1 =>
        rw [hw] at hb
        simp only [Except.ok.injEq, Prod.mk.injEq] at hb
        obtain ⟨rfl, rfl⟩ := hb
        refine hwalk s z ctx1 hI ?_
        rw [hctx]
        exact linked_born_sid_walk_ok _ _ _ hw
    · cases ht : Linked.take_helper z.focus.i.d.sid s.1 with
      | none =>
        rw [ht] at hb
        simp only [Except.ok.injEq, Prod.mk.injEq] at hb
        obtain ⟨rfl, rfl⟩ := hb
        exact hI
      | some r =>
        obtain ⟨child, helpers1⟩ := r
        rw [ht] at hb
        simp only [Except.ok.injEq, Prod.mk.injEq] at hb
        obtain ⟨rfl, rfl⟩ := hb
        exact hattach s z child helpers1 hI ht

theorem linked_group_loop_inv (current_pgid : Int)
    (I : Nat × Nat → Linked.pstree_item → Prop)
    (hadd : ∀ (s : Nat × Nat) (z : Linked.Cursor), I s z.root →
      I (s.1 + 1, s.2 + 1)
        (z.list_add (.mk ⟨s.2, some z.focus.i.addr, group_helper z.focus.i.d⟩ [])).root)
    (fuel : Nat) (s s' : Nat × Nat) (t t' : Linked.pstree_item) (h0 : I s t)
    (h : Linked.for_each_pstree_item (Linked.group_leader_body current_pgid) fuel s
      (Linked.Cursor.of_root t) = .ok (s', t')) : I s' t' := by
  refine linked_for_each_inv (Linked.group_leader_body current_pgid) I ?_ fuel s
    (Linked.Cursor.of_root t) s' t' h0 h
  intro s z s1 z1 hI hb
  unfold Linked.group_leader_body at hb
  by_cases h1 : z.focus.i.d.pgid = 0 ∨ z.focus.i.d.pid_virt = z.focus.i.d.pgid
  · rw [if_pos h1] at hb
    simp only [Except.ok.injEq, Prod.mk.injEq] at hb
    obtain ⟨rfl, rfl⟩ := hb
    exact hI
  · rw [if_neg h1] at hb
    cases hs : pstree_item_search (fun d => decide (d.pid_virt = z.focus.i.d.pgid))
        z.root.erase.size (Pstree.Cursor.of_root z.root.erase) with
    | error e => rw [hs] at hb; simp at hb
    | ok r =>
      rw [hs] at hb
      cases r with
      | some c =>
        simp only [Except.ok.injEq, Prod.mk.injEq] at hb
        obtain ⟨rfl, rfl⟩ := hb
        exact hI
      | none =>
        simp only at hb
        by_cases h2 : current_pgid = z.focus.i.d.pgid
        · rw [if_pos h2] at hb
          simp only [Except.ok.injEq, Prod.mk.injEq] at hb
          obtain ⟨rfl, rfl⟩ := hb
          exact hI
        · rw [if_neg h2] at hb
          simp only [Except.ok.injEq, Prod.mk.injEq] at hb
          obtain ⟨rfl, rfl⟩ := hb
          exact hadd s z hI

theorem linked_items_list_perm (l l1 : List Linked.pstree_item) (h : l.Perm l1) :
    (Linked.items_list l).Perm (Linked.items_list l1) := by
  induction h with
  | nil => exact List.Perm.refl _
  | cons x _ ih => simp only [linked_items_list_cons]; exact ih.append_left _
  | swap x y l =>
    simp only [linked_items_list_cons, ← List.append_assoc]
    exact List.perm_append_comm.append_right _
  | trans _ _ ih1 ih2 => exact ih1.trans ih2

theorem linked_items_list_helpers_perm : ∀ (l : List Linked.pstree_item),
    (Linked.items_list l).Perm
      (l.map Linked.pstree_item.i ++ Linked.items_list (l.flatMap Linked.pstree_item.children))
  | [] => by simp [linked_items_list_nil]
  | h :: l => by
    simp only [linked_items_list_cons, List.map_cons, List.flatMap_cons,
      linked_items_list_append, linked_items_eq h, List.cons_append]
    apply List.Perm.cons
    refine ((linked_items_list_helpers_perm l).append_left _).trans ?_
    simp only [← List.append_assoc]
    exact List.perm_append_comm.append_right _

theorem linked_items_set_parent {α : Type} (ψ : Linked.Item → α)
    (hψ : ∀ (x : Linked.Item) (p : Option Nat), ψ { x with parent := p } = ψ x) (a : Nat) :
    ∀ (l : List Linked.pstree_item),
    (Linked.items_list (l.map (fun x => x.set_parent a))).map ψ = (Linked.items_list l).map ψ
  | [] => rfl
  | c :: l => by
    simp only [List.map_cons, linked_items_list_cons, List.map_append,
      linked_items_set_parent ψ hψ a l]
    congr 1
    rw [linked_items_eq c, Linked.pstree_item.set_parent, linked_items_mk, List.map_cons,
      List.map_cons, hψ]

theorem linked_isolate_orphans_perm {α : Type} (ψ : Linked.Item → α)
    (hψ : ∀ (x : Linked.Item) (p : Option Nat), ψ { x with parent := p } = ψ x)
    (root_addr : Nat) (root_sid : Int) : ∀ (fuel : Nat)
    (passed rest helpers : List Linked.pstree_item) (nr next : Nat)
    (children1 helpers1 : List Linked.pstree_item) (nr1 next1 : Nat),
    Linked.isolate_orphans root_addr root_sid fuel passed rest helpers nr next =
      .ok (children1, helpers1, nr1, next1) →
    ((Linked.items_list children1 ++
        Linked.items_list (helpers1.flatMap Linked.pstree_item.children)).map ψ).Perm
      ((Linked.items_list passed ++ Linked.items_list rest ++
        Linked.items_list (helpers.flatMap Linked.pstree_item.children)).map ψ) := by
  intro fuel
  induction fuel with
  | zero => intro passed rest helpers nr next c1 h1 n1 x1 h; simp [Linked.isolate_orphans] at h
  | succ n ih =>
    intro passed rest helpers nr next c1 h1 n1 x1 h
    cases rest with
    | nil =>
      simp only [Linked.isolate_orphans, Except.ok.injEq, Prod.mk.injEq] at h
      obtain ⟨rfl, rfl, rfl, rfl⟩ := h
      simp [linked_items_list_nil]
    | cons item rest =>
      simp only [Linked.isolate_orphans] at h
      split_ifs at h with hc
      · have := ih _ _ _ _ _ _ _ _ _ h
        simpa [linked_items_list_append, linked_items_list_cons, linked_items_list_nil]
          using this
      · have := ih _ _ _ _ _ _ _ _ _ h
        refine this.trans ?_
        simp only [linked_stack_on_helper_eq, List.append_nil, List.nil_append,
          List.flatMap_append, List.flatMap_cons, List.flatMap_nil, Linked.pstree_item.children,
          List.append_assoc, linked_items_list_append, List.map_append,
          linked_items_set_parent ψ hψ]
        apply List.Perm.append_left
        have hp := ((linked_items_list_perm _ _ (List.filter_append_perm
          (Linked.moves_to (session_helper item.i.d).sid) (item :: rest))).map ψ)
        rw [linked_items_list_append, List.map_append] at hp
        refine List.Perm.trans ?_ (hp.append_right _)
        rw [List.append_assoc]
        refine List.Perm.trans ?_ List.perm_append_comm
        rw [List.append_assoc]
        apply List.Perm.append_left
        exact ((linked_items_list_perm _ _ (List.reverse_perm _)).map ψ).append_left _
theorem linked_pass_a_cards (root : Linked.pstree_item) (fuel nr next : Nat)
    (children1 helpers : List Linked.pstree_item) (nr1 next1 : Nat)
    (h : Linked.isolate_orphans root.i.addr root.i.d.sid fuel [] root.children [] nr next =
      .ok (children1, helpers, nr1, next1)) :
    (((Linked.pstree_item.mk root.i children1).items ++ Linked.items_list helpers).map
        Linked.Item.ident).Perm
      ((helpers.map Linked.pstree_item.i).map Linked.Item.ident ++
        root.items.map Linked.Item.ident) := by
  have hp := linked_isolate_orphans_perm Linked.Item.ident (fun _ _ => rfl) _ _ _ _ _ _ _ _ _ _
    _ _ h
  simp only [linked_items_list_nil, List.nil_append, List.flatMap_nil, List.append_nil,
    List.map_append] at hp
  have hh := (linked_items_list_helpers_perm helpers).map Linked.Item.ident
  rw [List.map_append] at hh
  rw [linked_items_mk, linked_items_eq root, List.map_append, List.map_cons, List.map_cons,
    List.cons_append]
  refine List.Perm.trans ?_ List.perm_middle.symm
  refine List.Perm.cons _ ?_
  refine (List.Perm.append_left _ hh).trans ?_
  rw [← List.append_assoc]
  refine (List.Perm.append_right _ List.perm_append_comm).trans ?_
  rw [List.append_assoc]
  exact List.Perm.append_left _ hp

theorem linked_pass_a_inv (root : Linked.pstree_item) (nr next0 : Nat)
    (children1 helpers : List Linked.pstree_item) (nr1 next1 : Nat)
    (hwl : Linked.well_linked root.i.parent root)
    (hnd : (root.items.map (fun x => x.addr)).Nodup)
    (hfree : ∀ x ∈ root.items, x.addr < next0)
    (h : Linked.isolate_orphans root.i.addr root.i.d.sid (root.children.length + 1) []
      root.children [] nr next0 = .ok (children1, helpers, nr1, next1)) :
    Linked.repair_inv root next0 next1 helpers (.mk root.i children1) ∧ next0 ≤ next1 := by
  have hcards := linked_pass_a_cards root _ _ _ _ _ _ _ h
  obtain ⟨new, e1, e2, -, -, e5⟩ := linked_isolate_orphans_post root.i.addr root.i.d.sid
    (root.children.length + 1) [] root.children [] nr next0 (by omega)
  rw [e1] at h
  simp only [List.nil_append, Except.ok.injEq, Prod.mk.injEq] at h
  obtain ⟨rfl, rfl, rfl, rfl⟩ := h
  rw [linked_wl_eq] at hwl
  have hkids := (linked_wl_list_iff _ _).mp hwl.2
  have hnew : ∀ x ∈ new, x.i.d.state = Kind.HELPER ∧ x.i.d.threads = [] ∧
      next0 ≤ x.i.addr ∧ x.i.addr < next0 + new.length ∧
      Linked.well_linked (some root.i.addr) x := by
    intro x hx
    obtain ⟨c, hc, -, he⟩ := e2 x hx
    have ha : x.i.addr ∈ List.range' next0 new.length := by
      rw [← e5]
      exact List.mem_map.mpr ⟨x, hx, rfl⟩
    rw [List.mem_range'_1] at ha
    refine ⟨by rw [he]; rfl, by rw [he]; rfl, ha.1, ha.2, ?_⟩
    rw [he, linked_wl_mk]
    refine ⟨rfl, ?_⟩
    rw [linked_wl_list_iff]
    intro y hy
    obtain ⟨y0, hy0, rfl⟩ := List.mem_map.mp hy
    have hy1 : y0 ∈ root.children := (List.mem_filter.mp (List.mem_reverse.mp hy0)).1
    have := (linked_wl_eq _ _).mp (hkids y0 hy1)
    rw [Linked.pstree_item.set_parent, linked_wl_mk]
    exact ⟨rfl, this.2⟩
  have hmemc : ∀ c, c ∈ ((Linked.pstree_item.mk root.i
      (root.children.filter (Linked.stays root.i.d.sid))).items ++
        Linked.items_list new).map Linked.Item.ident ↔
      c ∈ (new.map Linked.pstree_item.i).map Linked.Item.ident ∨
        c ∈ root.items.map Linked.Item.ident := by
    intro c
    rw [hcards.mem_iff, List.mem_append]
  refine ⟨⟨?_, ?_, ?_, ?_, ?_, ?_, rfl⟩, by omega⟩
  · rw [(hcards.map Prod.fst).nodup_iff, List.map_append, List.nodup_append]
    have ea : ((new.map Linked.pstree_item.i).map Linked.Item.ident).map Prod.fst =
        List.range' next0 new.length := by
      rw [← e5, List.map_map, List.map_map]
      rfl
    have eb : (root.items.map Linked.Item.ident).map Prod.fst =
        root.items.map (fun x => x.addr) := by
      rw [List.map_map]
      rfl
    rw [ea, eb]
    refine ⟨List.nodup_range' _ _, hnd, ?_⟩
    intro a ha hb
    rw [List.mem_range'_1] at ha
    obtain ⟨x, hx, rfl⟩ := List.mem_map.mp hb
    have := hfree x hx
    omega
  · intro x hx
    exact (hmemc _).mpr (Or.inr (List.mem_map.mpr ⟨x, hx, rfl⟩))
  · intro c hc
    rcases (hmemc c).mp hc with hc | hc
    · right
      obtain ⟨i, hi, rfl⟩ := List.mem_map.mp hc
      obtain ⟨x, hx, rfl⟩ := List.mem_map.mp hi
      obtain ⟨a1, a2, a3, -, -⟩ := hnew x hx
      exact ⟨a1, a2, a3⟩
    · exact Or.inl hc
  · intro c hc
    rcases (hmemc c).mp hc with hc | hc
    · obtain ⟨i, hi, rfl⟩ := List.mem_map.mp hc
      obtain ⟨x, hx, rfl⟩ := List.mem_map.mp hi
      exact (hnew x hx).2.2.2.1
    · obtain ⟨x, hx, rfl⟩ := List.mem_map.mp hc
      have := hfree x hx
      show x.addr < next0 + new.length
      omega
  · rw [linked_wl_mk]
    refine ⟨hwl.1, ?_⟩
    rw [linked_wl_list_iff]
    intro c hc
    exact hkids c (List.mem_filter.mp hc).1
  · intro x hx
    exact ⟨(hnew x hx).2.2.2.2, (hnew x hx).2.2.1⟩

theorem linked_attach_cards (z : Linked.Cursor) (child : Linked.pstree_item)
    (pre post : List Linked.pstree_item) (a : Nat) (pgid m : Int) :
    ∃ R : List Linked.Item,
      (z.root.items ++ Linked.items_list (pre ++ child :: post)).Perm (child.i :: R) ∧
      ((z.list_add (Linked.renumber_helper child a pgid m)).root.items ++
        Linked.items_list (pre ++ post)).Perm ((Linked.renumber_helper child a pgid m).i :: R) := by
  refine ⟨z.root.items ++ (Linked.items_list pre ++
    (Linked.items_list child.children ++ Linked.items_list post)), ?_, ?_⟩
  · rw [linked_items_list_append, linked_items_list_cons, linked_items_eq child]
    simp only [List.cons_append, List.append_assoc]
    refine (List.Perm.append_left _ List.perm_middle).trans ?_
    exact List.perm_middle
  · have hp := linked_list_add_perm z (Linked.renumber_helper child a pgid m)
    refine (List.Perm.append_right _ hp).trans ?_
    rw [linked_items_list_append, Linked.renumber_helper, linked_items_mk]
    simp only [List.cons_append, List.append_assoc, Linked.pstree_item.i]
    refine List.Perm.cons _ ?_
    refine (List.perm_append_comm_assoc _ _ _).trans ?_
    exact List.Perm.append_left _ (List.perm_append_comm_assoc _ _ _)

theorem linked_pass_b_inv (input : Linked.pstree_item) (next0 bound : Nat)
    (hfree : ∀ x ∈ input.items, x.addr < next0)
    (fuel : Nat) (s s' : List Linked.pstree_item × Int) (t t' : Linked.pstree_item)
    (h0 : Linked.repair_inv input next0 bound s.1 t)
    (h : Linked.for_each_pstree_item Linked.connect_body fuel s (Linked.Cursor.of_root t) =
      .ok (s', t')) :
    Linked.repair_inv input next0 bound s'.1 t' := by
  refine linked_connect_loop_inv (fun st r => Linked.repair_inv input next0 bound st.1 r)
    ?_ ?_ fuel s s' t t' h0 h
  · intro st z ctx1 hI hu
    obtain ⟨q1, q2, q3, q4, q5, q6, q7⟩ := hI
    have hc : (({ z with ctx := ctx1 } : Linked.Cursor).root.items ++
        Linked.items_list st.1).map Linked.Item.ident =
        (z.root.items ++ Linked.items_list st.1).map Linked.Item.ident := by
      rw [List.map_append, List.map_append]
      congr 1
      exact linked_plug_all_upd Linked.Item.ident (fun _ _ => rfl) z.ctx ctx1 z.focus z.focus
        hu rfl
    have hi := linked_plug_all_upd_i z.ctx ctx1 z.focus z.focus hu ⟨rfl, rfl⟩
    have ha : ({ z with ctx := ctx1 } : Linked.Cursor).root.i.addr = z.root.i.addr := hi.1
    refine ⟨by rw [hc]; exact q1, by rw [hc]; exact q2, by rw [hc]; exact q3,
      by rw [hc]; exact q4, ?_, ?_, by rw [ha]; exact q7⟩
    · have hw := linked_wl_ctx_upd input.i.parent z.ctx ctx1 hu
      have q5' := (linked_wl_plug_all input.i.parent z.ctx z.focus).mp q5
      refine (linked_wl_plug_all input.i.parent ctx1 z.focus).mpr ⟨?_, hw.2.mpr q5'.2⟩
      rw [hw.1]
      exact q5'.1
    · intro x hx
      rw [ha]
      exact q6 x hx
  · intro st z child helpers1 hI ht
    obtain ⟨q1, q2, q3, q4, q5, q6, q7⟩ := hI
    obtain ⟨pre, post, e1, e2⟩ := linked_take_helper_some _ _ _ _ ht
    simp only
    subst e2
    rw [e1] at q1 q2 q3 q4 q6
    obtain ⟨R, r1, r2⟩ := linked_attach_cards z child pre post z.focus.i.addr z.focus.i.d.pgid
      (wrap32 (st.2 + 1))
    have c1 := r1.map Linked.Item.ident
    have c2 := r2.map Linked.Item.ident
    rw [List.map_cons] at c1 c2
    have hchild := q6 child (by simp)
    have hroot : (z.list_add (Linked.renumber_helper child z.focus.i.addr z.focus.i.d.pgid
        (wrap32 (st.2 + 1)))).root.i = z.root.i := linked_list_add_root_i z _
    have hcard : child.i.ident ∈ input.items.map Linked.Item.ident ∨
        (child.i.d.state = Kind.HELPER ∧ child.i.d.threads = [] ∧ next0 ≤ child.i.addr) :=
      q3 _ (c1.symm.subset (List.mem_cons_self _ _))
    have hhelper : child.i.d.state = Kind.HELPER ∧ child.i.d.threads = [] := by
      rcases hcard with hc | hc
      · exfalso
        obtain ⟨x, hx, he⟩ := List.mem_map.mp hc
        have hxa : x.addr = child.i.addr := congrArg Prod.fst he
        have := hfree x hx
        have := hchild.2
        omega
      · exact ⟨hc.1, hc.2.1⟩
    refine ⟨?_, ?_, ?_, ?_, ?_, ?_, ?_⟩
    · rw [(c2.map Prod.fst).nodup_iff]
      have := (c1.map Prod.fst).nodup_iff.mp q1
      exact this
    · intro x hx
      have hm := c1.subset (q2 x hx)
      rcases List.mem_cons.mp hm with hm | hm
      · exfalso
        have hxa : x.addr = child.i.addr := congrArg Prod.fst hm
        have := hfree x hx
        have := hchild.2
        omega
      · exact c2.symm.subset (List.mem_cons_of_mem _ hm)
    · intro c hc
      rcases List.mem_cons.mp (c2.subset hc) with rfl | hm
      · right
        exact ⟨hhelper.1, hhelper.2, hchild.2⟩
      · exact q3 c (c1.symm.subset (List.mem_cons_of_mem _ hm))
    · intro c hc
      rcases List.mem_cons.mp (c2.subset hc) with rfl | hm
      · exact q4 child.i.ident (c1.symm.subset (List.mem_cons_self _ _))
      · exact q4 c (c1.symm.subset (List.mem_cons_of_mem _ hm))
    · have q5' := (linked_wl_plug_all input.i.parent z.ctx z.focus).mp q5
      refine (linked_wl_plug_all input.i.parent z.ctx _).mpr ⟨?_, q5'.2⟩
      have hf := (linked_wl_eq _ _).mp q5'.1
      simp only [Linked.Cursor.list_add]
      rw [linked_wl_mk, linked_wl_list_cons]
      refine ⟨hf.1, ?_, hf.2⟩
      rw [Linked.renumber_helper, linked_wl_mk]
      exact ⟨rfl, ((linked_wl_eq _ _).mp hchild.1).2⟩
    · intro x hx
      rw [hroot]
      apply q6
      rcases List.mem_append.mp hx with hx | hx
      · exact List.mem_append_left _ hx
      · exact List.mem_append_right _ (List.mem_cons_of_mem _ hx)
    · rw [hroot]
      exact q7

theorem linked_pass_c_inv (input : Linked.pstree_item) (next0 bound : Nat)
    (helpers : List Linked.pstree_item) (r : Linked.pstree_item)
    (h : Linked.repair_inv input next0 bound helpers r) :
    Linked.repair_inv input next0 bound [] (.mk r.i (helpers ++ r.children)) := by
  obtain ⟨q1, q2, q3, q4, q5, q6, q7⟩ := h
  have hp : ((Linked.pstree_item.mk r.i (helpers ++ r.children)).items ++
      Linked.items_list []).Perm (r.items ++ Linked.items_list helpers) := by
    rw [linked_items_list_nil, List.append_nil, linked_items_mk, linked_items_list_append,
      linked_items_eq r, List.cons_append]
    exact List.Perm.cons _ List.perm_append_comm
  have hc := hp.map Linked.Item.ident
  refine ⟨?_, ?_, ?_, ?_, ?_, by simp, q7⟩
  · rw [(hc.map Prod.fst).nodup_iff]
    exact q1
  · intro x hx
    exact hc.symm.subset (q2 x hx)
  · intro c hc'
    exact q3 c (hc.subset hc')
  · intro c hc'
    exact q4 c (hc.subset hc')
  · have hr := (linked_wl_eq _ _).mp q5
    rw [linked_wl_mk, linked_wl_list_append]
    refine ⟨hr.1, ?_, hr.2⟩
    rw [linked_wl_list_iff]
    intro x hx
    exact (q6 x hx).1

theorem linked_pass_d_inv (current_pgid : Int) (input : Linked.pstree_item) (next0 : Nat)
    (fuel : Nat) (s s' : Nat × Nat) (t t' : Linked.pstree_item)
    (h0 : Linked.repair_inv input next0 s.2 [] t) (hn : next0 ≤ s.2)
    (h : Linked.for_each_pstree_item (Linked.group_leader_body current_pgid) fuel s
      (Linked.Cursor.of_root t) = .ok (s', t')) :
    Linked.repair_inv input next0 s'.2 [] t' ∧ next0 ≤ s'.2 := by
  refine linked_group_loop_inv current_pgid
    (fun st r => Linked.repair_inv input next0 st.2 [] r ∧ next0 ≤ st.2) ?_ fuel s s' t t'
    ⟨h0, hn⟩ h
  intro st z ⟨⟨q1, q2, q3, q4, q5, q6, q7⟩, hge⟩
  have hp : ((z.list_add (.mk ⟨st.2, some z.focus.i.addr, group_helper z.focus.i.d⟩ [])).root.items
      ++ Linked.items_list []).Perm
      ((⟨st.2, some z.focus.i.addr, group_helper z.focus.i.d⟩ : Linked.Item) ::
        (z.root.items ++ Linked.items_list [])) := by
    rw [linked_items_list_nil, List.append_nil, List.append_nil]
    have := linked_list_add_perm z (.mk ⟨st.2, some z.focus.i.addr, group_helper z.focus.i.d⟩ [])
    rw [linked_items_mk, linked_items_list_nil] at this
    exact this
  have hc := hp.map Linked.Item.ident
  rw [List.map_cons] at hc
  refine ⟨⟨?_, ?_, ?_, ?_, ?_, by simp, ?_⟩, by simp only; omega⟩
  · rw [(hc.map Prod.fst).nodup_iff, List.map_cons, List.nodup_cons]
    refine ⟨?_, q1⟩
    intro hm
    obtain ⟨c, hcm, he⟩ := List.mem_map.mp hm
    have := q4 c hcm
    have he' : c.1 = st.2 := he
    omega
  · intro x hx
    exact hc.symm.subset (List.mem_cons_of_mem _ (q2 x hx))
  · intro c hc'
    rcases List.mem_cons.mp (hc.subset hc') with rfl | hm
    · right
      exact ⟨rfl, rfl, hge⟩
    · exact q3 c hm
  · intro c hc'
    rcases List.mem_cons.mp (hc.subset hc') with rfl | hm
    · show st.2 < st.2 + 1
      omega
    · have := q4 c hm
      show c.1 < st.2 + 1
      omega
  · have q5' := (linked_wl_plug_all input.i.parent z.ctx z.focus).mp q5
    refine (linked_wl_plug_all input.i.parent z.ctx _).mpr ⟨?_, q5'.2⟩
    have hf := (linked_wl_eq _ _).mp q5'.1
    simp only [Linked.Cursor.list_add]
    rw [linked_wl_mk, linked_wl_list_cons]
    refine ⟨hf.1, ?_, hf.2⟩
    rw [linked_wl_mk]
    exact ⟨rfl, linked_wl_list_nil _⟩
  · rw [linked_list_add_root_i]
    exact q7

theorem linked_prepare_pstree_ids_ok (current_pgid : Int) (g g' : Linked.Globals)
    (h : Linked.prepare_pstree_ids current_pgid g = .ok g') :
    ∃ (root : Linked.pstree_item) (children1 helpers : List Linked.pstree_item) (nr1 next1 : Nat)
      (helpers2 : List Linked.pstree_item) (max_pid2 : Int) (root2 : Linked.pstree_item)
      (nr4 next4 : Nat) (root4 : Linked.pstree_item),
      g.root_item = some root ∧
      Linked.isolate_orphans root.i.addr root.i.d.sid (root.children.length + 1) []
        root.children [] g.task_entries.nr_helpers g.next_addr =
          .ok (children1, helpers, nr1, next1) ∧
      Linked.for_each_pstree_item Linked.connect_body
        ((Linked.pstree_item.mk root.i children1).size + (Linked.items_list helpers).length)
        (helpers, g.max_pid) (Linked.Cursor.of_root (.mk root.i children1)) =
          .ok ((helpers2, max_pid2), root2) ∧
      Linked.for_each_pstree_item (Linked.group_leader_body current_pgid)
        (2 * (Linked.pstree_item.mk root2.i (helpers2 ++ root2.children)).size) (nr1, next1)
        (Linked.Cursor.of_root (.mk root2.i (helpers2 ++ root2.children))) =
          .ok ((nr4, next4), root4) ∧
      g' = { root_item := some root4, max_pid := max_pid2,
             task_entries := { g.task_entries with nr_helpers := nr4 },
             next_addr := next4 } := by
  unfold Linked.prepare_pstree_ids at h
  cases hr : g.root_item with
  | none => simp [hr] at h
  | some root =>
    simp only [hr] at h
    cases ha : Linked.isolate_orphans root.i.addr root.i.d.sid (root.children.length + 1) []
        root.children [] g.task_entries.nr_helpers g.next_addr with
    | error e => simp [ha] at h
    | ok ra =>
      obtain ⟨children1, helpers, nr1, next1⟩ := ra
      simp only [ha] at h
      cases hb : Linked.for_each_pstree_item Linked.connect_body
          ((Linked.pstree_item.mk root.i children1).size + (Linked.items_list helpers).length)
          (helpers, g.max_pid) (Linked.Cursor.of_root (.mk root.i children1)) with
      | error e => simp [hb] at h
      | ok rb =>
        obtain ⟨⟨helpers2, max_pid2⟩, root2⟩ := rb
        simp only [hb] at h
        cases hd : Linked.for_each_pstree_item (Linked.group_leader_body current_pgid)
            (2 * (Linked.pstree_item.mk root2.i (helpers2 ++ root2.children)).size) (nr1, next1)
            (Linked.Cursor.of_root (.mk root2.i (helpers2 ++ root2.children))) with
        | error e => simp [hd] at h
        | ok rd =>
          obtain ⟨⟨nr4, next4⟩, root4⟩ := rd
          simp only [hd, Except.ok.injEq] at h
          exact ⟨root, children1, helpers, nr1, next1, helpers2, max_pid2, root2, nr4, next4,
            root4, rfl, ha, hb, hd, h.symm⟩

theorem linked_repair_inv (current_pgid : Int) (g g' : Linked.Globals)
    (root root' : Linked.pstree_item)
    (h : Linked.prepare_pstree_ids current_pgid g = .ok g') (hr : g.root_item = some root)
    (hr' : g'.root_item = some root')
    (hwl : Linked.well_linked root.i.parent root)
    (hnd : (root.items.map (fun x => x.addr)).Nodup)
    (hfree : ∀ x ∈ root.items, x.addr < g.next_addr) :
    Linked.repair_inv root g.next_addr g'.next_addr [] root' := by
  obtain ⟨root0, children1, helpers, nr1, next1, helpers2, max_pid2, root2, nr4, next4, root4,
    e0, ea, eb, ed, rfl⟩ := linked_prepare_pstree_ids_ok current_pgid g g' h
  rw [hr] at e0
  simp only [Option.some.injEq] at e0 hr'
  subst e0 hr'
  obtain ⟨iA, hge⟩ := linked_pass_a_inv root _ _ _ _ _ _ hwl hnd hfree ea
  have iB := linked_pass_b_inv root g.next_addr next1 hfree _ (helpers, g.max_pid)
    (helpers2, max_pid2) _ root2 iA eb
  have iC := linked_pass_c_inv root g.next_addr next1 helpers2 root2 iB
  exact (linked_pass_d_inv current_pgid root g.next_addr _ (nr1, next1) (nr4, next4) _ root4
    iC hge ed).1

theorem linked_erase_plug (f : Linked.Frame) (t : Linked.pstree_item) :
    (f.plug t).erase = f.erase.plug t.erase := by
  simp [Linked.Frame.plug, Frame.plug, Linked.Frame.erase, linked_erase_mk,
    linked_erase_list_append, linked_erase_list_cons]

theorem linked_erase_plug_all : ∀ (ctx : List Linked.Frame) (t : Linked.pstree_item),
    (Linked.plug_all t ctx).erase = plug_all t.erase (ctx.map Linked.Frame.erase)
  | [], t => rfl
  | f :: fs, t => by
    simp only [Linked.plug_all, List.map_cons, plug_all, linked_erase_plug_all fs,
      linked_erase_plug]

theorem linked_erase_root (z : Linked.Cursor) : z.root.erase = z.erase.root :=
  linked_erase_plug_all z.ctx z.focus

theorem linked_erase_next_up : ∀ (ctx : List Linked.Frame) (t : Linked.pstree_item),
    next_up t.erase (ctx.map Linked.Frame.erase) =
      (Linked.next_up t ctx).map Linked.Cursor.erase
  | [], t => rfl
  | f :: fs, t => by
    simp only [List.map_cons, next_up, Linked.next_up]
    cases hr : f.right with
    | nil =>
      have : f.erase.right = [] := by simp [Linked.Frame.erase, hr, linked_erase_list_nil]
      rw [this]
      simp only
      rw [← linked_erase_plug, linked_erase_next_up fs]
    | cons r rs =>
      have : f.erase.right = r.erase :: Linked.erase_list rs := by
        simp [Linked.Frame.erase, hr, linked_erase_list_cons]
      rw [this]
      simp [Linked.Cursor.erase, Linked.Frame.erase, linked_erase_list_append,
        linked_erase_list_cons, linked_erase_list_nil]

theorem linked_erase_next (z : Linked.Cursor) :
    pstree_item_next z.erase = (Linked.pstree_item_next z).map Linked.Cursor.erase := by
  obtain ⟨⟨i, cs⟩, ctx⟩ := z
  cases cs with
  | nil =>
    simp only [Linked.Cursor.erase, linked_erase_mk, linked_erase_list_nil, pstree_item_next,
      Linked.pstree_item_next]
    have := linked_erase_next_up ctx (.mk i [])
    rw [linked_erase_mk, linked_erase_list_nil] at this
    exact this
  | cons c cs =>
    simp [Linked.Cursor.erase, linked_erase_mk, linked_erase_list_cons, pstree_item_next,
      Linked.pstree_item_next, Linked.Frame.erase, linked_erase_list_nil]

theorem linked_for_each_erase {σ σ0 : Type} (φ : σ → σ0)
    (body : σ → Linked.Cursor → Except Err (σ × Linked.Cursor))
    (body0 : σ0 → Cursor → Except Err (σ0 × Cursor))
    (hbody : ∀ s z, body0 (φ s) z.erase =
      Except.map (fun r => (φ r.1, r.2.erase)) (body s z)) :
    ∀ (fuel : Nat) (s : σ) (z : Linked.Cursor),
    for_each_pstree_item body0 fuel (φ s) z.erase =
      Except.map (fun r => (φ r.1, r.2.erase)) (Linked.for_each_pstree_item body fuel s z)
  | 0, s, z => rfl
  | fuel + 1, s, z => by
    simp only [for_each_pstree_item, Linked.for_each_pstree_item, hbody]
    cases hb : body s z with
    | error e => rfl
    | ok r =>
      obtain ⟨s1, z1⟩ := r
      simp only [Except.map, linked_erase_next]
      cases hn : Linked.pstree_item_next z1 with
      | none =>
        simp only [Option.map_none', linked_erase_root]
      | some z2 =>
        simp only [Option.map_some']
        exact linked_for_each_erase φ body body0 hbody fuel s1 z2

mutual
theorem linked_erase_flat : ∀ t : Linked.pstree_item,
    t.erase.flat = t.items.map (fun x => x.d)
  | .mk i cs => by
    rw [linked_erase_mk, flat_mk, linked_items_mk, List.map_cons, linked_erase_flat_list cs]

theorem linked_erase_flat_list : ∀ cs : List Linked.pstree_item,
    flat_list (Linked.erase_list cs) = (Linked.items_list cs).map (fun x => x.d)
  | [] => by simp [linked_erase_list_nil, flat_list_nil, linked_items_list_nil]
  | c :: cs => by
    rw [linked_erase_list_cons, flat_list_cons, linked_items_list_cons, List.map_append,
      linked_erase_flat c, linked_erase_flat_list cs]
end

theorem linked_erase_size (t : Linked.pstree_item) : t.erase.size = t.size := by
  simp [pstree_item.size, Linked.pstree_item.size, linked_erase_flat]
theorem linked_erase_born_sid_walk (sid : Int) : ∀ (ctx : List Linked.Frame),
    born_sid_walk sid (ctx.map Linked.Frame.erase) =
      match Linked.born_sid_walk sid ctx with
      | .error e => .error e
      | .ok ctx1 => .ok (ctx1.map Linked.Frame.erase)
  | [] => rfl
  | f :: fs => by
    simp only [List.map_cons, born_sid_walk, Linked.born_sid_walk]
    have hd : f.erase.d = f.i.d := rfl
    rw [hd]
    split_ifs with h1 h2
    · rfl
    · rfl
    · rw [linked_erase_born_sid_walk sid fs]
      cases Linked.born_sid_walk sid fs with
      | error e => rfl
      | ok fs1 => rfl

theorem linked_erase_take_helper (sid : Int) : ∀ (l : List Linked.pstree_item),
    take_helper sid (Linked.erase_list l) =
      (Linked.take_helper sid l).map (fun r => (r.1.erase, Linked.erase_list r.2))
  | [] => rfl
  | c :: l => by
    simp only [linked_erase_list_cons, take_helper, Linked.take_helper, linked_erase_d]
    split_ifs with h1 h2
    · rw [linked_erase_take_helper sid l]
      cases Linked.take_helper sid l with
      | none => rfl
      | some r => simp [linked_erase_list_cons]
    · rw [linked_erase_take_helper sid l]
      cases Linked.take_helper sid l with
      | none => rfl
      | some r => simp [linked_erase_list_cons]
    · rfl

theorem linked_erase_list_add (z : Linked.Cursor) (x : Linked.pstree_item) :
    (z.list_add x).erase = z.erase.list_add x.erase := by
  simp [Linked.Cursor.list_add, Cursor.list_add, Linked.Cursor.erase, linked_erase_mk,
    linked_erase_list_cons, linked_erase_d, linked_erase_children]

theorem linked_erase_renumber (child : Linked.pstree_item) (a : Nat) (pgid m : Int) :
    (Linked.renumber_helper child a pgid m).erase = renumber_helper child.erase pgid m := by
  simp [Linked.renumber_helper, renumber_helper, linked_erase_mk, linked_erase_d,
    linked_erase_children]

theorem linked_erase_connect_body (s : List Linked.pstree_item × Int) (z : Linked.Cursor) :
    connect_body (Linked.erase_list s.1, s.2) z.erase =
      Except.map (fun r => ((Linked.erase_list r.1.1, r.1.2), r.2.erase))
        (Linked.connect_body s z) := by
  obtain ⟨focus, ctx⟩ := z
  unfold connect_body Linked.connect_body
  cases ctx with
  | nil => rfl
  | cons parent rest =>
    have hctx : (Linked.Cursor.mk focus (parent :: rest)).erase.ctx =
        parent.erase :: rest.map Linked.Frame.erase := rfl
    have hfoc : (Linked.Cursor.mk focus (parent :: rest)).erase.focus.d = focus.i.d :=
      linked_erase_d focus
    have hpar : parent.erase.d = parent.i.d := rfl
    simp only [hctx, hfoc, hpar]
    by_cases h1 : focus.i.d.state = Kind.HELPER
    · simp only [if_pos h1]
      rfl
    · simp only [if_neg h1]
      by_cases h2 : focus.i.d.sid ≠ focus.i.d.pid_virt
      · simp only [if_pos h2]
        by_cases h3 : parent.i.d.sid = focus.i.d.sid
        · simp only [if_pos h3]
          rfl
        · simp only [if_neg h3]
          have hw := linked_erase_born_sid_walk focus.i.d.sid (parent :: rest)
          simp only [List.map_cons] at hw
          rw [hw]
          cases Linked.born_sid_walk focus.i.d.sid (parent :: rest) with
          | error e => rfl
          | ok ctx1 => rfl
      · simp only [if_neg h2]
        rw [linked_erase_take_helper]
        cases ht : Linked.take_helper focus.i.d.sid s.1 with
        | none => rfl
        | some r =>
          obtain ⟨child, helpers1⟩ := r
          simp only [Option.map_some', Except.map]
          rw [linked_erase_list_add, linked_erase_renumber]

theorem linked_erase_group_leader_body (current_pgid : Int) (s : Nat × Nat)
    (z : Linked.Cursor) :
    group_leader_body current_pgid s.1 z.erase =
      Except.map (fun r => (r.1.1, r.2.erase)) (Linked.group_leader_body current_pgid s z) := by
  unfold group_leader_body Linked.group_leader_body
  have hfoc : z.erase.focus.d = z.focus.i.d := linked_erase_d z.focus
  rw [hfoc, ← linked_erase_root]
  by_cases h1 : z.focus.i.d.pgid = 0 ∨ z.focus.i.d.pid_virt = z.focus.i.d.pgid
  · simp only [if_pos h1]
    rfl
  · simp only [if_neg h1]
    cases pstree_item_search (fun d => decide (d.pid_virt = z.focus.i.d.pgid))
        z.root.erase.size (Cursor.of_root z.root.erase) with
    | error e => rfl
    | ok r =>
      cases r with
      | some c => rfl
      | none =>
        simp only
        by_cases h2 : current_pgid = z.focus.i.d.pgid
        · simp only [if_pos h2]
          rfl
        · simp only [if_neg h2, Except.map]
          rw [linked_erase_list_add, linked_erase_mk, linked_erase_list_nil]
theorem linked_erase_of_root (t : Linked.pstree_item) :
    (Linked.Cursor.of_root t).erase = Cursor.of_root t.erase := rfl

theorem linked_prepare_pstree_ids_erase (current_pgid : Int) (g : Linked.Globals) :
    prepare_pstree_ids current_pgid g.erase =
      Except.map Linked.Globals.erase (Linked.prepare_pstree_ids current_pgid g) := by
  unfold prepare_pstree_ids Linked.prepare_pstree_ids
  cases hr : g.root_item with
  | none =>
    have hre : g.erase.root_item = none := by simp [Linked.Globals.erase, hr]
    simp only [hre]
    rfl
  | some root =>
    have hre : g.erase.root_item = some root.erase := by simp [Linked.Globals.erase, hr]
    have hnr : g.erase.task_entries = g.task_entries := rfl
    have hmax : g.erase.max_pid = g.max_pid := rfl
    simp only [hre, hnr, hmax]
    have hA := linked_isolate_orphans_erase root.i.addr root.i.d.sid
      (root.children.length + 1) [] root.children [] g.task_entries.nr_helpers g.next_addr
    rw [linked_erase_list_nil] at hA
    rw [linked_erase_d, linked_erase_children, linked_erase_list_length, hA]
    cases ha : Linked.isolate_orphans root.i.addr root.i.d.sid (root.children.length + 1) []
        root.children [] g.task_entries.nr_helpers g.next_addr with
    | error e => rfl
    | ok ra =>
      obtain ⟨children1, helpers, nr1, next1⟩ := ra
      simp only
      have hB := linked_for_each_erase
        (fun (s : List Linked.pstree_item × Int) => (Linked.erase_list s.1, s.2))
        Linked.connect_body connect_body linked_erase_connect_body
        ((Linked.pstree_item.mk root.i children1).size + (Linked.items_list helpers).length)
        (helpers, g.max_pid) (Linked.Cursor.of_root (.mk root.i children1))
      simp only [linked_erase_of_root, linked_erase_mk] at hB
      have hf1 : (pstree_item.mk root.i.d (Linked.erase_list children1)).size +
          (flat_list (Linked.erase_list helpers)).length =
          (Linked.pstree_item.mk root.i children1).size + (Linked.items_list helpers).length := by
        rw [← linked_erase_mk, linked_erase_size, linked_erase_flat_list, List.length_map]
      rw [hf1, hB]
      cases hb : Linked.for_each_pstree_item Linked.connect_body
          ((Linked.pstree_item.mk root.i children1).size + (Linked.items_list helpers).length)
          (helpers, g.max_pid) (Linked.Cursor.of_root (.mk root.i children1)) with
      | error e => rfl
      | ok rb =>
        obtain ⟨⟨helpers2, max_pid2⟩, root2⟩ := rb
        simp only [Except.map]
        have hD := linked_for_each_erase (fun (s : Nat × Nat) => s.1)
          (Linked.group_leader_body current_pgid) (group_leader_body current_pgid)
          (linked_erase_group_leader_body current_pgid)
          (2 * (Linked.pstree_item.mk root2.i (helpers2 ++ root2.children)).size) (nr1, next1)
          (Linked.Cursor.of_root (.mk root2.i (helpers2 ++ root2.children)))
        simp only [linked_erase_of_root, linked_erase_mk, linked_erase_list_append] at hD
        have hf2 : (pstree_item.mk root2.erase.d
            (Linked.erase_list helpers2 ++ root2.erase.children)).size =
            (Linked.pstree_item.mk root2.i (helpers2 ++ root2.children)).size := by
          rw [linked_erase_d, linked_erase_children, ← linked_erase_list_append,
            ← linked_erase_mk, linked_erase_size]
        rw [hf2]
        rw [linked_erase_d, linked_erase_children, hD]
        cases hd : Linked.for_each_pstree_item (Linked.group_leader_body current_pgid)
            (2 * (Linked.pstree_item.mk root2.i (helpers2 ++ root2.children)).size) (nr1, next1)
            (Linked.Cursor.of_root (.mk root2.i (helpers2 ++ root2.children))) with
        | error e => rfl
        | ok rd =>
          simp only [Except.map]
          rfl
/-- C18: on the model with addresses and `parent` fields, for every well linked input tree
with pairwise distinct addresses below the next free address on which `prepare_pstree_ids`
returns success: the resulting tree has the same root item; its items have pairwise distinct
addresses; every item of the input is in it exactly once, at its address, with its `pid.virt`,
`pgid`, `sid`, `state` and thread ids; every other item is a helper without threads at a
freshly allocated address; and every item's `parent` field holds the address of the item
whose `children` list contains it (the root's is unchanged). Without addresses and `parent`
fields the run is the run of `prepare_pstree_ids`. -/
theorem repair_only_reparents (current_pgid : Int) (g g' : Linked.Globals)
    (root root' : Linked.pstree_item)
    (h : Linked.prepare_pstree_ids current_pgid g = .ok g') (hr : g.root_item = some root)
    (hr' : g'.root_item = some root')
    (hwl : Linked.well_linked root.i.parent root)
    (hnd : (root.items.map (fun x => x.addr)).Nodup)
    (hfree : ∀ x ∈ root.items, x.addr < g.next_addr) :
    prepare_pstree_ids current_pgid g.erase = .ok g'.erase ∧
    root'.i.addr = root.i.addr ∧
    (root'.items.map (fun x => x.addr)).Nodup ∧
    (∀ x ∈ root.items, ∃ x' ∈ root'.items, x'.addr = x.addr ∧
      x'.d.pid_virt = x.d.pid_virt ∧ x'.d.pgid = x.d.pgid ∧ x'.d.sid = x.d.sid ∧
      x'.d.state = x.d.state ∧ x'.d.threads = x.d.threads) ∧
    (∀ x ∈ root.items, (root'.items.map (fun x => x.addr)).count x.addr = 1) ∧
    (∀ y ∈ root'.items, (∃ x ∈ root.items, x.addr = y.addr) ∨
      (y.d.state = Kind.HELPER ∧ y.d.threads = [] ∧ g.next_addr ≤ y.addr)) ∧
    Linked.well_linked root.i.parent root' := by
  have hsim := linked_prepare_pstree_ids_erase current_pgid g
  rw [h] at hsim
  obtain ⟨q1, q2, q3, -, q5, -, q7⟩ :=
    linked_repair_inv current_pgid g g' root root' h hr hr' hwl hnd hfree
  simp only [linked_items_list_nil, List.append_nil] at q1 q2 q3
  have hnd' : (root'.items.map (fun x => x.addr)).Nodup := by
    rw [List.map_map] at q1
    exact q1
  have hkeep : ∀ x ∈ root.items, ∃ x' ∈ root'.items, x'.ident = x.ident := by
    intro x hx
    obtain ⟨x', hx', he⟩ := List.mem_map.mp (q2 x hx)
    exact ⟨x', hx', he⟩
  refine ⟨hsim, q7, hnd', ?_, ?_, ?_, q5⟩
  · intro x hx
    obtain ⟨x', hx', he⟩ := hkeep x hx
    simp only [Linked.Item.ident, Prod.mk.injEq] at he
    exact ⟨x', hx', he.1, he.2.1, he.2.2.1, he.2.2.2.1, he.2.2.2.2.1, he.2.2.2.2.2⟩
  · intro x hx
    obtain ⟨x', hx', he⟩ := hkeep x hx
    have ha : x'.addr = x.addr := congrArg Prod.fst he
    apply List.count_eq_one_of_mem hnd'
    rw [← ha]
    exact List.mem_map.mpr ⟨x', hx', rfl⟩
  · intro y hy
    rcases q3 y.ident (List.mem_map.mpr ⟨y, hy, rfl⟩) with hc | hc
    · left
      obtain ⟨x, hx, he⟩ := List.mem_map.mp hc
      exact ⟨x, hx, congrArg Prod.fst he⟩
    · exact Or.inr hc

theorem repair_only_reparents_witness :
    ∃ g' root', Linked.prepare_pstree_ids 0
        ⟨some (.mk ⟨0, none, sample_item 1 1 1⟩
          [.mk ⟨1, some 0, sample_item 2 5 5⟩ [], .mk ⟨2, some 0, sample_item 3 1 9⟩ []]),
          9, ⟨0, 0, 0⟩, 3⟩ = .ok g' ∧
      g'.root_item = some root' ∧
      root'.items.map (fun x => (x.addr, x.parent, x.d.pid_virt)) =
        [(0, none, 1), (3, some 0, 5), (1, some 3, 2), (2, some 0, 3), (4, some 2, 9)] ∧
      Linked.well_linked none root' := by
  refine ⟨_, _, rfl, rfl, by decide, ?_⟩
  exact (repair_only_reparents 0
    ⟨some (.mk ⟨0, none, sample_item 1 1 1⟩
      [.mk ⟨1, some 0, sample_item 2 5 5⟩ [], .mk ⟨2, some 0, sample_item 3 1 9⟩ []]),
      9, ⟨0, 0, 0⟩, 3⟩ _
    (.mk ⟨0, none, sample_item 1 1 1⟩
      [.mk ⟨1, some 0, sample_item 2 5 5⟩ [], .mk ⟨2, some 0, sample_item 3 1 9⟩ []]) _
    rfl rfl rfl
    (by simp [Linked.well_linked, Linked.well_linked_list, Linked.pstree_item.i])
    (by decide) (by decide)).2.2.2.2.2.2

/-- The fuel bounds of `Linked.prepare_pstree_ids` are sufficient, and it returns success
exactly when `prepare_pstree_ids` does on the tree without addresses. -/
theorem linked_prepare_pstree_ids_total (current_pgid : Int) (g : Linked.Globals) :
    Linked.prepare_pstree_ids current_pgid g ≠ .error Err.OutOfFuel ∧
    ((∃ g', Linked.prepare_pstree_ids current_pgid g = .ok g') ↔
      ∃ g0, prepare_pstree_ids current_pgid g.erase = .ok g0) := by
  have hsim := linked_prepare_pstree_ids_erase current_pgid g
  refine ⟨?_, ?_, ?_⟩
  · intro h
    rw [h] at hsim
    exact prepare_pstree_ids_fuel current_pgid g.erase hsim
  · rintro ⟨g', h⟩
    rw [h] at hsim
    exact ⟨_, hsim⟩
  · rintro ⟨g0, h0⟩
    cases h : Linked.prepare_pstree_ids current_pgid g with
    | error e =>
      rw [h, h0] at hsim
      simp [Except.map] at hsim
    | ok g' => exact ⟨g', rfl⟩

end Pstree
